import Mathlib

/-!
# The verve-lang parser front end (`src/compiler/parser.cc`)

A shallow embedding of `ceos::Parser` and theorems about it.

The parser is a recursive-descent parser over a token stream.  It builds the
AST, interns identifier and string texts, maintains the scope chain, registers
function signatures (`m_typeInfo`) and type-checks calls while parsing.

Conventions of the embedding

* Mutable parser state (`m_lexer`, `m_ast->strings`, `str_uid`, `m_types`,
  `m_typeInfo`, `m_scope`) is one record `Parser` that is passed explicitly.
* Fallible code returns `Except Error`; every `throw`, failed `assert`, fatal
  lexer error, null dereference and out-of-range vector access is an error.
* The grammar functions are mutually recursive and their loops are unbounded,
  so each takes a `fuel` argument that decreases on every recursive call;
  running out of fuel is the error `OutOfFuel`.
* Pointers to `Type` objects are addresses (`TypePtr`), handed out by an
  allocation counter, so that pointer comparison is comparison of addresses.
* `FunctionArgument` nodes are shared and mutated after creation
  (`isCaptured`), so they live in a heap inside `Parser` and the tree refers
  to them by index.
-/

namespace ceos

/-! ## Tokens and the lexer interface -/

/-- Source span of a token or node (`loc.start`, `loc.end`). -/
structure Loc where
  start : Nat
  stop : Nat
deriving DecidableEq, Repr

/-- The value of a span that was never assigned. -/
def Loc.unset : Loc := ⟨0, 0⟩

/-- Token kinds, `Token::Type`. -/
inductive TokenType where
  | NUMBER | ID | STRING | TYPE | L_PAREN | R_PAREN | L_BRACE | R_BRACE
  | COMMA | ARROW | END
deriving DecidableEq, Repr

/-- A token: kind, span and decoded value.  `value` is the number of a
`Token::Number`; `name` is the text of a `Token::ID` or `Token::String`. -/
structure Token where
  type : TokenType
  loc : Loc
  value : Int
  name : String
deriving DecidableEq, Repr

/-- Errors that abort a parse.  The first six are the kinds of the error
taxonomy; the others are the failed assertions and undefined accesses the
source can run into.  `CounterWrapped` is the loop of `typeCheck` whose 32-bit
counter has come back to 0 with nothing changed: a loop without side effects
that never ends, which is undefined behaviour.  `OutOfFuel` is not a
behaviour of the source: it says that the fuel given to the recursive
descent was too small. -/
inductive Error where
  | UnexpectedToken
  | MissingTypeInformation (name : String)
  | UndefinedType
  | ArityMismatch
  | TypeMismatch (expected actual : Nat)
  | UnsupportedArgumentForm
  | AssertionFailed
  | NullPointer
  | OutOfBounds
  | BadCast
  | CounterWrapped
  | OutOfFuel
deriving DecidableEq, Repr

/-! ## Types -/

/-- A pointer to a `Type` object (`::ceos::Type *`): its address. -/
abbrev TypePtr := Nat

/-- A `TypeChain` object: its own address and its vector `types`.  An entry is
`none` for a null pointer. -/
structure TypeChain where
  addr : Nat
  types : List (Option TypePtr)
deriving DecidableEq, Repr

/-! ## AST -/

/-- A block: its nodes (an entry is `none` for a null pointer) and the two
scope flags. -/
structure Block (α : Type) where
  nodes : List (Option α)
  needsScope : Bool
  capturesScope : Bool
deriving Repr

/-- The payload of an `AST::ID` node. -/
structure IDNode where
  name : String
  uid : Nat
  loc : Loc
deriving DecidableEq, Repr

/-- AST nodes.  `FunctionArgument ref` is a pointer to the shared
`AST::FunctionArgument` object number `ref` of the parser heap. -/
inductive AST where
  | Number (value : Int) (loc : Loc) (typeInfo : Option TypePtr)
  | ID (id : IDNode)
  | String (name : String) (uid : Nat) (loc : Loc) (typeInfo : Option TypePtr)
  | Call (callee : AST) (arguments : List AST) (loc : Loc) (typeInfo : TypeChain)
  | If (condition : Option AST) (ifBody : Block AST) (elseBody : Option (Block AST))
  | Function (name : IDNode) (arguments : List Nat) (body : Block AST) (loc : Loc)
      (typeInfo : TypeChain)
  | FunctionArgument (ref : Nat)

/-- An `AST::FunctionArgument` object. -/
structure FunctionArgument where
  name : String
  index : Nat
  typeInfo : Option TypePtr
  isCaptured : Bool
deriving DecidableEq, Repr

/-- The result of `Parser::parse`. -/
structure Program where
  strings : List String
  body : Block AST
  loc : Loc

/-! ## Scopes -/

/-- What a scope binds a name to.  The parser only ever inspects the kind of
the bound node and, for an argument, the object itself. -/
inductive Binding where
  | Function
  | FunctionArgument (ref : Nat)
deriving DecidableEq, Repr

/-- One lexical environment. -/
structure Scope where
  table : List (String × Binding)
  isRequired : Bool
  capturesScope : Bool
deriving DecidableEq, Repr

/-- A scope without bindings and with both flags clear. -/
def Scope.empty : Scope := ⟨[], false, false⟩

/-! ## Parser state -/

/-- The state of a `Parser` object.
`tokens` is what the lexer still has to deliver; `strings` is
`m_ast->strings`; `m_scope` is the current scope and `parents` its ancestors,
nearest first; `heap` holds the `FunctionArgument` objects created so far;
`nextAddr` is the address the next `new` of a type object returns.
The maps `m_types` and `m_typeInfo` are association lists: an assignment
`m[k] = v` puts `(k, v)` in front and a lookup returns the first entry for the
key, which is the most recent assignment. -/
structure Parser where
  tokens : List Token
  strings : List String
  str_uid : Nat
  m_types : List (String × TypePtr)
  m_typeInfo : List (String × TypeChain)
  m_scope : Scope
  parents : List Scope
  heap : List FunctionArgument
  nextAddr : Nat
deriving Repr

/-- Modelled from the spec: the constructor in `parser.h` is missing.  A
freshly constructed parser has string counter 0, empty tables and a root
scope. -/
def Parser.init (tokens : List Token) : Parser :=
  { tokens := tokens, strings := [], str_uid := 0, m_types := [], m_typeInfo := [],
    m_scope := Scope.empty, parents := [], heap := [], nextAddr := 0 }

/-- The token delivered when the input is exhausted. -/
def Token.eof : Token := ⟨TokenType.END, Loc.unset, 0, ""⟩

/-- Modelled from the spec: the lexer is missing.  `m_lexer.token()` peeks at
the current token; an exhausted input delivers `END`. -/
def Parser.token (p : Parser) : Token := p.tokens.headD Token.eof

/-- Advance the lexer by one token. -/
def Parser.advance (p : Parser) : Parser := { p with tokens := p.tokens.tail }

/-- Modelled from the spec: `m_lexer.token(type)` returns the current token
and advances, and fails fatally if the kind mismatches. -/
def Parser.tokenOf (type : TokenType) (p : Parser) : Except Error (Token × Parser) :=
  if p.token.type = type then .ok (p.token, p.advance) else .error .UnexpectedToken

/-- Modelled from the spec: `m_lexer.ensure(type)` consumes a token of the
given kind and fails fatally if the kind mismatches. -/
def Parser.ensure (type : TokenType) (p : Parser) : Except Error Parser :=
  if p.token.type = type then .ok p.advance else .error .UnexpectedToken

/-- Modelled from the spec: `m_lexer.skip(type)` consumes the current token
only if it has the given kind and reports whether it did. -/
def Parser.skip (type : TokenType) (p : Parser) : Bool × Parser :=
  if p.token.type = type then (true, p.advance) else (false, p)

/-! ## Scope chain operations -/

/-- Modelled from the spec: `Scope::get(name, recursive)`, the scope class is
missing.  With `recursive = false` only the current scope is consulted,
otherwise the nearest binding along the chain is returned. -/
def Parser.scopeGet (name : String) (recursive : Bool) (p : Parser) : Option Binding :=
  match p.m_scope.table.lookup name with
  | some b => some b
  | none => if recursive then (p.parents.findSome? (fun s => s.table.lookup name)) else none

/-- Modelled from the spec: `Scope::isInCurrentScope(name)`. -/
def Parser.isInCurrentScope (name : String) (p : Parser) : Bool :=
  (p.m_scope.table.lookup name).isSome

/-- Set `isRequired` on the nearest scope of a list that binds the name. -/
def markRequired (name : String) : List Scope → List Scope
  | [] => []
  | s :: rest =>
    if (s.table.lookup name).isSome then { s with isRequired := true } :: rest
    else s :: markRequired name rest

/-- Modelled from the spec: `m_scope->scopeFor(name)->isRequired = true`, the
nearest scope (the current one included) that binds the name is marked. -/
def Parser.requireScopeFor (name : String) (p : Parser) : Parser :=
  if (p.m_scope.table.lookup name).isSome then
    { p with m_scope := { p.m_scope with isRequired := true } }
  else { p with parents := markRequired name p.parents }

/-- Modelled from the spec: `m_scope->set(name, node)`. -/
def Parser.scopeSet (name : String) (b : Binding) (p : Parser) : Parser :=
  { p with m_scope := { p.m_scope with table := (name, b) :: p.m_scope.table } }

/-- Modelled from the spec: `m_scope = m_scope->create()`. -/
def Parser.scopeCreate (p : Parser) : Parser :=
  { p with m_scope := Scope.empty, parents := p.m_scope :: p.parents }

/-- Modelled from the spec: `m_scope = m_scope->restore()`; the root scope has
no parent to return to. -/
def Parser.scopeRestore (p : Parser) : Except Error Parser :=
  match p.parents with
  | [] => .error .NullPointer
  | s :: rest => .ok { p with m_scope := s, parents := rest }

/-! ## Node accessors -/

/-- The span of a node, `ast->loc`; `If` and `FunctionArgument` nodes never
get one. -/
def AST.loc : AST → Loc
  | .Number _ loc _ => loc
  | .ID id => id.loc
  | .String _ _ loc _ => loc
  | .Call _ _ loc _ => loc
  | .If _ _ _ => Loc.unset
  | .Function _ _ _ loc _ => loc
  | .FunctionArgument _ => Loc.unset

/-- The type pointer of a node, `ast->typeInfo`.  Literals carry the registry
type, a call and a function carry their `TypeChain`, an argument carries the
type taken from the signature; `ID` and `If` nodes never get one. -/
def Parser.typeInfoOf (p : Parser) : AST → Option TypePtr
  | .Number _ _ t => t
  | .ID _ => none
  | .String _ _ _ t => t
  | .Call _ _ _ chain => some chain.addr
  | .If _ _ _ => none
  | .Function _ _ _ _ chain => some chain.addr
  | .FunctionArgument ref =>
    match p.heap[ref]? with
    | some a => a.typeInfo
    | none => none

/-- Modelled from the spec: `AST::asID`, an unchecked downcast (`ast.h` is
missing).  Used on a null pointer or on a node of another kind it is undefined
behaviour, recorded as `NullPointer` and `BadCast`. -/
def asID : Option AST → Except Error IDNode
  | none => .error .NullPointer
  | some (.ID id) => .ok id
  | some _ => .error .BadCast

/-! ## Interning (`parser.cc` 106-113 and 195-202) -/

/-- The interning code shared by `parseID` and `parseString`: find the text in
the table, else append it under the next counter value; the node gets
`m_ast->strings[uid]` and `uid`. -/
def Parser.intern (text : String) (p : Parser) : Except Error (String × Nat × Parser) :=
  let i := p.strings.indexOf text
  if i < p.strings.length then
    match p.strings[i]? with
    | some s => .ok (s, i, p)
    | none => .error .OutOfBounds
  else
    let uid := p.str_uid
    let q := { p with str_uid := p.str_uid + 1, strings := p.strings ++ [text] }
    match q.strings[uid]? with
    | some s => .ok (s, uid, q)
    | none => .error .OutOfBounds

/-! ## Literals -/

/-- The function `Parser::parseNumber`. -/
def parseNumber (p : Parser) : Except Error (AST × Parser) :=
  match p.tokenOf .NUMBER with
  | .error e => .error e
  | .ok (number, p) => .ok (.Number number.value number.loc (p.m_types.lookup "Int"), p)

/-- The function `Parser::parseString`. -/
def parseString (p : Parser) : Except Error (AST × Parser) :=
  match p.tokenOf .STRING with
  | .error e => .error e
  | .ok (string, p) =>
    match p.intern string.name with
    | .error e => .error e
    | .ok (s, uid, p) => .ok (.String s uid string.loc (p.m_types.lookup "String"), p)

/-! ## Type checking -/

/-- The loop of `Parser::typeCheck` (lines 265-273),
`for (unsigned i = 0; i < n; i++)`, at the value `i` of its counter: the
counter is an `unsigned`, 32 bits wide, so `i++` is `(i + 1) % 2 ^ 32`, and the
bound `n` is the 64-bit `size() - 1`.  An iteration changes nothing but the
counter, which has `2 ^ 32` values; the last argument counts the values the
counter has not yet had, and when none is left the counter is back at a value
it had before and the loop never ends (`CounterWrapped`). -/
def typeCheckLoop (sig call : List (Option TypePtr)) (n : Nat) :
    Nat → Nat → Except Error Unit
  | _, 0 => .error .CounterWrapped
  | i, fresh + 1 =>
    if i < n then
      match sig[i]?, call[i]? with
      | some expected, some actual =>
        if actual ≠ expected then
          match expected, actual with
          | some e, some a => .error (.TypeMismatch e a)
          | _, _ => .error .NullPointer
        else typeCheckLoop sig call n ((i + 1) % 2 ^ 32) fresh
      | _, _ => .error .OutOfBounds
    else .ok ()

/-- The function `Parser::typeCheck` on a call with the given callee,
arguments and argument type chain.  `size() - 1` is unsigned 64-bit
arithmetic; the loop starts with its counter at 0 and all `2 ^ 32` counter
values unused. -/
def typeCheck (m_typeInfo : List (String × TypeChain)) (callee : AST) (arguments : List AST)
    (callTypes : TypeChain) : Except Error Unit :=
  match callee with
  | .ID id =>
    match m_typeInfo.lookup id.name with
    | none => .error (.MissingTypeInformation id.name)
    | some typeInfo =>
      let n := (typeInfo.types.length + 2 ^ 64 - 1) % 2 ^ 64
      if arguments.length ≠ n then .error .ArityMismatch
      else typeCheckLoop typeInfo.types callTypes.types n 0 (2 ^ 32)
  | _ => .ok ()

/-! ## Identifier resolution (`parser.cc` 102-125) -/

/-- Mark the argument object `ref` as captured. -/
def Parser.setCaptured (ref : Nat) (p : Parser) : Parser :=
  { p with heap := p.heap.modify (fun a => { a with isCaptured := true }) ref }

/-- Lines 120-122 of `parseID`: the captured argument, the scope that owns
the binding and the current scope are marked. -/
def Parser.capture (ref : Nat) (name : String) (p : Parser) : Parser :=
  let p := p.setCaptured ref
  let p := p.requireScopeFor name
  { p with m_scope := { p.m_scope with capturesScope := true } }

/-- Lines 102-125 of `parseID`: reuse the argument bound in the current scope,
or intern the name, build an `ID` node and run the capture algorithm. -/
def resolveID (id : Token) (p : Parser) : Except Error (AST × Parser) :=
  match p.scopeGet id.name false with
  | some (.FunctionArgument ref) => .ok (.FunctionArgument ref, p)
  | _ =>
    match p.intern id.name with
    | .error e => .error e
    | .ok (s, uid, p) =>
      let ast := AST.ID ⟨s, uid, id.loc⟩
      match p.scopeGet id.name true with
      | some (.FunctionArgument ref) =>
        if p.isInCurrentScope id.name then .ok (ast, p)
        else .ok (ast, p.capture ref id.name)
      | _ => .ok (ast, p)

/-! ## Function declaration heads (`parser.cc` 164-180) -/

/-- Lines 166-174 of `parseFunction`: the name of an argument of the
call-shaped head, which must be an identifier or an existing argument. -/
def argumentName (p : Parser) : AST → Except Error String
  | .ID id => .ok id.name
  | .FunctionArgument ref =>
    match p.heap[ref]? with
    | some a => .ok a.name
    | none => .error .NullPointer
  | _ => .error .UnsupportedArgumentForm

/-- The loop over `call->arguments` in `parseFunction` at the value `i` of its
counter: the argument becomes a new `FunctionArgument` with index `i` and the
signature type at position `i`, appended to `fn->arguments` and bound in the
current scope.  The counter is an `unsigned`, 32 bits wide, so `i++` is
`(i + 1) % 2 ^ 32`. -/
def declareArguments (typeInfo : TypeChain) :
    List AST → Nat → List Nat → Parser → Except Error (List Nat × Parser)
  | [], _, fnArgs, p => .ok (fnArgs, p)
  | arg :: rest, i, fnArgs, p =>
    match argumentName p arg with
    | .error e => .error e
    | .ok argName =>
      match typeInfo.types[i]? with
      | none => .error .OutOfBounds
      | some ty =>
        let ref := p.heap.length
        let p := { p with heap := p.heap ++ [FunctionArgument.mk argName i ty false] }
        declareArguments typeInfo rest ((i + 1) % 2 ^ 32) (fnArgs ++ [ref])
          (p.scopeSet argName (.FunctionArgument ref))

/-! ## The grammar

The grammar functions call each other recursively.  `Grammar` bundles the
functions available for the recursive calls; each `...Body` below is the body
of one source function, with its recursive calls going to the bundle.  The
functions themselves are obtained by iterating the bodies `fuel` times over
the bundle that always runs out of fuel, so every recursive call uses up one
unit of fuel. -/

/-- The grammar functions as they are available to recursive calls. -/
structure Grammar where
  parseBlockLoop : TokenType → List (Option AST) → Parser → Except Error (Block AST × Parser)
  parseFactor : Parser → Except Error (Option AST × Parser)
  parseBranch : Parser → Except Error (Block AST × Parser)
  parseIf : Parser → Except Error (AST × Parser)
  parseID : Parser → Except Error (Option AST × Parser)
  parseIDLoop : AST → Parser → Except Error (Option AST × Parser)
  parseFunction : AST → List AST → Parser → Except Error (AST × Parser)
  parseCallLoop : List AST → List (Option TypePtr) → Parser →
    Except Error (List AST × List (Option TypePtr) × Parser)
  parseCall : AST → Parser → Except Error (AST × Parser)
  parseTypeInfo : AST → Parser → Except Error Parser
  parseTypeInfoLoop : List (Option TypePtr) → Parser →
    Except Error (List (Option TypePtr) × Parser)

/-- The loop of `Parser::parseBlock`; `nodes` is `block->nodes` so far. -/
def parseBlockLoopBody (g : Grammar) (delim : TokenType) (nodes : List (Option AST))
    (p : Parser) : Except Error (Block AST × Parser) :=
  if p.token.type = delim then
    .ok ({ nodes := nodes, needsScope := p.m_scope.isRequired,
           capturesScope := p.m_scope.capturesScope }, p)
  else
    match g.parseFactor p with
    | .error e => .error e
    | .ok (some node, p) => g.parseBlockLoop delim (nodes ++ [some node]) p
    | .ok (none, p) => g.parseBlockLoop delim nodes p

/-- The function `Parser::parseFactor`. -/
def parseFactorBody (g : Grammar) (p : Parser) : Except Error (Option AST × Parser) :=
  match p.token.type with
  | .NUMBER =>
    match parseNumber p with
    | .error e => .error e
    | .ok (ast, p) => .ok (some ast, p)
  | .ID => g.parseID p
  | .STRING =>
    match parseString p with
    | .error e => .error e
    | .ok (ast, p) => .ok (some ast, p)
  | _ => .error .UnexpectedToken

/-- One branch of `Parser::parseIf` (lines 57-65, repeated at 72-80): a
brace-delimited block, or a single factor pushed into a new block. -/
def parseBranchBody (g : Grammar) (p : Parser) : Except Error (Block AST × Parser) :=
  if p.token.type = .L_BRACE then
    match p.ensure .L_BRACE with
    | .error e => .error e
    | .ok p =>
      match g.parseBlockLoop .R_BRACE [] p with
      | .error e => .error e
      | .ok (body, p) =>
        match p.ensure .R_BRACE with
        | .error e => .error e
        | .ok p => .ok (body, p)
  else
    match g.parseFactor p with
    | .error e => .error e
    | .ok (node, p) => .ok ({ nodes := [node], needsScope := false, capturesScope := false }, p)

/-- The function `Parser::parseIf`. -/
def parseIfBody (g : Grammar) (p : Parser) : Except Error (AST × Parser) :=
  match p.ensure .L_PAREN with
  | .error e => .error e
  | .ok p =>
    match g.parseFactor p with
    | .error e => .error e
    | .ok (condition, p) =>
      match p.ensure .R_PAREN with
      | .error e => .error e
      | .ok p =>
        match g.parseBranch p with
        | .error e => .error e
        | .ok (ifBody, p) =>
          if p.token.type = .ID ∧ p.token.name = "else" then
            match p.ensure .ID with
            | .error e => .error e
            | .ok p =>
              match g.parseBranch p with
              | .error e => .error e
              | .ok (elseBody, p) => .ok (.If condition ifBody (some elseBody), p)
          else .ok (.If condition ifBody none, p)

/-- Lines 142-144 of `parseID`: the final node is type-checked if it is a
call. -/
def checkFinal (ast : AST) (p : Parser) : Except Error (Option AST × Parser) :=
  match ast with
  | .Call callee arguments _ typeInfo =>
    match typeCheck p.m_typeInfo callee arguments typeInfo with
    | .error e => .error e
    | .ok _ => .ok (some ast, p)
  | _ => .ok (some ast, p)

/-- The function `Parser::parseID`. -/
def parseIDBody (g : Grammar) (p : Parser) : Except Error (Option AST × Parser) :=
  match p.tokenOf .ID with
  | .error e => .error e
  | .ok (id, p) =>
    if id.name = "if" then
      match g.parseIf p with
      | .error e => .error e
      | .ok (ast, p) => .ok (some ast, p)
    else
      match resolveID id p with
      | .error e => .error e
      | .ok (ast, p) =>
        match g.parseIDLoop ast p with
        | .error e => .error e
        | .ok (none, p) => .ok (none, p)
        | .ok (some ast, p) => checkFinal ast p

/-- The postfix loop of `Parser::parseID` (lines 127-140).  The result is
`none` when the production was a type declaration. -/
def parseIDLoopBody (g : Grammar) (ast : AST) (p : Parser) :
    Except Error (Option AST × Parser) :=
  if p.token.type = .TYPE then
    match g.parseTypeInfo ast p with
    | .error e => .error e
    | .ok p => .ok (none, p)
  else if p.token.type = .L_PAREN then
    match g.parseCall ast p with
    | .error e => .error e
    | .ok (ast, p) => g.parseIDLoop ast p
  else if p.token.type = .L_BRACE then
    match ast with
    | .Call callee arguments _ _ =>
      match g.parseFunction callee arguments p with
      | .error e => .error e
      | .ok (ast, p) => g.parseIDLoop ast p
    | _ => .error .AssertionFailed
  else .ok (some ast, p)

/-- The function `Parser::parseFunction` on the call with the given callee and
arguments. -/
def parseFunctionBody (g : Grammar) (callee : AST) (arguments : List AST) (p : Parser) :
    Except Error (AST × Parser) :=
  match callee with
  | .ID name =>
    match p.m_typeInfo.lookup name.name with
    | none => .error (.MissingTypeInformation name.name)
    | some typeInfo =>
      let p := p.scopeSet name.name .Function
      let p := { p with m_scope := { p.m_scope with isRequired := true } }
      let p := p.scopeCreate
      match declareArguments typeInfo arguments 0 [] p with
      | .error e => .error e
      | .ok (fnArgs, p) =>
        match p.ensure .L_BRACE with
        | .error e => .error e
        | .ok p =>
          match g.parseBlockLoop .R_BRACE [] p with
          | .error e => .error e
          | .ok (body, p) =>
            match p.tokenOf .R_BRACE with
            | .error e => .error e
            | .ok (rbrace, p) =>
              match p.scopeRestore with
              | .error e => .error e
              | .ok p =>
                .ok (.Function name fnArgs body ⟨name.loc.start, rbrace.loc.stop⟩ typeInfo, p)
  | _ => .error .AssertionFailed

/-- The argument loop of `Parser::parseCall` (lines 219-226); `arguments` and
`types` are `call->arguments` and the call's type chain so far. -/
def parseCallLoopBody (g : Grammar) (arguments : List AST) (types : List (Option TypePtr))
    (p : Parser) : Except Error (List AST × List (Option TypePtr) × Parser) :=
  if p.token.type = .R_PAREN then .ok (arguments, types, p)
  else
    match g.parseFactor p with
    | .error e => .error e
    | .ok (none, _) => .error .NullPointer
    | .ok (some argument, p) =>
      let arguments := arguments ++ [argument]
      let types := types ++ [p.typeInfoOf argument]
      if p.token.type ≠ .R_PAREN then
        match p.ensure .COMMA with
        | .error e => .error e
        | .ok p => g.parseCallLoop arguments types p
      else g.parseCallLoop arguments types p

/-- The function `Parser::parseCall`. -/
def parseCallBody (g : Grammar) (callee : AST) (p : Parser) : Except Error (AST × Parser) :=
  let start := callee.loc.start
  match p.ensure .L_PAREN with
  | .error e => .error e
  | .ok p =>
    let addr := p.nextAddr
    let p := { p with nextAddr := p.nextAddr + 1 }
    match g.parseCallLoop [] [] p with
    | .error e => .error e
    | .ok (arguments, types, p) =>
      match p.tokenOf .R_PAREN with
      | .error e => .error e
      | .ok (rparen, p) =>
        .ok (.Call callee arguments ⟨start, rparen.loc.stop⟩ ⟨addr, types⟩, p)

/-- The function `Parser::parseTypeInfo`: after the `TYPE` token runs the
do-while loop and stores the chain under the target's name. -/
def parseTypeInfoBody (g : Grammar) (target : AST) (p : Parser) : Except Error Parser :=
  match p.ensure .TYPE with
  | .error e => .error e
  | .ok p =>
    let addr := p.nextAddr
    let p := { p with nextAddr := p.nextAddr + 1 }
    match g.parseTypeInfoLoop [] p with
    | .error e => .error e
    | .ok (types, p) =>
      match asID (some target) with
      | .error e => .error e
      | .ok id => .ok { p with m_typeInfo := (id.name, ⟨addr, types⟩) :: p.m_typeInfo }

/-- The do-while loop of `Parser::parseTypeInfo` (lines 238-245); `types` is
the chain so far. -/
def parseTypeInfoLoopBody (g : Grammar) (types : List (Option TypePtr)) (p : Parser) :
    Except Error (List (Option TypePtr) × Parser) :=
  match g.parseID p with
  | .error e => .error e
  | .ok (node, p) =>
    match asID node with
    | .error e => .error e
    | .ok id =>
      match p.m_types.lookup id.name with
      | none => .error .UndefinedType
      | some type =>
        let types := types ++ [some type]
        match p.skip .ARROW with
        | (true, p) => g.parseTypeInfoLoop types p
        | (false, p) => .ok (types, p)

/-- The bundle whose every function has run out of fuel. -/
def Grammar.bottom : Grammar where
  parseBlockLoop := fun _ _ _ => .error .OutOfFuel
  parseFactor := fun _ => .error .OutOfFuel
  parseBranch := fun _ => .error .OutOfFuel
  parseIf := fun _ => .error .OutOfFuel
  parseID := fun _ => .error .OutOfFuel
  parseIDLoop := fun _ _ => .error .OutOfFuel
  parseFunction := fun _ _ _ => .error .OutOfFuel
  parseCallLoop := fun _ _ _ => .error .OutOfFuel
  parseCall := fun _ _ => .error .OutOfFuel
  parseTypeInfo := fun _ _ => .error .OutOfFuel
  parseTypeInfoLoop := fun _ _ => .error .OutOfFuel

/-- One unfolding of every grammar function over the bundle `g`. -/
def Grammar.step (g : Grammar) : Grammar where
  parseBlockLoop := parseBlockLoopBody g
  parseFactor := parseFactorBody g
  parseBranch := parseBranchBody g
  parseIf := parseIfBody g
  parseID := parseIDBody g
  parseIDLoop := parseIDLoopBody g
  parseFunction := parseFunctionBody g
  parseCallLoop := parseCallLoopBody g
  parseCall := parseCallBody g
  parseTypeInfo := parseTypeInfoBody g
  parseTypeInfoLoop := parseTypeInfoLoopBody g

/-- The grammar functions with `fuel` levels of recursive calls allowed. -/
def grammar : Nat → Grammar
  | 0 => Grammar.bottom.step
  | fuel + 1 => (grammar fuel).step

/-- The loop of `Parser::parseBlock`. -/
def parseBlockLoop (fuel : Nat) := (grammar fuel).parseBlockLoop

/-- The function `Parser::parseFactor`. -/
def parseFactor (fuel : Nat) := (grammar fuel).parseFactor

/-- One branch of `Parser::parseIf`. -/
def parseBranch (fuel : Nat) := (grammar fuel).parseBranch

/-- The function `Parser::parseIf`. -/
def parseIf (fuel : Nat) := (grammar fuel).parseIf

/-- The function `Parser::parseID`. -/
def parseID (fuel : Nat) := (grammar fuel).parseID

/-- The postfix loop of `Parser::parseID`. -/
def parseIDLoop (fuel : Nat) := (grammar fuel).parseIDLoop

/-- The function `Parser::parseFunction`. -/
def parseFunction (fuel : Nat) := (grammar fuel).parseFunction

/-- The argument loop of `Parser::parseCall`. -/
def parseCallLoop (fuel : Nat) := (grammar fuel).parseCallLoop

/-- The function `Parser::parseCall`. -/
def parseCall (fuel : Nat) := (grammar fuel).parseCall

/-- The function `Parser::parseTypeInfo`. -/
def parseTypeInfo (fuel : Nat) := (grammar fuel).parseTypeInfo

/-- The do-while loop of `Parser::parseTypeInfo`. -/
def parseTypeInfoLoop (fuel : Nat) := (grammar fuel).parseTypeInfoLoop

/-- The function `Parser::parseBlock`. -/
def parseBlock (fuel : Nat) (delim : TokenType) (p : Parser) : Except Error (Block AST × Parser) :=
  parseBlockLoop fuel delim [] p

/-- The registry entries made at the start of `Parser::parse` when the first
fresh address is `a`: `Int`, `Char`, `Float`, `Void`, `List` and `String` are
six type objects at six consecutive addresses. -/
def seededTypes (a : Nat) : List (String × TypePtr) :=
  [("String", a + 5), ("List", a + 4), ("Void", a + 3), ("Float", a + 2), ("Char", a + 1),
   ("Int", a)]

/-- The assignments `m_types[name] = new ...` at the start of `Parser::parse`. -/
def Parser.seedTypes (p : Parser) : Parser :=
  { p with m_types := seededTypes p.nextAddr ++ p.m_types, nextAddr := p.nextAddr + 6 }

/-- The function `Parser::parse`.  A new `Program` has an empty string
table. -/
def parse (fuel : Nat) (p : Parser) : Except Error (Program × Parser) :=
  let p := p.seedTypes
  let p := { p with strings := [] }
  let start := p.token.loc.start
  match parseBlock fuel .END p with
  | .error e => .error e
  | .ok (body, p) => .ok (⟨p.strings, { body with needsScope := false }, ⟨start, 0⟩⟩, p)

/-! ## Example tokens -/

/-- An identifier token with an unset span. -/
def Token.id (name : String) : Token := ⟨.ID, Loc.unset, 0, name⟩

/-- A number token with an unset span. -/
def Token.number (value : Int) : Token := ⟨.NUMBER, Loc.unset, value, ""⟩

/-- A string literal token with an unset span. -/
def Token.string (value : String) : Token := ⟨.STRING, Loc.unset, 0, value⟩

/-- A token without a value, with an unset span. -/
def Token.punct (type : TokenType) : Token := ⟨type, Loc.unset, 0, ""⟩

/-- The tokens of `double : Int -> Int`. -/
def declDouble : List Token :=
  [.id "double", .punct .TYPE, .id "Int", .punct .ARROW, .id "Int"]

/-- The tokens of `double(x) { x }`. -/
def defDouble : List Token :=
  [.id "double", .punct .L_PAREN, .id "x", .punct .R_PAREN, .punct .L_BRACE, .id "x",
   .punct .R_BRACE]

/-- The outcome of a parse without the final parser state. -/
def outcome (r : Except Error (Program × Parser)) : Except Error Program :=
  match r with
  | .error e => .error e
  | .ok (prog, _) => .ok prog

/-- The state in which `parseFunction` processes the arguments of the head:
the function name is bound, the scope is required and a child scope is
open. -/
def Parser.enterFunction (name : String) (p : Parser) : Parser :=
  Parser.scopeCreate
    { p.scopeSet name .Function with
      m_scope := { (p.scopeSet name .Function).m_scope with isRequired := true } }

/-- The node list of a block after one more factor. -/
def pushNode (nodes : List (Option AST)) : Option AST → List (Option AST)
  | some node => nodes ++ [some node]
  | none => nodes

/-! ## Primitive state changes -/

/-- The primitive changes the grammar functions make to the parser state. -/
inductive Prim : Parser → Parser → Prop where
  | advance (p : Parser) : Prim p p.advance
  | intern (p : Parser) (text s : String) (uid : Nat) (q : Parser)
      (h : p.intern text = .ok (s, uid, q)) : Prim p q
  | setCaptured (p : Parser) (ref : Nat) : Prim p (p.setCaptured ref)
  | requireScopeFor (p : Parser) (name : String) : Prim p (p.requireScopeFor name)
  | setCapturesScope (p : Parser) :
      Prim p { p with m_scope := { p.m_scope with capturesScope := true } }
  | scopeSet (p : Parser) (name : String) (b : Binding) : Prim p (p.scopeSet name b)
  | setRequired (p : Parser) :
      Prim p { p with m_scope := { p.m_scope with isRequired := true } }
  | scopeCreate (p : Parser) : Prim p p.scopeCreate
  | scopeRestore (p q : Parser) (h : p.scopeRestore = .ok q) : Prim p q
  | newArgument (p : Parser) (a : FunctionArgument) : Prim p { p with heap := p.heap ++ [a] }
  | alloc (p : Parser) : Prim p { p with nextAddr := p.nextAddr + 1 }
  | register (p : Parser) (name : String) (chain : TypeChain) :
      Prim p { p with m_typeInfo := (name, chain) :: p.m_typeInfo }

/-- A parser state reached by primitive changes. -/
abbrev Reach : Parser → Parser → Prop := Relation.ReflTransGen Prim

/-- Every successful run of a function of the bundle is a sequence of
primitive changes of the parser state. -/
structure Grammar.Reaches (g : Grammar) : Prop where
  parseBlockLoop : ∀ {delim nodes p b q},
    g.parseBlockLoop delim nodes p = .ok (b, q) → Reach p q
  parseFactor : ∀ {p x q}, g.parseFactor p = .ok (x, q) → Reach p q
  parseBranch : ∀ {p b q}, g.parseBranch p = .ok (b, q) → Reach p q
  parseIf : ∀ {p ast q}, g.parseIf p = .ok (ast, q) → Reach p q
  parseID : ∀ {p x q}, g.parseID p = .ok (x, q) → Reach p q
  parseIDLoop : ∀ {ast p x q}, g.parseIDLoop ast p = .ok (x, q) → Reach p q
  parseFunction : ∀ {callee arguments p ast q},
    g.parseFunction callee arguments p = .ok (ast, q) → Reach p q
  parseCallLoop : ∀ {arguments types p r},
    g.parseCallLoop arguments types p = .ok r → Reach p r.2.2
  parseCall : ∀ {callee p ast q}, g.parseCall callee p = .ok (ast, q) → Reach p q
  parseTypeInfo : ∀ {target p q}, g.parseTypeInfo target p = .ok q → Reach p q
  parseTypeInfoLoop : ∀ {types p r}, g.parseTypeInfoLoop types p = .ok r → Reach p r.2

/-! ## Properties of all nodes of a tree -/

/-- The nodes of a block, each marked as not being a callee. -/
def blockChildren (b : Block AST) : List (Bool × AST) :=
  b.nodes.filterMap (fun n => n.map (fun a => (false, a)))

/-- The immediate child nodes of a node.  The flag says whether the child is
the callee of a call (or the name of a function, which was the callee of the
call-shaped head). -/
def AST.children : AST → List (Bool × AST)
  | .Call callee arguments _ _ => (true, callee) :: arguments.map (fun a => (false, a))
  | .If condition ifBody elseBody =>
    condition.toList.map (fun a => (false, a)) ++ blockChildren ifBody ++
      (match elseBody with
       | some b => blockChildren b
       | none => [])
  | .Function name _ body _ _ => (true, .ID name) :: blockChildren body
  | _ => []

/-- The property `L` holds at a node and at all nodes below it; `L` is told
whether the node is a callee. -/
inductive Forall (L : Bool → AST → Prop) : Bool → AST → Prop where
  | node (c : Bool) (ast : AST) (here : L c ast)
      (below : ∀ c1 a, (c1, a) ∈ ast.children → Forall L c1 a) : Forall L c ast

/-- A property of nodes relative to the parser state, and a state
invariant. -/
structure NodeProp where
  I : Parser → Prop
  L : Parser → Bool → AST → Prop

/-- The conditions under which every node of every tree the parser builds has
the property: the invariant and the property survive every primitive change,
and every node has the property when it is built. -/
structure NodeProp.Sound (N : NodeProp) : Prop where
  inv : ∀ {p q}, Prim p q → N.I p → N.I q
  mono : ∀ {p q c a}, Prim p q → N.I p → N.L p c a → N.L q c a
  number : ∀ {p q ast}, N.I p → parseNumber p = .ok (ast, q) → N.L q false ast
  string : ∀ {p q ast}, N.I p → parseString p = .ok (ast, q) → N.L q false ast
  resolve : ∀ {p q id ast} (c : Bool), N.I p → resolveID id p = .ok (ast, q) → N.L q c ast
  cond : ∀ {p} (condition ifBody elseBody), N.I p → N.L p false (.If condition ifBody elseBody)
  calleeCall : ∀ {p} (callee arguments loc typeInfo), N.I p →
    N.L p true (.Call callee arguments loc typeInfo)
  finalCall : ∀ {p} (callee arguments loc typeInfo), N.I p →
    typeCheck p.m_typeInfo callee arguments typeInfo = .ok () →
    N.L p false (.Call callee arguments loc typeInfo)
  function : ∀ {p q name typeInfo} (fnArgs body loc) (c : Bool), N.I p → Reach p q →
    p.m_typeInfo.lookup name.name = some typeInfo →
    N.L q c (.Function name fnArgs body loc typeInfo)

/-- The node produced so far inside the postfix loop of `parseID`: it has the
property as a callee, and unless it is a call also as a final node. -/
def NodeProp.Pending (N : NodeProp) (p : Parser) (ast : AST) : Prop :=
  Forall (N.L p) true ast ∧
    ((∀ callee arguments loc typeInfo, ast ≠ .Call callee arguments loc typeInfo) →
      Forall (N.L p) false ast)

/-- What the functions of a bundle guarantee about the trees they return. -/
structure Grammar.Trees (g : Grammar) (N : NodeProp) : Prop where
  parseBlockLoop : ∀ {delim nodes p b q}, N.I p →
    (∀ a, some a ∈ nodes → Forall (N.L p) false a) →
    g.parseBlockLoop delim nodes p = .ok (b, q) → ∀ a, some a ∈ b.nodes → Forall (N.L q) false a
  parseFactor : ∀ {p x q}, N.I p → g.parseFactor p = .ok (x, q) →
    ∀ a, x = some a → Forall (N.L q) false a
  parseBranch : ∀ {p b q}, N.I p → g.parseBranch p = .ok (b, q) →
    ∀ a, some a ∈ b.nodes → Forall (N.L q) false a
  parseIf : ∀ {p ast q}, N.I p → g.parseIf p = .ok (ast, q) → Forall (N.L q) false ast
  parseID : ∀ {p x q}, N.I p → g.parseID p = .ok (x, q) →
    ∀ a, x = some a → Forall (N.L q) false a
  parseIDLoop : ∀ {ast p x q}, N.I p → N.Pending p ast → g.parseIDLoop ast p = .ok (x, q) →
    ∀ a, x = some a → N.Pending q a
  parseFunction : ∀ {callee arguments p ast q}, N.I p → Forall (N.L p) true callee →
    g.parseFunction callee arguments p = .ok (ast, q) → N.Pending q ast
  parseCallLoop : ∀ {arguments types p r}, N.I p →
    (∀ a, a ∈ arguments → Forall (N.L p) false a) →
    g.parseCallLoop arguments types p = .ok r → ∀ a, a ∈ r.1 → Forall (N.L r.2.2) false a
  parseCall : ∀ {callee p ast q}, N.I p → Forall (N.L p) true callee →
    g.parseCall callee p = .ok (ast, q) → N.Pending q ast

/-! ## The node properties of the claims -/

/-- A call that is not the callee of a further call has passed `typeCheck`
against the signature table as it was at some point of the parse: the
signature table is only ever extended at the front, so its earlier values are
its suffixes. -/
def Checked (m_typeInfo : List (String × TypeChain)) : Bool → AST → Prop
  | false, .Call callee arguments _ typeInfo =>
    ∃ table, table <:+ m_typeInfo ∧ typeCheck table callee arguments typeInfo = .ok ()
  | _, _ => True

/-- The node property of checked calls. -/
def checkedProp : NodeProp where
  I := fun _ => True
  L := fun p c ast => Checked p.m_typeInfo c ast

/-- A function node carries the chain that was registered for its name in the
signature table as it was at some point of the parse. -/
def Registered (m_typeInfo : List (String × TypeChain)) : AST → Prop
  | .Function name _ _ _ typeInfo =>
    ∃ table, table <:+ m_typeInfo ∧ table.lookup name.name = some typeInfo
  | _ => True

/-- The node property of registered function signatures. -/
def registeredProp : NodeProp where
  I := fun _ => True
  L := fun p _ ast => Registered p.m_typeInfo ast

/-- A list of texts with duplicates removed, in first-seen order. -/
def firstSeen : List String → List String
  | [] => []
  | text :: rest => text :: (firstSeen rest).filter (fun t => t ≠ text)

/-- The error is not a `MissingTypeInformation`. -/
def Error.NotMissing (e : Error) : Prop := ∀ n, e ≠ .MissingTypeInformation n

/-- If the error is `MissingTypeInformation` for a name, then no chain is
registered for that name in the table. -/
def MissingOK (m_typeInfo : List (String × TypeChain)) (e : Error) : Prop :=
  ∀ n, e = .MissingTypeInformation n → m_typeInfo.lookup n = none

/-- Every `MissingTypeInformation` error of a function of the bundle names a
function without a registered chain in the state the function started in. -/
structure Grammar.Errors (g : Grammar) : Prop where
  parseBlockLoop : ∀ {delim nodes p e},
    g.parseBlockLoop delim nodes p = .error e → MissingOK p.m_typeInfo e
  parseFactor : ∀ {p e}, g.parseFactor p = .error e → MissingOK p.m_typeInfo e
  parseBranch : ∀ {p e}, g.parseBranch p = .error e → MissingOK p.m_typeInfo e
  parseIf : ∀ {p e}, g.parseIf p = .error e → MissingOK p.m_typeInfo e
  parseID : ∀ {p e}, g.parseID p = .error e → MissingOK p.m_typeInfo e
  parseIDLoop : ∀ {ast p e}, g.parseIDLoop ast p = .error e → MissingOK p.m_typeInfo e
  parseFunction : ∀ {callee arguments p e},
    g.parseFunction callee arguments p = .error e → MissingOK p.m_typeInfo e
  parseCallLoop : ∀ {arguments types p e},
    g.parseCallLoop arguments types p = .error e → MissingOK p.m_typeInfo e
  parseCall : ∀ {callee p e}, g.parseCall callee p = .error e → MissingOK p.m_typeInfo e
  parseTypeInfo : ∀ {target p e}, g.parseTypeInfo target p = .error e → MissingOK p.m_typeInfo e
  parseTypeInfoLoop : ∀ {types p e},
    g.parseTypeInfoLoop types p = .error e → MissingOK p.m_typeInfo e

/-- The name is not the keyword `if` and is not bound to a function argument
in the scope with the given table, so that `parseID` makes an `ID` node for
it. -/
def PlainName (table : List (String × Binding)) (name : String) : Prop :=
  name ≠ "if" ∧ ∀ ref, table.lookup name ≠ some (.FunctionArgument ref)

/-- The token cannot continue an identifier production or a type chain. -/
def Token.EndsDeclaration (t : Token) : Prop :=
  t.type ≠ .TYPE ∧ t.type ≠ .L_PAREN ∧ t.type ≠ .L_BRACE ∧ t.type ≠ .ARROW

/-- The bundle is the one without fuel or a level of the grammar. -/
def Grammar.IsLevel (g : Grammar) : Prop := g = Grammar.bottom ∨ ∃ fuel, g = grammar fuel

/-- The results of the factors of a block: from the first state, factors are
parsed until the delimiter is the current token. -/
inductive FactorRun (delim : TokenType) : Parser → List (Option AST) → Parser → Prop where
  | done (p : Parser) (h : p.token.type = delim) : FactorRun delim p [] p
  | factor (fuel : Nat) (p p1 q : Parser) (x : Option AST) (xs : List (Option AST))
      (h : p.token.type ≠ delim) (hx : parseFactor fuel p = .ok (x, p1))
      (hxs : FactorRun delim p1 xs q) : FactorRun delim p (x :: xs) q

/-- The names of the types the registry is seeded with. -/
def seededNames : List String := ["Int", "Char", "Float", "Void", "List", "String"]

/-- The registry handle of a type name when the registry was seeded at the
fresh address `a`; `none` if the name is not registered. -/
def handle (a : Nat) (name : String) : Option TypePtr := (seededTypes a).lookup name


/-! ## Scope chains and the examples of the capture algorithm -/

/-- The scope with index `k` of the chain is the nearest one that binds the
name. -/
def Owns (scopes : List Scope) (name : String) (k : Nat) (owner : Scope) : Prop :=
  scopes[k]? = some owner ∧ (owner.table.lookup name).isSome = true ∧
    ∀ j s, j < k → scopes[j]? = some s → s.table.lookup name = none

/-- The tokens of
`add : Int -> Int -> Int  inner : Int -> Int  add(a, b) { inner(x) { b } }`. -/
def addExample : List Token :=
  [.id "add", .punct .TYPE, .id "Int", .punct .ARROW, .id "Int", .punct .ARROW, .id "Int",
   .id "inner", .punct .TYPE, .id "Int", .punct .ARROW, .id "Int",
   .id "add", .punct .L_PAREN, .id "a", .punct .COMMA, .id "b", .punct .R_PAREN,
   .punct .L_BRACE,
   .id "inner", .punct .L_PAREN, .id "x", .punct .R_PAREN, .punct .L_BRACE, .id "b",
   .punct .R_BRACE,
   .punct .R_BRACE, .punct .END]

/-- The tokens of
`f : Int -> Int  g : Int -> Int  h : Int -> Int  f(a) { g(x) { h(y) { a } } }`. -/
def nestedExample : List Token :=
  [.id "f", .punct .TYPE, .id "Int", .punct .ARROW, .id "Int",
   .id "g", .punct .TYPE, .id "Int", .punct .ARROW, .id "Int",
   .id "h", .punct .TYPE, .id "Int", .punct .ARROW, .id "Int",
   .id "f", .punct .L_PAREN, .id "a", .punct .R_PAREN, .punct .L_BRACE,
   .id "g", .punct .L_PAREN, .id "x", .punct .R_PAREN, .punct .L_BRACE,
   .id "h", .punct .L_PAREN, .id "y", .punct .R_PAREN, .punct .L_BRACE,
   .id "a",
   .punct .R_BRACE, .punct .R_BRACE, .punct .R_BRACE, .punct .END]

/-- The parser state inside the body of `h` of `nestedExample`, before the
reference to `a` is resolved: the scopes of `h`, `g`, `f` and the root, and
the closing braces still to be read. -/
def nestedState : Parser :=
  { Parser.init [.punct .R_BRACE, .punct .R_BRACE, .punct .R_BRACE, .punct .END] with
    m_scope := ⟨[("y", .FunctionArgument 2)], false, false⟩
    parents := [⟨[("h", .Function), ("x", .FunctionArgument 1)], true, false⟩,
                ⟨[("g", .Function), ("a", .FunctionArgument 0)], true, false⟩,
                ⟨[("f", .Function)], true, false⟩]
    heap := [⟨"a", 0, some 0, false⟩, ⟨"x", 0, some 0, false⟩, ⟨"y", 0, some 0, false⟩] }

/-- The parser state inside the body of `inner` of `addExample`, before the
reference to `b` is resolved: the scopes of `inner`, `add` and the root, the
scope of `add` not yet required. -/
def addState : Parser :=
  { Parser.init [] with
    m_scope := ⟨[("x", .FunctionArgument 2)], false, false⟩
    parents := [⟨[("b", .FunctionArgument 1), ("a", .FunctionArgument 0)], false, false⟩,
                ⟨[("add", .Function)], true, false⟩]
    heap := [⟨"a", 0, some 0, false⟩, ⟨"b", 1, some 0, false⟩, ⟨"x", 0, some 0, false⟩] }

/-- The block flags of the function bodies of a tree, outermost function
first: name, `needsScope` and `capturesScope` of the body of every function
found by descending through the first node of each body. -/
def bodyFlags : Nat → Option AST → List (String × Bool × Bool)
  | fuel + 1, some (.Function name _ body _ _) =>
    (name.name, body.needsScope, body.capturesScope) :: bodyFlags fuel (body.nodes.headD none)
  | _, _ => []

/-! ## Literals and the string table -/

/-- The string table after interning one more text. -/
def internText (table : List String) (text : String) : List String :=
  if text ∈ table then table else table ++ [text]

/-- The binding tables of a chain of scopes. -/
def scopeTables (scopes : List Scope) : List (List (String × Binding)) :=
  scopes.map (fun s => s.table)

/-- The scope `t` is the scope `s` at a later time: it has the same bindings
and every flag that was set is still set. -/
def Scope.Raised (s t : Scope) : Prop :=
  t.table = s.table ∧ (s.isRequired = true → t.isRequired = true) ∧
    (s.capturesScope = true → t.capturesScope = true)

/-- The current scope of `q` is the scope that was current in `p`: the chain
of enclosing scopes has the same depth and the same bindings, the current
scope has the bindings it had plus bindings of function names, and no flag of
any of these scopes was cleared. -/
def SameScope (p q : Parser) : Prop :=
  List.Forall₂ Scope.Raised p.parents q.parents ∧
    (∃ added : List (String × Binding), q.m_scope.table = added ++ p.m_scope.table ∧
      ∀ b ∈ added, b.2 = Binding.Function) ∧
    (p.m_scope.isRequired = true → q.m_scope.isRequired = true) ∧
    (p.m_scope.capturesScope = true → q.m_scope.capturesScope = true)

/-- Every successful run of a function of the bundle ends in the scope it
started in. -/
structure Grammar.Balanced (g : Grammar) : Prop where
  parseBlockLoop : ∀ {delim nodes p b q},
    g.parseBlockLoop delim nodes p = .ok (b, q) → SameScope p q
  parseFactor : ∀ {p x q}, g.parseFactor p = .ok (x, q) → SameScope p q
  parseBranch : ∀ {p b q}, g.parseBranch p = .ok (b, q) → SameScope p q
  parseIf : ∀ {p ast q}, g.parseIf p = .ok (ast, q) → SameScope p q
  parseID : ∀ {p x q}, g.parseID p = .ok (x, q) → SameScope p q
  parseIDLoop : ∀ {ast p x q}, g.parseIDLoop ast p = .ok (x, q) → SameScope p q
  parseFunction : ∀ {callee arguments p ast q},
    g.parseFunction callee arguments p = .ok (ast, q) → SameScope p q
  parseCallLoop : ∀ {arguments types p r},
    g.parseCallLoop arguments types p = .ok r → SameScope p r.2.2
  parseCall : ∀ {callee p ast q}, g.parseCall callee p = .ok (ast, q) → SameScope p q
  parseTypeInfo : ∀ {target p q}, g.parseTypeInfo target p = .ok q → SameScope p q
  parseTypeInfoLoop : ∀ {types p r}, g.parseTypeInfoLoop types p = .ok r → SameScope p r.2

/-! ## Progress and fuel -/

/-- Whatever a function of the bundle `g` returns without running out of
fuel, the same function of the bundle `g'` returns too. -/
structure Grammar.Below (g g' : Grammar) : Prop where
  parseBlockLoop : ∀ delim nodes p, g.parseBlockLoop delim nodes p ≠ .error .OutOfFuel →
    g'.parseBlockLoop delim nodes p = g.parseBlockLoop delim nodes p
  parseFactor : ∀ p, g.parseFactor p ≠ .error .OutOfFuel → g'.parseFactor p = g.parseFactor p
  parseBranch : ∀ p, g.parseBranch p ≠ .error .OutOfFuel → g'.parseBranch p = g.parseBranch p
  parseIf : ∀ p, g.parseIf p ≠ .error .OutOfFuel → g'.parseIf p = g.parseIf p
  parseID : ∀ p, g.parseID p ≠ .error .OutOfFuel → g'.parseID p = g.parseID p
  parseIDLoop : ∀ ast p, g.parseIDLoop ast p ≠ .error .OutOfFuel →
    g'.parseIDLoop ast p = g.parseIDLoop ast p
  parseFunction : ∀ callee arguments p,
    g.parseFunction callee arguments p ≠ .error .OutOfFuel →
    g'.parseFunction callee arguments p = g.parseFunction callee arguments p
  parseCallLoop : ∀ arguments types p, g.parseCallLoop arguments types p ≠ .error .OutOfFuel →
    g'.parseCallLoop arguments types p = g.parseCallLoop arguments types p
  parseCall : ∀ callee p, g.parseCall callee p ≠ .error .OutOfFuel →
    g'.parseCall callee p = g.parseCall callee p
  parseTypeInfo : ∀ target p, g.parseTypeInfo target p ≠ .error .OutOfFuel →
    g'.parseTypeInfo target p = g.parseTypeInfo target p
  parseTypeInfoLoop : ∀ types p, g.parseTypeInfoLoop types p ≠ .error .OutOfFuel →
    g'.parseTypeInfoLoop types p = g.parseTypeInfoLoop types p

/-! ## The examples of the conditional -/

/-- The tokens of `(1) { 2 } else { 3 }`, what follows the keyword of the
braced conditional, and the end of the input. -/
def ifBraced : List Token :=
  [.punct .L_PAREN, .number 1, .punct .R_PAREN, .punct .L_BRACE, .number 2, .punct .R_BRACE,
   .id "else", .punct .L_BRACE, .number 3, .punct .R_BRACE, .punct .END]

/-- The tokens of `(1) 2 else 3`, what follows the keyword of the unbraced
conditional, and the end of the input. -/
def ifUnbraced : List Token :=
  [.punct .L_PAREN, .number 1, .punct .R_PAREN, .number 2, .id "else", .number 3, .punct .END]

/-- The node of a number literal with an unset span and the type `Int` of a
registry seeded at address 0. -/
def numberNode (value : Int) : AST := .Number value Loc.unset (some 0)

/-! ## The arguments of accepted calls -/

/-- The node is a number literal, a string literal or a pointer to a function
argument. -/
def IsLiteralOrArgument : AST → Prop
  | .Number _ _ _ => True
  | .String _ _ _ _ => True
  | .FunctionArgument _ => True
  | _ => False

/-- The registry and the signature table with respect to the address `B`
that separates the type objects of the registry from the chains: every
registry type lies below `B`, fresh addresses do not, every registered chain
lies at or above `B` and consists of registry types. -/
def TypesOK (B : Nat) (p : Parser) : Prop :=
  B ≤ p.nextAddr ∧ (∀ e ∈ p.m_types, e.2 < B) ∧
    ∀ e ∈ p.m_typeInfo, B ≤ e.2.addr ∧ ∀ t ∈ e.2.types, ∃ h, t = some h ∧ h < B

/-- The type `t` recorded for the argument `a` of a call: if it is a registry
type, the argument is a literal or a function argument. -/
def Recorded (B : Nat) (a : AST) (t : Option TypePtr) : Prop :=
  ∀ h, t = some h → h < B → IsLiteralOrArgument a

/-- What the parser guarantees about the type information of a node: the
chain of a call or a function is no registry type, the types recorded for the
arguments of a call are faithful, and a call with an identifier callee that
is not itself a callee has only literals and function arguments as
arguments. -/
def TypedNode (B : Nat) : Bool → AST → Prop
  | c, .Call callee arguments _ typeInfo =>
    B ≤ typeInfo.addr ∧ List.Forall₂ (Recorded B) arguments typeInfo.types ∧
      (c = false → ∀ id, callee = .ID id → ∀ a ∈ arguments, IsLiteralOrArgument a)
  | _, .Function _ _ _ _ typeInfo => B ≤ typeInfo.addr
  | _, _ => True

/-- The node property of typed nodes. -/
def typedProp (B : Nat) : NodeProp where
  I := TypesOK B
  L := fun _ c ast => TypedNode B c ast

/-- A call with an identifier callee that is not itself a callee, and so has
passed `typeCheck`, has only literals and function arguments as arguments. -/
def AcceptedArguments : Bool → AST → Prop
  | false, .Call (.ID _) arguments _ _ => ∀ a ∈ arguments, IsLiteralOrArgument a
  | _, _ => True

/-- What the functions of a bundle guarantee about the type information of
the trees they return, and that they keep the registry and the signature
table in order. -/
structure Grammar.Typed (g : Grammar) (B : Nat) : Prop where
  parseBlockLoop : ∀ {delim nodes p b q}, TypesOK B p →
    (∀ a, some a ∈ nodes → Forall (TypedNode B) false a) →
    g.parseBlockLoop delim nodes p = .ok (b, q) →
    TypesOK B q ∧ ∀ a, some a ∈ b.nodes → Forall (TypedNode B) false a
  parseFactor : ∀ {p x q}, TypesOK B p → g.parseFactor p = .ok (x, q) →
    TypesOK B q ∧ ∀ a, x = some a → Forall (TypedNode B) false a
  parseBranch : ∀ {p b q}, TypesOK B p → g.parseBranch p = .ok (b, q) →
    TypesOK B q ∧ ∀ a, some a ∈ b.nodes → Forall (TypedNode B) false a
  parseIf : ∀ {p ast q}, TypesOK B p → g.parseIf p = .ok (ast, q) →
    TypesOK B q ∧ Forall (TypedNode B) false ast
  parseID : ∀ {p x q}, TypesOK B p → g.parseID p = .ok (x, q) →
    TypesOK B q ∧ ∀ a, x = some a → Forall (TypedNode B) false a
  parseIDLoop : ∀ {ast p x q}, TypesOK B p → (typedProp B).Pending p ast →
    g.parseIDLoop ast p = .ok (x, q) →
    TypesOK B q ∧ ∀ a, x = some a → (typedProp B).Pending q a
  parseFunction : ∀ {callee arguments p ast q}, TypesOK B p →
    Forall (TypedNode B) true callee →
    g.parseFunction callee arguments p = .ok (ast, q) →
    TypesOK B q ∧ (typedProp B).Pending q ast
  parseCallLoop : ∀ {arguments types p r}, TypesOK B p →
    (∀ a, a ∈ arguments → Forall (TypedNode B) false a) →
    List.Forall₂ (Recorded B) arguments types →
    g.parseCallLoop arguments types p = .ok r →
    TypesOK B r.2.2 ∧ (∀ a, a ∈ r.1 → Forall (TypedNode B) false a) ∧
      List.Forall₂ (Recorded B) r.1 r.2.1
  parseCall : ∀ {callee p ast q}, TypesOK B p → Forall (TypedNode B) true callee →
    g.parseCall callee p = .ok (ast, q) → TypesOK B q ∧ (typedProp B).Pending q ast
  parseTypeInfo : ∀ {target p q}, TypesOK B p → g.parseTypeInfo target p = .ok q →
    TypesOK B q
  parseTypeInfoLoop : ∀ {types p r}, TypesOK B p →
    (∀ t ∈ types, ∃ h, t = some h ∧ h < B) →
    g.parseTypeInfoLoop types p = .ok r →
    TypesOK B r.2 ∧ ∀ t ∈ r.1, ∃ h, t = some h ∧ h < B

/-! ## A call with `2 ^ 32` arguments -/

/-- The chain of a signature with `2 ^ 32` argument types `Int` and the return
type `Int` (`Int` is the type at address 0). -/
def wideSignature : TypeChain := ⟨6, List.replicate (2 ^ 32 + 1) (some 0)⟩

/-- The arguments of a call with `2 ^ 32` arguments, each the number 5. -/
def wideArguments : List AST := List.replicate (2 ^ 32) (.Number 5 Loc.unset (some 0))

/-- The argument type chain `parseCall` records for `wideArguments`. -/
def wideTypes : TypeChain := ⟨7, List.replicate (2 ^ 32) (some 0)⟩

/-! ## A registered function with an unregistered one in its body -/

/-- The tokens of `f : Int`, `f() { g() { } }`. -/
def unregisteredInner : List Token :=
  [.id "f", .punct .TYPE, .id "Int",
   .id "f", .punct .L_PAREN, .punct .R_PAREN, .punct .L_BRACE,
   .id "g", .punct .L_PAREN, .punct .R_PAREN, .punct .L_BRACE, .punct .R_BRACE,
   .punct .R_BRACE, .punct .END]

/-- The parser state of `unregisteredInner` in which the definition of `f`
starts: the declaration `f : Int` and the head `f()` are read, the chain of
`f` is registered at address 6. -/
def innerState : Parser :=
  { tokens := [.punct .L_BRACE, .id "g", .punct .L_PAREN, .punct .R_PAREN, .punct .L_BRACE,
               .punct .R_BRACE, .punct .R_BRACE, .punct .END]
    strings := ["f", "Int"]
    str_uid := 2
    m_types := seededTypes 0
    m_typeInfo := [("f", ⟨6, [some 0]⟩)]
    m_scope := Scope.empty
    parents := []
    heap := []
    nextAddr := 8 }

/-! ## Type chains with their arrow tokens -/

/-- The tokens of a type chain `T1 -> ... -> Tk`: the first type name and,
for every further one, its arrow token and the name. -/
def chainTokens : Token → List (Token × Token) → List Token
  | t, [] => [t]
  | t, (arrow, t2) :: more => t :: arrow :: chainTokens t2 more

/-- The type-name tokens `T1, ..., Tk` of a type chain. -/
def typeNames (t : Token) (more : List (Token × Token)) : List Token :=
  t :: more.map Prod.snd

/-- The tokens of `add : Int -> Int -> Int` followed by the end of the input,
every token with the span of its text. -/
def declAdd : List Token :=
  [⟨.ID, ⟨0, 3⟩, 0, "add"⟩, ⟨.TYPE, ⟨4, 5⟩, 0, ""⟩, ⟨.ID, ⟨6, 9⟩, 0, "Int"⟩,
   ⟨.ARROW, ⟨10, 12⟩, 0, ""⟩, ⟨.ID, ⟨13, 16⟩, 0, "Int"⟩, ⟨.ARROW, ⟨17, 19⟩, 0, ""⟩,
   ⟨.ID, ⟨20, 23⟩, 0, "Int"⟩, ⟨.END, ⟨23, 23⟩, 0, ""⟩]

/-! ## The parameters in scope at a node -/

/-- The function whose body directly contains a node, as far as the node's
parameters are concerned: the `arguments` and the chain of the nearest
enclosing `Function` node, or nothing at the top level. -/
abbrev Enclosing := Option (List Nat × TypeChain)

/-- The function whose body directly contains the children of a node: below a
`Function` node it is that node, below any other node it is the function of
the node itself. -/
def AST.childContext (ctx : Enclosing) : AST → Enclosing
  | .Function _ fnArgs _ _ typeInfo => some (fnArgs, typeInfo)
  | _ => ctx

/-- The property `L` holds at a node and at all nodes below it; `L` is told
the function whose body directly contains the node (none at the top level)
and whether the node is a callee. -/
inductive Within (L : Enclosing → Bool → AST → Prop) : Enclosing → Bool → AST → Prop where
  | node (ctx : Enclosing) (c : Bool) (ast : AST) (here : L ctx c ast)
      (below : ∀ c1 a, (c1, a) ∈ ast.children → Within L (ast.childContext ctx) c1 a) :
      Within L ctx c ast

/-- The argument object `ref` is a parameter of the enclosing function and is
typed by its signature: it is entry `k` of the function's `arguments`, its
index is the value `k % 2 ^ 32` the 32-bit counter of `parseFunction` had for
it, and its type is the type the function's chain has at that index. -/
def OwnParameter (heap : List FunctionArgument) (ctx : Enclosing) (ref : Nat) : Prop :=
  ∃ fnArgs sig, ctx = some (fnArgs, sig) ∧
    ∃ (k : Nat) (arg : FunctionArgument), fnArgs[k]? = some ref ∧ heap[ref]? = some arg ∧
      arg.index = k % 2 ^ 32 ∧ sig.types[arg.index]? = some arg.typeInfo

/-- What the parser guarantees about the leaves of a tree: a number has the
registry type of `Int`, a string the registry type of `String`, and a pointer
to an argument object points to a parameter of the function whose body
directly contains the node. -/
def OwnedNode (types : List (String × TypePtr)) (heap : List FunctionArgument)
    (ctx : Enclosing) (_ : Bool) : AST → Prop
  | .Number _ _ t => t = types.lookup "Int"
  | .String _ _ _ t => t = types.lookup "String"
  | .FunctionArgument ref => OwnParameter heap ctx ref
  | _ => True

/-- One of the three kinds of argument of an accepted call: a number literal
of type `Int`, a string literal of type `String`, or a pointer to a parameter
of the function whose body directly contains the call, with the type the
signature of that function gives it. -/
def OwnArgument (types : List (String × TypePtr)) (heap : List FunctionArgument)
    (ctx : Enclosing) : AST → Prop
  | .Number _ _ t => t = types.lookup "Int"
  | .String _ _ _ t => t = types.lookup "String"
  | .FunctionArgument ref => OwnParameter heap ctx ref
  | _ => False

/-- A call whose callee is an `ID` node and that is not itself a callee, and
so has passed the checks of `typeCheck`, has only arguments of the three
kinds. -/
def AcceptedOwn (types : List (String × TypePtr)) (heap : List FunctionArgument) :
    Enclosing → Bool → AST → Prop
  | ctx, false, .Call (.ID _) arguments _ _ => ∀ a ∈ arguments, OwnArgument types heap ctx a
  | _, _, _ => True

/-- The heap `h2` is the heap `h1` at a later time: every object is still
there and has the index and the type it had. -/
def HeapLE (h1 h2 : List FunctionArgument) : Prop :=
  ∀ (ref : Nat) (a : FunctionArgument), h1[ref]? = some a →
    ∃ b : FunctionArgument, h2[ref]? = some b ∧ b.index = a.index ∧ b.typeInfo = a.typeInfo

/-- Every argument bound in the current scope is a parameter of the function
`ctx` and is typed by its signature. -/
def Bound (p : Parser) (ctx : Enclosing) : Prop :=
  ∀ e ∈ p.m_scope.table, ∀ ref, e.2 = Binding.FunctionArgument ref →
    OwnParameter p.heap ctx ref

/-- What the functions of a bundle guarantee about the leaves of the trees
they return, given the parameters bound in the current scope. -/
structure Grammar.Owned (g : Grammar) (types : List (String × TypePtr)) : Prop where
  parseBlockLoop : ∀ {delim nodes p b q ctx}, p.m_types = types → Bound p ctx →
    (∀ a, some a ∈ nodes → Within (OwnedNode types p.heap) ctx false a) →
    g.parseBlockLoop delim nodes p = .ok (b, q) →
    ∀ a, some a ∈ b.nodes → Within (OwnedNode types q.heap) ctx false a
  parseFactor : ∀ {p x q ctx}, p.m_types = types → Bound p ctx →
    g.parseFactor p = .ok (x, q) →
    ∀ a, x = some a → Within (OwnedNode types q.heap) ctx false a
  parseBranch : ∀ {p b q ctx}, p.m_types = types → Bound p ctx →
    g.parseBranch p = .ok (b, q) →
    ∀ a, some a ∈ b.nodes → Within (OwnedNode types q.heap) ctx false a
  parseIf : ∀ {p ast q ctx}, p.m_types = types → Bound p ctx →
    g.parseIf p = .ok (ast, q) → Within (OwnedNode types q.heap) ctx false ast
  parseID : ∀ {p x q ctx}, p.m_types = types → Bound p ctx →
    g.parseID p = .ok (x, q) →
    ∀ a, x = some a → Within (OwnedNode types q.heap) ctx false a
  parseIDLoop : ∀ {ast p x q ctx}, p.m_types = types → Bound p ctx →
    Within (OwnedNode types p.heap) ctx true ast →
    g.parseIDLoop ast p = .ok (x, q) →
    ∀ a, x = some a → Within (OwnedNode types q.heap) ctx true a
  parseFunction : ∀ {callee arguments p ast q ctx}, p.m_types = types → Bound p ctx →
    g.parseFunction callee arguments p = .ok (ast, q) →
    Within (OwnedNode types q.heap) ctx true ast
  parseCallLoop : ∀ {arguments callTypes p r ctx}, p.m_types = types → Bound p ctx →
    (∀ a, a ∈ arguments → Within (OwnedNode types p.heap) ctx false a) →
    g.parseCallLoop arguments callTypes p = .ok r →
    ∀ a, a ∈ r.1 → Within (OwnedNode types r.2.2.heap) ctx false a
  parseCall : ∀ {callee p ast q ctx}, p.m_types = types → Bound p ctx →
    Within (OwnedNode types p.heap) ctx true callee →
    g.parseCall callee p = .ok (ast, q) → Within (OwnedNode types q.heap) ctx true ast

/-- The tokens of `f : Int -> Int`, `f(a) { a(y) }`. -/
def parameterCallee : List Token :=
  [.id "f", .punct .TYPE, .id "Int", .punct .ARROW, .id "Int",
   .id "f", .punct .L_PAREN, .id "a", .punct .R_PAREN, .punct .L_BRACE,
   .id "a", .punct .L_PAREN, .id "y", .punct .R_PAREN,
   .punct .R_BRACE, .punct .END]
/-! ## Unfolding the grammar -/

theorem grammar_succ (fuel : Nat) : grammar (fuel + 1) = (grammar fuel).step := rfl

theorem grammar_zero : grammar 0 = Grammar.bottom.step := rfl

/-- Every level of the grammar is one unfolding over some bundle. -/
theorem grammar_eq_step (fuel : Nat) : ∃ g : Grammar, grammar fuel = g.step := by
  cases fuel with
  | zero => exact ⟨Grammar.bottom, rfl⟩
  | succ n => exact ⟨grammar n, rfl⟩

/-! ## Type checking (`parser.cc` 249-275) -/

/-- With no counter value left the loop of `typeCheck` has wrapped. -/
theorem typeCheckLoop_zero (sig call : List (Option TypePtr)) (n i : Nat) :
    typeCheckLoop sig call n i 0 = .error .CounterWrapped := by
  rw [typeCheckLoop]

/-- The loop of `typeCheck`, at counter value `i` with the values from `i` up
to `2 ^ 32` unused, returns without error exactly when the bound is below
`2 ^ 32` and the two chains agree at every index from `i` up to the bound. -/
theorem typeCheckLoop_ok_iff (sig call : List (Option TypePtr)) (n : Nat) :
    ∀ fresh i, i + fresh = 2 ^ 32 → 0 < fresh →
      (typeCheckLoop sig call n i fresh = .ok () ↔
        n < 2 ^ 32 ∧ ∀ j, i ≤ j → j < n → ∃ t, sig[j]? = some t ∧ call[j]? = some t) := by
  intro fresh
  induction fresh with
  | zero =>
    intro i _ h
    omega
  | succ k ih =>
    intro i hi _
    rw [typeCheckLoop]
    by_cases hin : i < n
    · rw [if_pos hin]
      constructor
      · intro h
        split at h
        · rename_i expected actual he ha
          split at h
          · split at h <;> simp at h
          · rename_i hne
            simp only [ne_eq, Decidable.not_not] at hne
            by_cases hk : k = 0
            · subst hk
              rw [typeCheckLoop_zero] at h
              simp at h
            · have hmod : (i + 1) % 2 ^ 32 = i + 1 := Nat.mod_eq_of_lt (by omega)
              rw [hmod] at h
              obtain ⟨h1, h2⟩ := (ih (i + 1) (by omega) (by omega)).1 h
              refine ⟨h1, fun j hj1 hj2 => ?_⟩
              rcases Nat.eq_or_lt_of_le hj1 with h3 | h3
              · subst h3
                exact ⟨expected, he, by rw [ha, hne]⟩
              · exact h2 j h3 hj2
        · simp at h
      · rintro ⟨h1, h2⟩
        obtain ⟨t, ht1, ht2⟩ := h2 i (Nat.le_refl i) hin
        simp only [ht1, ht2, ne_eq, not_true_eq_false, ↓reduceIte]
        have hmod : (i + 1) % 2 ^ 32 = i + 1 := Nat.mod_eq_of_lt (by omega)
        rw [hmod]
        exact (ih (i + 1) (by omega) (by omega)).2
          ⟨h1, fun j h3 h4 => h2 j (by omega) h4⟩
    · rw [if_neg hin]
      simp only [true_iff]
      exact ⟨by omega, fun j h1 h2 => by omega⟩

/-- With a bound of `2 ^ 32` or more and chains that agree at every index
below `2 ^ 32` the counter of the loop of `typeCheck` wraps: the loop never
reaches its bound. -/
theorem typeCheckLoop_wraps (sig call : List (Option TypePtr)) (n : Nat) (hn : 2 ^ 32 ≤ n) :
    ∀ fresh i, i + fresh = 2 ^ 32 →
      (∀ j, i ≤ j → j < 2 ^ 32 → ∃ t, sig[j]? = some t ∧ call[j]? = some t) →
      typeCheckLoop sig call n i fresh = .error .CounterWrapped := by
  intro fresh
  induction fresh with
  | zero =>
    intro i _ _
    exact typeCheckLoop_zero sig call n i
  | succ k ih =>
    intro i hi hagree
    rw [typeCheckLoop]
    have hin : i < n := by omega
    obtain ⟨t, ht1, ht2⟩ := hagree i (Nat.le_refl i) (by omega)
    rw [if_pos hin]
    simp only [ht1, ht2, ne_eq, not_true_eq_false, ↓reduceIte]
    by_cases hk : k = 0
    · subst hk
      exact typeCheckLoop_zero sig call n _
    · have hmod : (i + 1) % 2 ^ 32 = i + 1 := Nat.mod_eq_of_lt (by omega)
      rw [hmod]
      exact ih (i + 1) (by omega) (fun j h3 h4 => hagree j (by omega) h4)

/-- Unsigned `size() - 1` is the predecessor for a non-empty vector whose
size fits in 64 bits. -/
theorem size_minus_one (n : Nat) (h1 : 0 < n) (h2 : n < 2 ^ 64) :
    (n + 2 ^ 64 - 1) % 2 ^ 64 = n - 1 := by
  have h : n + 2 ^ 64 - 1 = (n - 1) + 2 ^ 64 := by omega
  rw [h, Nat.add_mod_right, Nat.mod_eq_of_lt (by omega)]

/-- When `typeCheck` accepts a call with an identifier callee: a chain is
registered, the call has one argument less than the chain has types, fewer
than `2 ^ 32` of them, and the recorded types are the chain's. -/
theorem typeCheck_ID_ok_iff (m_typeInfo : List (String × TypeChain)) (id : IDNode)
    (arguments : List AST) (callTypes : TypeChain)
    (hargs : arguments.length + 1 < 2 ^ 64)
    (hsig : ∀ sig, m_typeInfo.lookup id.name = some sig → sig.types.length < 2 ^ 64) :
    typeCheck m_typeInfo (.ID id) arguments callTypes = .ok () ↔
      ∃ sig, m_typeInfo.lookup id.name = some sig ∧
        arguments.length = sig.types.length - 1 ∧ 0 < sig.types.length ∧
        arguments.length < 2 ^ 32 ∧
        ∀ i, i < arguments.length → callTypes.types[i]? = sig.types[i]? := by
  unfold typeCheck
  cases hl : m_typeInfo.lookup id.name with
  | none => simp [hl]
  | some sig =>
    have hlen := hsig sig hl
    simp only [hl, Option.some.injEq, exists_eq_left']
    by_cases h0 : sig.types.length = 0
    · have hn : (sig.types.length + 2 ^ 64 - 1) % 2 ^ 64 = 2 ^ 64 - 1 := by
        rw [h0, Nat.zero_add, Nat.mod_eq_of_lt (by omega)]
      rw [hn]
      have hne : arguments.length ≠ 18446744073709551615 := by omega
      simp [hne, h0]
    · rw [size_minus_one _ (by omega) hlen]
      by_cases ha : arguments.length = sig.types.length - 1
      · simp only [ha, ne_eq, not_true_eq_false, ↓reduceIte, true_and]
        rw [typeCheckLoop_ok_iff _ _ _ _ 0 (Nat.zero_add _) (by omega)]
        constructor
        · rintro ⟨hb, h⟩
          refine ⟨by omega, hb, fun i hi => ?_⟩
          obtain ⟨t, h1, h2⟩ := h i (Nat.zero_le i) hi
          rw [h1, h2]
        · rintro ⟨_, hb, h⟩
          refine ⟨hb, fun j _ hj => ?_⟩
          have hj2 : j < sig.types.length := by omega
          refine ⟨sig.types[j], List.getElem?_eq_getElem hj2, ?_⟩
          rw [h j hj, List.getElem?_eq_getElem hj2]
      · simp [ha]

/-! ## Primitive changes -/

theorem Reach.step {p q : Parser} (h : Prim p q) : Reach p q := Relation.ReflTransGen.single h

theorem reach_tokenOf {p q : Parser} {type : TokenType} {tok : Token}
    (h : p.tokenOf type = .ok (tok, q)) : Reach p q := by
  unfold Parser.tokenOf at h
  split at h
  · simp only [Except.ok.injEq, Prod.mk.injEq] at h
    rw [← h.2]
    exact Reach.step (.advance p)
  · simp at h

theorem reach_ensure {p q : Parser} {type : TokenType}
    (h : p.ensure type = .ok q) : Reach p q := by
  unfold Parser.ensure at h
  split at h
  · simp only [Except.ok.injEq] at h
    rw [← h]
    exact Reach.step (.advance p)
  · simp at h

theorem reach_skip {p q : Parser} {type : TokenType} {b : Bool}
    (h : p.skip type = (b, q)) : Reach p q := by
  unfold Parser.skip at h
  split at h
  · simp only [Prod.mk.injEq] at h
    rw [← h.2]
    exact Reach.step (.advance p)
  · simp only [Prod.mk.injEq] at h
    rw [← h.2]

theorem reach_parseNumber {p q : Parser} {ast : AST}
    (h : parseNumber p = .ok (ast, q)) : Reach p q := by
  unfold parseNumber at h
  split at h
  · simp at h
  · rename_i number p1 h1
    simp only [Except.ok.injEq, Prod.mk.injEq] at h
    rw [← h.2]
    exact reach_tokenOf h1

theorem reach_parseString {p q : Parser} {ast : AST}
    (h : parseString p = .ok (ast, q)) : Reach p q := by
  unfold parseString at h
  split at h
  · simp at h
  · rename_i string p1 h1
    split at h
    · simp at h
    · rename_i s uid p2 h2
      simp only [Except.ok.injEq, Prod.mk.injEq] at h
      rw [← h.2]
      exact (reach_tokenOf h1).trans (Reach.step (.intern _ _ _ _ _ h2))

theorem reach_resolveID {p q : Parser} {id : Token} {ast : AST}
    (h : resolveID id p = .ok (ast, q)) : Reach p q := by
  unfold resolveID at h
  split at h
  · simp only [Except.ok.injEq, Prod.mk.injEq] at h
    rw [← h.2]
  · split at h
    · simp at h
    · rename_i s uid p2 h2
      have r1 : Reach p p2 := Reach.step (.intern _ _ _ _ _ h2)
      split at h
      · split at h
        · simp only [Except.ok.injEq, Prod.mk.injEq] at h
          rw [← h.2]
          exact r1
        · simp only [Except.ok.injEq, Prod.mk.injEq] at h
          rw [← h.2]
          exact ((r1.trans (Reach.step (.setCaptured _ _))).trans
            (Reach.step (.requireScopeFor _ _))).trans (Reach.step (.setCapturesScope _))
      · simp only [Except.ok.injEq, Prod.mk.injEq] at h
        rw [← h.2]
        exact r1

theorem reach_declareArguments {sig : TypeChain} {args : List AST} {i : Nat}
    {acc fnArgs : List Nat} {p q : Parser}
    (h : declareArguments sig args i acc p = .ok (fnArgs, q)) : Reach p q := by
  induction args generalizing i acc p with
  | nil =>
    simp only [declareArguments, Except.ok.injEq, Prod.mk.injEq] at h
    rw [← h.2]
  | cons arg rest ih =>
    rw [declareArguments] at h
    split at h
    · simp at h
    · split at h
      · simp at h
      · exact ((Reach.step (.newArgument _ _)).trans (Reach.step (.scopeSet _ _ _))).trans (ih h)

/-! ## Successful runs of the grammar bodies -/

theorem parseBlockLoopBody_ok {g : Grammar} {delim : TokenType} {nodes : List (Option AST)}
    {p q : Parser} {b : Block AST} (h : parseBlockLoopBody g delim nodes p = .ok (b, q)) :
    (p.token.type = delim ∧ q = p ∧
        b = ⟨nodes, p.m_scope.isRequired, p.m_scope.capturesScope⟩) ∨
      (p.token.type ≠ delim ∧ ∃ x p1, g.parseFactor p = .ok (x, p1) ∧
        g.parseBlockLoop delim (pushNode nodes x) p1 = .ok (b, q)) := by
  unfold parseBlockLoopBody at h
  split at h
  · rename_i hd
    simp only [Except.ok.injEq, Prod.mk.injEq] at h
    exact .inl ⟨hd, h.2.symm, h.1.symm⟩
  · rename_i hd
    split at h
    · simp at h
    · rename_i node p1 h1
      exact .inr ⟨hd, some node, p1, h1, h⟩
    · rename_i p1 h1
      exact .inr ⟨hd, none, p1, h1, h⟩

theorem parseFactorBody_ok {g : Grammar} {p q : Parser} {x : Option AST}
    (h : parseFactorBody g p = .ok (x, q)) :
    (p.token.type = .NUMBER ∧ ∃ ast, parseNumber p = .ok (ast, q) ∧ x = some ast) ∨
      (p.token.type = .ID ∧ g.parseID p = .ok (x, q)) ∨
      (p.token.type = .STRING ∧ ∃ ast, parseString p = .ok (ast, q) ∧ x = some ast) := by
  unfold parseFactorBody at h
  split at h
  · rename_i ht
    split at h
    · simp at h
    · rename_i ast p1 h1
      simp only [Except.ok.injEq, Prod.mk.injEq] at h
      exact .inl ⟨ht, ast, by rw [h1, h.2], h.1.symm⟩
  · rename_i ht
    exact .inr (.inl ⟨ht, h⟩)
  · rename_i ht
    split at h
    · simp at h
    · rename_i ast p1 h1
      simp only [Except.ok.injEq, Prod.mk.injEq] at h
      exact .inr (.inr ⟨ht, ast, by rw [h1, h.2], h.1.symm⟩)
  · simp at h

theorem parseBranchBody_ok {g : Grammar} {p q : Parser} {b : Block AST}
    (h : parseBranchBody g p = .ok (b, q)) :
    (p.token.type = .L_BRACE ∧ ∃ p1 p2, p.ensure .L_BRACE = .ok p1 ∧
        g.parseBlockLoop .R_BRACE [] p1 = .ok (b, p2) ∧ p2.ensure .R_BRACE = .ok q) ∨
      (p.token.type ≠ .L_BRACE ∧ ∃ node, g.parseFactor p = .ok (node, q) ∧
        b = ⟨[node], false, false⟩) := by
  unfold parseBranchBody at h
  split at h
  · rename_i ht
    split at h
    · simp at h
    · rename_i p1 h1
      split at h
      · simp at h
      · rename_i body p2 h2
        split at h
        · simp at h
        · rename_i p3 h3
          simp only [Except.ok.injEq, Prod.mk.injEq] at h
          obtain ⟨rfl, rfl⟩ := h
          exact .inl ⟨ht, p1, p2, h1, h2, h3⟩
  · rename_i ht
    split at h
    · simp at h
    · rename_i node p1 h1
      simp only [Except.ok.injEq, Prod.mk.injEq] at h
      obtain ⟨rfl, rfl⟩ := h
      exact .inr ⟨ht, node, h1, rfl⟩

theorem parseIfBody_ok {g : Grammar} {p q : Parser} {ast : AST}
    (h : parseIfBody g p = .ok (ast, q)) :
    ∃ p1 condition p2 p3 ifBody p4, p.ensure .L_PAREN = .ok p1 ∧
      g.parseFactor p1 = .ok (condition, p2) ∧ p2.ensure .R_PAREN = .ok p3 ∧
      g.parseBranch p3 = .ok (ifBody, p4) ∧
      ((p4.token.type = .ID ∧ p4.token.name = "else" ∧ ∃ p5 elseBody,
          p4.ensure .ID = .ok p5 ∧ g.parseBranch p5 = .ok (elseBody, q) ∧
          ast = .If condition ifBody (some elseBody)) ∨
        (¬ (p4.token.type = .ID ∧ p4.token.name = "else") ∧ q = p4 ∧
          ast = .If condition ifBody none)) := by
  unfold parseIfBody at h
  split at h
  · simp at h
  · rename_i p1 h1
    split at h
    · simp at h
    · rename_i condition p2 h2
      split at h
      · simp at h
      · rename_i p3 h3
        split at h
        · simp at h
        · rename_i ifBody p4 h4
          refine ⟨p1, condition, p2, p3, ifBody, p4, h1, h2, h3, h4, ?_⟩
          split at h
          · rename_i he
            split at h
            · simp at h
            · rename_i p5 h5
              split at h
              · simp at h
              · rename_i elseBody p6 h6
                simp only [Except.ok.injEq, Prod.mk.injEq] at h
                obtain ⟨rfl, rfl⟩ := h
                exact .inl ⟨he.1, he.2, p5, elseBody, h5, h6, rfl⟩
          · rename_i he
            simp only [Except.ok.injEq, Prod.mk.injEq] at h
            obtain ⟨rfl, rfl⟩ := h
            exact .inr ⟨he, rfl, rfl⟩

theorem checkFinal_ok {ast : AST} {p q : Parser} {x : Option AST}
    (h : checkFinal ast p = .ok (x, q)) :
    x = some ast ∧ q = p ∧ ∀ callee arguments loc typeInfo,
      ast = .Call callee arguments loc typeInfo →
        typeCheck p.m_typeInfo callee arguments typeInfo = .ok () := by
  unfold checkFinal at h
  split at h
  · split at h
    · simp at h
    · rename_i hc
      simp only [Except.ok.injEq, Prod.mk.injEq] at h
      refine ⟨h.1.symm, h.2.symm, ?_⟩
      intro callee arguments loc typeInfo he
      cases he
      exact hc
  · rename_i hn
    simp only [Except.ok.injEq, Prod.mk.injEq] at h
    refine ⟨h.1.symm, h.2.symm, ?_⟩
    intro callee arguments loc typeInfo he
    exact absurd he (hn callee arguments loc typeInfo)

theorem parseIDBody_ok {g : Grammar} {p q : Parser} {x : Option AST}
    (h : parseIDBody g p = .ok (x, q)) :
    ∃ id p1, p.tokenOf .ID = .ok (id, p1) ∧
      ((id.name = "if" ∧ ∃ ast, g.parseIf p1 = .ok (ast, q) ∧ x = some ast) ∨
        (id.name ≠ "if" ∧ ∃ ast p2 y p3, resolveID id p1 = .ok (ast, p2) ∧
          g.parseIDLoop ast p2 = .ok (y, p3) ∧
          ((y = none ∧ x = none ∧ q = p3) ∨
            ∃ node, y = some node ∧ checkFinal node p3 = .ok (x, q)))) := by
  unfold parseIDBody at h
  split at h
  · simp at h
  · rename_i id p1 h1
    refine ⟨id, p1, h1, ?_⟩
    split at h
    · rename_i hif
      split at h
      · simp at h
      · rename_i ast p2 h2
        simp only [Except.ok.injEq, Prod.mk.injEq] at h
        obtain ⟨rfl, rfl⟩ := h
        exact .inl ⟨hif, ast, h2, rfl⟩
    · rename_i hif
      split at h
      · simp at h
      · rename_i ast p2 h2
        split at h
        · simp at h
        · rename_i p3 h3
          simp only [Except.ok.injEq, Prod.mk.injEq] at h
          obtain ⟨rfl, rfl⟩ := h
          exact .inr ⟨hif, ast, p2, none, p3, h2, h3, .inl ⟨rfl, rfl, rfl⟩⟩
        · rename_i node p3 h3
          exact .inr ⟨hif, ast, p2, some node, p3, h2, h3, .inr ⟨node, rfl, h⟩⟩

theorem parseIDLoopBody_ok {g : Grammar} {ast : AST} {p q : Parser} {x : Option AST}
    (h : parseIDLoopBody g ast p = .ok (x, q)) :
    (p.token.type = .TYPE ∧ g.parseTypeInfo ast p = .ok q ∧ x = none) ∨
      (p.token.type = .L_PAREN ∧ ∃ call p1, g.parseCall ast p = .ok (call, p1) ∧
        g.parseIDLoop call p1 = .ok (x, q)) ∨
      (p.token.type = .L_BRACE ∧ ∃ callee arguments loc typeInfo fn p1,
        ast = .Call callee arguments loc typeInfo ∧
        g.parseFunction callee arguments p = .ok (fn, p1) ∧
        g.parseIDLoop fn p1 = .ok (x, q)) ∨
      (p.token.type ≠ .TYPE ∧ p.token.type ≠ .L_PAREN ∧ p.token.type ≠ .L_BRACE ∧
        x = some ast ∧ q = p) := by
  unfold parseIDLoopBody at h
  split at h
  · rename_i ht
    split at h
    · simp at h
    · rename_i p1 h1
      simp only [Except.ok.injEq, Prod.mk.injEq] at h
      obtain ⟨rfl, rfl⟩ := h
      exact .inl ⟨ht, h1, rfl⟩
  · rename_i ht
    split at h
    · rename_i hp
      split at h
      · simp at h
      · rename_i call p1 h1
        exact .inr (.inl ⟨hp, call, p1, h1, h⟩)
    · rename_i hp
      split at h
      · rename_i hb
        split at h
        · rename_i callee arguments loc typeInfo
          split at h
          · simp at h
          · rename_i fn p1 h1
            exact .inr (.inr (.inl ⟨hb, callee, arguments, loc, typeInfo, fn, p1, rfl, h1, h⟩))
        · simp at h
      · rename_i hb
        simp only [Except.ok.injEq, Prod.mk.injEq] at h
        obtain ⟨rfl, rfl⟩ := h
        exact .inr (.inr (.inr ⟨ht, hp, hb, rfl, rfl⟩))

theorem parseFunctionBody_ok {g : Grammar} {callee : AST} {arguments : List AST}
    {p q : Parser} {ast : AST} (h : parseFunctionBody g callee arguments p = .ok (ast, q)) :
    ∃ name typeInfo fnArgs p1 p2 body p3 rbrace p4, callee = .ID name ∧
      p.m_typeInfo.lookup name.name = some typeInfo ∧
      declareArguments typeInfo arguments 0 [] (p.enterFunction name.name) = .ok (fnArgs, p1) ∧
      p1.ensure .L_BRACE = .ok p2 ∧ g.parseBlockLoop .R_BRACE [] p2 = .ok (body, p3) ∧
      p3.tokenOf .R_BRACE = .ok (rbrace, p4) ∧ p4.scopeRestore = .ok q ∧
      ast = .Function name fnArgs body ⟨name.loc.start, rbrace.loc.stop⟩ typeInfo := by
  unfold parseFunctionBody at h
  split at h
  · rename_i name
    split at h
    · simp at h
    · rename_i typeInfo hl
      simp only at h
      split at h
      · simp at h
      · rename_i fnArgs p1 h1
        split at h
        · simp at h
        · rename_i p2 h2
          split at h
          · simp at h
          · rename_i body p3 h3
            split at h
            · simp at h
            · rename_i rbrace p4 h4
              split at h
              · simp at h
              · rename_i p5 h5
                simp only [Except.ok.injEq, Prod.mk.injEq] at h
                obtain ⟨rfl, rfl⟩ := h
                exact ⟨name, typeInfo, fnArgs, p1, p2, body, p3, rbrace, p4, rfl, hl, h1, h2,
                  h3, h4, h5, rfl⟩
  · simp at h

theorem parseCallLoopBody_ok {g : Grammar} {arguments : List AST}
    {types : List (Option TypePtr)} {p : Parser}
    {r : List AST × List (Option TypePtr) × Parser}
    (h : parseCallLoopBody g arguments types p = .ok r) :
    (p.token.type = .R_PAREN ∧ r = (arguments, types, p)) ∨
      (p.token.type ≠ .R_PAREN ∧ ∃ argument p1 p2, g.parseFactor p = .ok (some argument, p1) ∧
        ((p1.token.type ≠ .R_PAREN ∧ p1.ensure .COMMA = .ok p2) ∨
          (p1.token.type = .R_PAREN ∧ p2 = p1)) ∧
        g.parseCallLoop (arguments ++ [argument]) (types ++ [p1.typeInfoOf argument]) p2
          = .ok r) := by
  unfold parseCallLoopBody at h
  split at h
  · rename_i ht
    simp only [Except.ok.injEq] at h
    exact .inl ⟨ht, h.symm⟩
  · rename_i ht
    split at h
    · simp at h
    · simp at h
    · rename_i argument p1 h1
      simp only at h
      split at h
      · rename_i hc
        split at h
        · simp at h
        · rename_i p2 h2
          exact .inr ⟨ht, argument, p1, p2, h1, .inl ⟨hc, h2⟩, h⟩
      · rename_i hc
        simp only [ne_eq, Decidable.not_not] at hc
        exact .inr ⟨ht, argument, p1, p1, h1, .inr ⟨hc, rfl⟩, h⟩

theorem parseCallBody_ok {g : Grammar} {callee : AST} {p q : Parser} {ast : AST}
    (h : parseCallBody g callee p = .ok (ast, q)) :
    ∃ p1 arguments types p2 rparen, p.ensure .L_PAREN = .ok p1 ∧
      g.parseCallLoop [] [] { p1 with nextAddr := p1.nextAddr + 1 }
        = .ok (arguments, types, p2) ∧
      p2.tokenOf .R_PAREN = .ok (rparen, q) ∧
      ast = .Call callee arguments ⟨callee.loc.start, rparen.loc.stop⟩ ⟨p1.nextAddr, types⟩ := by
  unfold parseCallBody at h
  simp only at h
  split at h
  · simp at h
  · rename_i p1 h1
    split at h
    · simp at h
    · rename_i arguments types p2 h2
      split at h
      · simp at h
      · rename_i rparen p3 h3
        simp only [Except.ok.injEq, Prod.mk.injEq] at h
        obtain ⟨rfl, rfl⟩ := h
        exact ⟨p1, arguments, types, p2, rparen, h1, h2, h3, rfl⟩

theorem parseTypeInfoBody_ok {g : Grammar} {target : AST} {p q : Parser}
    (h : parseTypeInfoBody g target p = .ok q) :
    ∃ p1 types p2 id, p.ensure .TYPE = .ok p1 ∧
      g.parseTypeInfoLoop [] { p1 with nextAddr := p1.nextAddr + 1 } = .ok (types, p2) ∧
      target = .ID id ∧
      q = { p2 with m_typeInfo := (id.name, ⟨p1.nextAddr, types⟩) :: p2.m_typeInfo } := by
  unfold parseTypeInfoBody at h
  simp only at h
  split at h
  · simp at h
  · rename_i p1 h1
    split at h
    · simp at h
    · rename_i types p2 h2
      split at h
      · simp at h
      · rename_i id h3
        simp only [Except.ok.injEq] at h
        refine ⟨p1, types, p2, id, h1, h2, ?_, h.symm⟩
        unfold asID at h3
        split at h3 <;> simp_all

theorem parseTypeInfoLoopBody_ok {g : Grammar} {types : List (Option TypePtr)} {p : Parser}
    {r : List (Option TypePtr) × Parser} (h : parseTypeInfoLoopBody g types p = .ok r) :
    ∃ id p1 type p2 b, g.parseID p = .ok (some (.ID id), p1) ∧
      p1.m_types.lookup id.name = some type ∧ p1.skip .ARROW = (b, p2) ∧
      ((b = true ∧ g.parseTypeInfoLoop (types ++ [some type]) p2 = .ok r) ∨
        (b = false ∧ r = (types ++ [some type], p2))) := by
  unfold parseTypeInfoLoopBody at h
  split at h
  · simp at h
  · rename_i node p1 h1
    split at h
    · simp at h
    · rename_i id h2
      have hn : node = some (.ID id) := by
        unfold asID at h2
        split at h2 <;> simp_all
      subst hn
      split at h
      · simp at h
      · rename_i type h3
        simp only at h
        split at h
        · rename_i p2 h4
          exact ⟨id, p1, type, p2, true, h1, h3, h4, .inl ⟨rfl, h⟩⟩
        · rename_i p2 h4
          simp only [Except.ok.injEq] at h
          exact ⟨id, p1, type, p2, false, h1, h3, h4, .inr ⟨rfl, h.symm⟩⟩

/-! ## Every successful run is a sequence of primitive changes -/

theorem reaches_bottom : Grammar.bottom.Reaches := by
  constructor <;> intros <;> simp_all [Grammar.bottom]

theorem reach_enterFunction (p : Parser) (name : String) : Reach p (p.enterFunction name) :=
  ((Reach.step (.scopeSet p name .Function)).trans (Reach.step (.setRequired _))).trans
    (Reach.step (.scopeCreate _))

theorem reaches_step {g : Grammar} (hg : g.Reaches) : g.step.Reaches where
  parseBlockLoop := by
    intro delim nodes p b q h
    rcases parseBlockLoopBody_ok h with ⟨_, rfl, _⟩ | ⟨_, x, p1, h1, h2⟩
    · exact .refl
    · exact (hg.parseFactor h1).trans (hg.parseBlockLoop h2)
  parseFactor := by
    intro p x q h
    rcases parseFactorBody_ok h with ⟨_, ast, h1, _⟩ | ⟨_, h1⟩ | ⟨_, ast, h1, _⟩
    · exact reach_parseNumber h1
    · exact hg.parseID h1
    · exact reach_parseString h1
  parseBranch := by
    intro p b q h
    rcases parseBranchBody_ok h with ⟨_, p1, p2, h1, h2, h3⟩ | ⟨_, node, h1, _⟩
    · exact ((reach_ensure h1).trans (hg.parseBlockLoop h2)).trans (reach_ensure h3)
    · exact hg.parseFactor h1
  parseIf := by
    intro p ast q h
    obtain ⟨p1, c, p2, p3, ifBody, p4, h1, h2, h3, h4, h5⟩ := parseIfBody_ok h
    have r4 : Reach p p4 :=
      (((reach_ensure h1).trans (hg.parseFactor h2)).trans (reach_ensure h3)).trans
        (hg.parseBranch h4)
    rcases h5 with ⟨_, _, p5, elseBody, h6, h7, _⟩ | ⟨_, rfl, _⟩
    · exact (r4.trans (reach_ensure h6)).trans (hg.parseBranch h7)
    · exact r4
  parseID := by
    intro p x q h
    obtain ⟨id, p1, h1, h2⟩ := parseIDBody_ok h
    rcases h2 with ⟨_, ast, h3, _⟩ | ⟨_, ast, p2, y, p3, h3, h4, h5⟩
    · exact (reach_tokenOf h1).trans (hg.parseIf h3)
    · have r3 : Reach p p3 :=
        ((reach_tokenOf h1).trans (reach_resolveID h3)).trans (hg.parseIDLoop h4)
      rcases h5 with ⟨_, _, rfl⟩ | ⟨node, _, h6⟩
      · exact r3
      · rw [(checkFinal_ok h6).2.1]
        exact r3
  parseIDLoop := by
    intro ast p x q h
    rcases parseIDLoopBody_ok h with ⟨_, h1, _⟩ | ⟨_, call, p1, h1, h2⟩ |
      ⟨_, callee, arguments, loc, typeInfo, fn, p1, _, h1, h2⟩ | ⟨_, _, _, _, rfl⟩
    · exact hg.parseTypeInfo h1
    · exact (hg.parseCall h1).trans (hg.parseIDLoop h2)
    · exact (hg.parseFunction h1).trans (hg.parseIDLoop h2)
    · exact .refl
  parseFunction := by
    intro callee arguments p ast q h
    obtain ⟨name, typeInfo, fnArgs, p1, p2, body, p3, rbrace, p4, _, _, h1, h2, h3, h4, h5, _⟩ :=
      parseFunctionBody_ok h
    exact (((((reach_enterFunction p name.name).trans (reach_declareArguments h1)).trans
      (reach_ensure h2)).trans (hg.parseBlockLoop h3)).trans (reach_tokenOf h4)).trans
      (Reach.step (.scopeRestore _ _ h5))
  parseCallLoop := by
    intro arguments types p r h
    rcases parseCallLoopBody_ok h with ⟨_, rfl⟩ | ⟨_, argument, p1, p2, h1, h2, h3⟩
    · exact .refl
    · rcases h2 with ⟨_, h2⟩ | ⟨_, rfl⟩
      · exact ((hg.parseFactor h1).trans (reach_ensure h2)).trans (hg.parseCallLoop h3)
      · exact (hg.parseFactor h1).trans (hg.parseCallLoop h3)
  parseCall := by
    intro callee p ast q h
    obtain ⟨p1, arguments, types, p2, rparen, h1, h2, h3, _⟩ := parseCallBody_ok h
    exact (((reach_ensure h1).trans (Reach.step (.alloc _))).trans (hg.parseCallLoop h2)).trans
      (reach_tokenOf h3)
  parseTypeInfo := by
    intro target p q h
    obtain ⟨p1, types, p2, id, h1, h2, _, rfl⟩ := parseTypeInfoBody_ok h
    exact (((reach_ensure h1).trans (Reach.step (.alloc _))).trans
      (hg.parseTypeInfoLoop h2)).trans (Reach.step (.register _ _ _))
  parseTypeInfoLoop := by
    intro types p r h
    obtain ⟨id, p1, type, p2, b, h1, _, h3, h4⟩ := parseTypeInfoLoopBody_ok h
    have r2 : Reach p p2 := (hg.parseID h1).trans (reach_skip h3)
    rcases h4 with ⟨_, h4⟩ | ⟨_, rfl⟩
    · exact r2.trans (hg.parseTypeInfoLoop h4)
    · exact r2

/-- Every level of the grammar only makes primitive changes. -/
theorem grammar_reaches : ∀ fuel, (grammar fuel).Reaches
  | 0 => reaches_step reaches_bottom
  | fuel + 1 => reaches_step (grammar_reaches fuel)

/-! ## Properties of all nodes of the trees the parser builds -/

theorem mem_blockChildren {b : Block AST} {c : Bool} {a : AST} :
    (c, a) ∈ blockChildren b ↔ c = false ∧ some a ∈ b.nodes := by
  unfold blockChildren
  simp only [List.mem_filterMap, Option.map_eq_some', Prod.mk.injEq]
  constructor
  · rintro ⟨n, hn, a1, rfl, rfl, rfl⟩
    exact ⟨rfl, hn⟩
  · rintro ⟨rfl, hn⟩
    exact ⟨some a, hn, a, rfl, rfl, rfl⟩

theorem Forall.here_of {L : Bool → AST → Prop} {c : Bool} {ast : AST} (h : Forall L c ast) :
    L c ast := by
  cases h with
  | node _ _ here _ => exact here

theorem Forall.below_of {L : Bool → AST → Prop} {c : Bool} {ast : AST} (h : Forall L c ast) :
    ∀ c1 a, (c1, a) ∈ ast.children → Forall L c1 a := by
  cases h with
  | node _ _ _ below => exact below

/-- A node without children has the property everywhere if it has it. -/
theorem Forall.leaf {L : Bool → AST → Prop} {c : Bool} {ast : AST} (h : L c ast)
    (hc : ast.children = []) : Forall L c ast :=
  .node c ast h (by simp [hc])

/-- The invariant survives a sequence of primitive changes. -/
theorem NodeProp.Sound.inv_reach {N : NodeProp} (hN : N.Sound) {p q : Parser}
    (h : Reach p q) (hp : N.I p) : N.I q := by
  induction h with
  | refl => exact hp
  | tail _ hstep ih => exact hN.inv hstep ih

/-- The property of a whole tree survives a primitive change. -/
theorem NodeProp.Sound.forall_prim {N : NodeProp} (hN : N.Sound) {p q : Parser}
    (h : Prim p q) (hp : N.I p) {c : Bool} {ast : AST} (ht : Forall (N.L p) c ast) :
    Forall (N.L q) c ast := by
  induction ht with
  | node c ast here _ ih => exact .node c ast (hN.mono h hp here) ih

/-- The property of a whole tree survives a sequence of primitive changes. -/
theorem NodeProp.Sound.forall_reach {N : NodeProp} (hN : N.Sound) {p q : Parser}
    (h : Reach p q) (hp : N.I p) {c : Bool} {ast : AST} (ht : Forall (N.L p) c ast) :
    Forall (N.L q) c ast := by
  induction h with
  | refl => exact ht
  | tail hreach hstep ih => exact hN.forall_prim hstep (hN.inv_reach hreach hp) ih

theorem NodeProp.Sound.pending_reach {N : NodeProp} (hN : N.Sound) {p q : Parser}
    (h : Reach p q) (hp : N.I p) {ast : AST} (ht : N.Pending p ast) : N.Pending q ast :=
  ⟨hN.forall_reach h hp ht.1, fun hc => hN.forall_reach h hp (ht.2 hc)⟩

theorem resolveID_leaf {id : Token} {p q : Parser} {ast : AST}
    (h : resolveID id p = .ok (ast, q)) :
    ast.children = [] ∧ ∀ callee arguments loc typeInfo,
      ast ≠ .Call callee arguments loc typeInfo := by
  unfold resolveID at h
  split at h
  · simp only [Except.ok.injEq, Prod.mk.injEq] at h
    rw [← h.1]
    exact ⟨rfl, by simp⟩
  · split at h
    · simp at h
    · split at h
      · split at h <;>
        · simp only [Except.ok.injEq, Prod.mk.injEq] at h
          rw [← h.1]
          exact ⟨rfl, by simp⟩
      · simp only [Except.ok.injEq, Prod.mk.injEq] at h
        rw [← h.1]
        exact ⟨rfl, by simp⟩

theorem parseNumber_leaf {p q : Parser} {ast : AST} (h : parseNumber p = .ok (ast, q)) :
    ast.children = [] := by
  unfold parseNumber at h
  split at h
  · simp at h
  · simp only [Except.ok.injEq, Prod.mk.injEq] at h
    rw [← h.1]
    rfl

theorem parseString_leaf {p q : Parser} {ast : AST} (h : parseString p = .ok (ast, q)) :
    ast.children = [] := by
  unfold parseString at h
  split at h
  · simp at h
  · split at h
    · simp at h
    · simp only [Except.ok.injEq, Prod.mk.injEq] at h
      rw [← h.1]
      rfl

theorem trees_bottom (N : NodeProp) : Grammar.bottom.Trees N := by
  constructor <;> intros <;> simp_all [Grammar.bottom]

theorem trees_step {g : Grammar} {N : NodeProp} (hN : N.Sound) (hr : g.Reaches)
    (hg : g.Trees N) : g.step.Trees N where
  parseBlockLoop := by
    intro delim nodes p b q hp hnodes h
    rcases parseBlockLoopBody_ok h with ⟨_, rfl, rfl⟩ | ⟨_, x, p1, h1, h2⟩
    · exact hnodes
    · have hp1 := hN.inv_reach (hr.parseFactor h1) hp
      refine hg.parseBlockLoop hp1 ?_ h2
      intro a ha
      cases x with
      | none => exact hN.forall_reach (hr.parseFactor h1) hp (hnodes a ha)
      | some node =>
        simp only [pushNode, List.mem_append, List.mem_singleton, Option.some.injEq] at ha
        rcases ha with ha | rfl
        · exact hN.forall_reach (hr.parseFactor h1) hp (hnodes a ha)
        · exact hg.parseFactor hp h1 a rfl
  parseFactor := by
    intro p x q hp h a hx
    rcases parseFactorBody_ok h with ⟨_, ast, h1, rfl⟩ | ⟨_, h1⟩ | ⟨_, ast, h1, rfl⟩
    · cases hx
      exact .leaf (hN.number hp h1) (parseNumber_leaf h1)
    · exact hg.parseID hp h1 a hx
    · cases hx
      exact .leaf (hN.string hp h1) (parseString_leaf h1)
  parseBranch := by
    intro p b q hp h a ha
    rcases parseBranchBody_ok h with ⟨_, p1, p2, h1, h2, h3⟩ | ⟨_, node, h1, rfl⟩
    · have hp1 := hN.inv_reach (reach_ensure h1) hp
      have hp2 := hN.inv_reach (hr.parseBlockLoop h2) hp1
      exact hN.forall_reach (reach_ensure h3) hp2
        (hg.parseBlockLoop hp1 (by simp) h2 a ha)
    · simp only [List.mem_singleton] at ha
      exact hg.parseFactor hp h1 a ha.symm
  parseIf := by
    intro p ast q hp h
    obtain ⟨p1, c, p2, p3, ifBody, p4, h1, h2, h3, h4, h5⟩ := parseIfBody_ok h
    have hp1 := hN.inv_reach (reach_ensure h1) hp
    have hp2 := hN.inv_reach (hr.parseFactor h2) hp1
    have hp3 := hN.inv_reach (reach_ensure h3) hp2
    have hp4 := hN.inv_reach (hr.parseBranch h4) hp3
    have hc4 : ∀ a, c = some a → Forall (N.L p4) false a := fun a ha =>
      hN.forall_reach ((reach_ensure h3).trans (hr.parseBranch h4)) hp2
        (hg.parseFactor hp1 h2 a ha)
    have hb4 := hg.parseBranch hp3 h4
    rcases h5 with ⟨_, _, p5, elseBody, h6, h7, rfl⟩ | ⟨_, rfl, rfl⟩
    · have hp5 := hN.inv_reach (reach_ensure h6) hp4
      have hq := hN.inv_reach (hr.parseBranch h7) hp5
      have r46 : Reach p4 q := (reach_ensure h6).trans (hr.parseBranch h7)
      refine .node _ _ (hN.cond _ _ _ hq) ?_
      intro c1 a hmem
      simp only [AST.children, List.mem_append, List.mem_map, Option.mem_toList,
        Option.mem_def, Prod.mk.injEq, mem_blockChildren] at hmem
      rcases hmem with (⟨a1, ha1, rfl, rfl⟩ | ⟨rfl, ha⟩) | ⟨rfl, ha⟩
      · exact hN.forall_reach r46 hp4 (hc4 _ ha1)
      · exact hN.forall_reach r46 hp4 (hb4 _ ha)
      · exact hg.parseBranch hp5 h7 _ ha
    · refine .node _ _ (hN.cond _ _ _ hp4) ?_
      intro c1 a hmem
      simp only [AST.children, List.mem_append, List.mem_map, Option.mem_toList,
        Option.mem_def, Prod.mk.injEq, mem_blockChildren, List.not_mem_nil, or_false] at hmem
      rcases hmem with ⟨a1, ha1, rfl, rfl⟩ | ⟨rfl, ha⟩
      · exact hc4 _ ha1
      · exact hb4 _ ha
  parseID := by
    intro p x q hp h a hx
    obtain ⟨id, p1, h1, h2⟩ := parseIDBody_ok h
    have hp1 := hN.inv_reach (reach_tokenOf h1) hp
    rcases h2 with ⟨_, ast, h3, rfl⟩ | ⟨_, ast, p2, y, p3, h3, h4, h5⟩
    · cases hx
      exact hg.parseIf hp1 h3
    · have hp2 := hN.inv_reach (reach_resolveID h3) hp1
      have hp3 := hN.inv_reach (hr.parseIDLoop h4) hp2
      have hpend : N.Pending p2 ast :=
        ⟨.leaf (hN.resolve true hp1 h3) (resolveID_leaf h3).1,
          fun _ => .leaf (hN.resolve false hp1 h3) (resolveID_leaf h3).1⟩
      rcases h5 with ⟨_, rfl, _⟩ | ⟨node, rfl, h6⟩
      · cases hx
      · obtain ⟨rfl, rfl, hcheck⟩ := checkFinal_ok h6
        cases hx
        have hpn := hg.parseIDLoop hp2 hpend h4 a rfl
        by_cases hcall : ∃ callee arguments loc typeInfo, a = .Call callee arguments loc typeInfo
        · obtain ⟨callee, arguments, loc, typeInfo, rfl⟩ := hcall
          exact .node _ _ (hN.finalCall _ _ _ _ hp3 (hcheck _ _ _ _ rfl)) hpn.1.below_of
        · exact hpn.2 (fun callee arguments loc typeInfo he => hcall ⟨_, _, _, _, he⟩)
  parseIDLoop := by
    intro ast p x q hp hpend h a hx
    rcases parseIDLoopBody_ok h with ⟨_, h1, rfl⟩ | ⟨_, call, p1, h1, h2⟩ |
      ⟨_, callee, arguments, loc, typeInfo, fn, p1, rfl, h1, h2⟩ | ⟨_, _, _, rfl, rfl⟩
    · cases hx
    · have hp1 := hN.inv_reach (hr.parseCall h1) hp
      exact hg.parseIDLoop hp1 (hg.parseCall hp hpend.1 h1) h2 a hx
    · have hp1 := hN.inv_reach (hr.parseFunction h1) hp
      have hcallee : Forall (N.L p) true callee :=
        hpend.1.below_of true callee (by simp [AST.children])
      exact hg.parseIDLoop hp1 (hg.parseFunction hp hcallee h1) h2 a hx
    · cases hx
      exact hpend
  parseFunction := by
    intro callee arguments p ast q hp hcallee h
    obtain ⟨name, typeInfo, fnArgs, p1, p2, body, p3, rbrace, p4, rfl, hl, h1, h2, h3, h4, h5,
      rfl⟩ := parseFunctionBody_ok h
    have r2 : Reach p p2 :=
      ((reach_enterFunction p name.name).trans (reach_declareArguments h1)).trans
        (reach_ensure h2)
    have r3q : Reach p3 q := (reach_tokenOf h4).trans (Reach.step (.scopeRestore _ _ h5))
    have rq : Reach p q := (r2.trans (hr.parseBlockLoop h3)).trans r3q
    have hp2 := hN.inv_reach r2 hp
    have hp3 := hN.inv_reach (hr.parseBlockLoop h3) hp2
    have hbody := hg.parseBlockLoop hp2 (by simp) h3
    have hbelow : ∀ c1 a,
        (c1, a) ∈ (AST.Function name fnArgs body ⟨name.loc.start, rbrace.loc.stop⟩
          typeInfo).children → Forall (N.L q) c1 a := by
      intro c1 a hmem
      simp only [AST.children, List.mem_cons, Prod.mk.injEq, mem_blockChildren] at hmem
      rcases hmem with ⟨rfl, rfl⟩ | ⟨rfl, ha⟩
      · exact hN.forall_reach rq hp hcallee
      · exact hN.forall_reach r3q hp3 (hbody a ha)
    exact ⟨.node _ _ (hN.function _ _ _ true hp rq hl) hbelow,
      fun _ => .node _ _ (hN.function _ _ _ false hp rq hl) hbelow⟩
  parseCallLoop := by
    intro arguments types p r hp hargs h a ha
    rcases parseCallLoopBody_ok h with ⟨_, rfl⟩ | ⟨_, argument, p1, p2, h1, h2, h3⟩
    · exact hargs a ha
    · have hp1 := hN.inv_reach (hr.parseFactor h1) hp
      have r12 : Reach p1 p2 := by
        rcases h2 with ⟨_, h2⟩ | ⟨_, rfl⟩
        · exact reach_ensure h2
        · exact .refl
      have hp2 := hN.inv_reach r12 hp1
      refine hg.parseCallLoop hp2 ?_ h3 a ha
      intro b hb
      simp only [List.mem_append, List.mem_singleton] at hb
      rcases hb with hb | rfl
      · exact hN.forall_reach ((hr.parseFactor h1).trans r12) hp (hargs b hb)
      · exact hN.forall_reach r12 hp1 (hg.parseFactor hp h1 b rfl)
  parseCall := by
    intro callee p ast q hp hcallee h
    obtain ⟨p1, arguments, types, p2, rparen, h1, h2, h3, rfl⟩ := parseCallBody_ok h
    have r1 : Reach p { p1 with nextAddr := p1.nextAddr + 1 } :=
      (reach_ensure h1).trans (Reach.step (.alloc _))
    have hp1 := hN.inv_reach r1 hp
    have hp2 := hN.inv_reach (hr.parseCallLoop h2) hp1
    have hq := hN.inv_reach (reach_tokenOf h3) hp2
    have hargs := hg.parseCallLoop hp1 (by simp) h2
    refine ⟨.node _ _ (hN.calleeCall _ _ _ _ hq) ?_, fun hc => absurd rfl (hc _ _ _ _)⟩
    intro c1 a hmem
    simp only [AST.children, List.mem_cons, Prod.mk.injEq, List.mem_map] at hmem
    rcases hmem with ⟨rfl, rfl⟩ | ⟨b, hb, rfl, rfl⟩
    · exact hN.forall_reach ((r1.trans (hr.parseCallLoop h2)).trans (reach_tokenOf h3)) hp
        hcallee
    · exact hN.forall_reach (reach_tokenOf h3) hp2 (hargs _ hb)

/-- Every level of the grammar builds trees all of whose nodes have a sound
property. -/
theorem grammar_trees {N : NodeProp} (hN : N.Sound) : ∀ fuel, (grammar fuel).Trees N
  | 0 => trees_step hN reaches_bottom (trees_bottom N)
  | fuel + 1 => trees_step hN (grammar_reaches fuel) (grammar_trees hN fuel)
/-! ## What the primitive changes leave alone -/

theorem intern_frame {p q : Parser} {text s : String} {uid : Nat}
    (h : p.intern text = .ok (s, uid, q)) :
    q = { p with strings := q.strings, str_uid := q.str_uid } := by
  unfold Parser.intern at h
  simp only at h
  split at h
  · split at h
    · simp only [Except.ok.injEq, Prod.mk.injEq] at h
      rw [← h.2.2]
    · simp at h
  · split at h
    · simp only [Except.ok.injEq, Prod.mk.injEq] at h
      rw [← h.2.2]
    · simp at h

theorem scopeRestore_frame {p q : Parser} (h : p.scopeRestore = .ok q) :
    q = { p with m_scope := q.m_scope, parents := q.parents } := by
  unfold Parser.scopeRestore at h
  split at h
  · simp at h
  · simp only [Except.ok.injEq] at h
    rw [← h]

/-- A primitive change only ever extends the signature table at the front. -/
theorem prim_typeInfo {p q : Parser} (h : Prim p q) : p.m_typeInfo <:+ q.m_typeInfo := by
  cases h with
  | intern => rename_i h; rw [intern_frame h]
  | scopeRestore => rename_i h; rw [scopeRestore_frame h]
  | register => exact List.suffix_cons _ _
  | requireScopeFor =>
    unfold Parser.requireScopeFor
    split <;> exact List.suffix_refl _
  | _ => exact List.suffix_refl _

theorem reach_typeInfo {p q : Parser} (h : Reach p q) : p.m_typeInfo <:+ q.m_typeInfo := by
  induction h with
  | refl => exact List.suffix_refl _
  | tail _ hstep ih => exact ih.trans (prim_typeInfo hstep)

/-- A primitive change never touches the type registry. -/
theorem prim_types {p q : Parser} (h : Prim p q) : q.m_types = p.m_types := by
  cases h with
  | intern => rename_i h; rw [intern_frame h]
  | scopeRestore => rename_i h; rw [scopeRestore_frame h]
  | requireScopeFor =>
    unfold Parser.requireScopeFor
    split <;> rfl
  | _ => rfl

theorem reach_types {p q : Parser} (h : Reach p q) : q.m_types = p.m_types := by
  induction h with
  | refl => rfl
  | tail _ hstep ih => rw [prim_types hstep, ih]

theorem capture_strings (p : Parser) (ref : Nat) (name : String) :
    (p.capture ref name).strings = p.strings := by
  unfold Parser.capture Parser.requireScopeFor Parser.setCaptured
  simp only
  split <;> rfl

/-- The two ways `resolveID` succeeds: the name is an argument bound in the
current scope, or it is interned and possibly captures an outer argument. -/
theorem resolveID_ok {id : Token} {p q : Parser} {ast : AST}
    (h : resolveID id p = .ok (ast, q)) :
    (∃ ref, p.scopeGet id.name false = some (.FunctionArgument ref) ∧
        ast = .FunctionArgument ref ∧ q = p) ∨
      ((∀ ref, p.scopeGet id.name false ≠ some (.FunctionArgument ref)) ∧
        ∃ s uid p2, p.intern id.name = .ok (s, uid, p2) ∧ ast = .ID ⟨s, uid, id.loc⟩ ∧
          ((∃ ref, p2.scopeGet id.name true = some (.FunctionArgument ref) ∧
              p2.isInCurrentScope id.name = false ∧ q = p2.capture ref id.name) ∨
            ((∀ ref, p2.scopeGet id.name true = some (.FunctionArgument ref) →
                p2.isInCurrentScope id.name = true) ∧ q = p2))) := by
  unfold resolveID at h
  split at h
  · rename_i ref href
    simp only [Except.ok.injEq, Prod.mk.injEq] at h
    exact .inl ⟨ref, href, h.1.symm, h.2.symm⟩
  · rename_i hnot
    refine .inr ⟨fun ref hr => hnot ref hr, ?_⟩
    split at h
    · simp at h
    · rename_i s uid p2 h2
      refine ⟨s, uid, p2, h2, ?_⟩
      split at h
      · rename_i ref href
        split at h
        · rename_i hin
          simp only [Except.ok.injEq, Prod.mk.injEq] at h
          refine ⟨h.1.symm, .inr ⟨?_, h.2.symm⟩⟩
          intro _ _
          exact hin
        · rename_i hin
          simp only [Except.ok.injEq, Prod.mk.injEq] at h
          exact ⟨h.1.symm, .inl ⟨ref, href, by simpa using hin, h.2.symm⟩⟩
      · rename_i hnot2
        simp only [Except.ok.injEq, Prod.mk.injEq] at h
        refine ⟨h.1.symm, .inr ⟨?_, h.2.symm⟩⟩
        intro ref hr
        exact absurd hr (hnot2 ref)

/-! ## Interning -/

/-- What interning does when the counter equals the length of the table: the
text gets the index of its first occurrence, and is appended if it is new. -/
theorem intern_spec (p : Parser) (text : String) (h : p.str_uid = p.strings.length) :
    p.intern text = .ok (text, p.strings.indexOf text,
      if text ∈ p.strings then p
      else { p with str_uid := p.str_uid + 1, strings := p.strings ++ [text] }) := by
  unfold Parser.intern
  by_cases hm : text ∈ p.strings
  · simp only [List.indexOf_lt_length.2 hm, ↓reduceIte, List.getElem?_indexOf hm, hm]
  · have hi : p.strings.indexOf text = p.strings.length := List.indexOf_eq_length.2 hm
    simp [hi, hm, h]

theorem checked_sound : checkedProp.Sound where
  inv := fun _ _ => trivial
  mono := by
    intro p q c a h _ ha
    cases c <;> cases a <;> first
      | trivial
      | (obtain ⟨table, h1, h2⟩ := ha
         exact ⟨table, h1.trans (prim_typeInfo h), h2⟩)
  number := by
    intro p q ast _ h
    unfold parseNumber at h
    split at h
    · simp at h
    · simp only [Except.ok.injEq, Prod.mk.injEq] at h
      rw [← h.1]
      trivial
  string := by
    intro p q ast _ h
    unfold parseString at h
    split at h
    · simp at h
    · split at h
      · simp at h
      · simp only [Except.ok.injEq, Prod.mk.injEq] at h
        rw [← h.1]
        trivial
  resolve := by
    intro p q id ast c _ h
    have hl := (resolveID_leaf h).2
    cases c <;> cases ast <;> first | trivial | exact absurd rfl (hl _ _ _ _)
  cond := fun _ _ _ _ => trivial
  calleeCall := fun _ _ _ _ _ => trivial
  finalCall := fun _ _ _ _ _ h => ⟨_, List.suffix_refl _, h⟩
  function := fun _ _ _ c _ _ _ => by cases c <;> trivial

theorem registered_sound : registeredProp.Sound where
  inv := fun _ _ => trivial
  mono := by
    intro p q c a h _ ha
    cases a <;> first
      | trivial
      | (obtain ⟨table, h1, h2⟩ := ha
         exact ⟨table, h1.trans (prim_typeInfo h), h2⟩)
  number := by
    intro p q ast _ h
    unfold parseNumber at h
    split at h
    · simp at h
    · simp only [Except.ok.injEq, Prod.mk.injEq] at h
      rw [← h.1]
      trivial
  string := by
    intro p q ast _ h
    unfold parseString at h
    split at h
    · simp at h
    · split at h
      · simp at h
      · simp only [Except.ok.injEq, Prod.mk.injEq] at h
        rw [← h.1]
        trivial
  resolve := by
    intro p q id ast c _ h
    have hl := (resolveID_leaf h).1
    cases ast <;> trivial
  cond := fun _ _ _ _ => trivial
  calleeCall := fun _ _ _ _ _ => trivial
  finalCall := fun _ _ _ _ _ _ => trivial
  function := fun _ _ _ _ _ hr hl => ⟨_, reach_typeInfo hr, hl⟩

/-- The trees of a successful `parse`: every node has a sound property, if
the invariant holds after the registry is seeded. -/
theorem parse_trees {N : NodeProp} (hN : N.Sound) {fuel : Nat} {p q : Parser} {prog : Program}
    (hp : N.I { p.seedTypes with strings := [] }) (h : parse fuel p = .ok (prog, q)) :
    N.I q ∧ prog.strings = q.strings ∧
      Reach { p.seedTypes with strings := [] } q ∧
      ∀ a, some a ∈ prog.body.nodes → Forall (N.L q) false a := by
  unfold parse parseBlock at h
  simp only at h
  split at h
  · simp at h
  · rename_i body p1 h1
    simp only [Except.ok.injEq, Prod.mk.injEq] at h
    obtain ⟨rfl, rfl⟩ := h
    have hr := (grammar_reaches fuel).parseBlockLoop h1
    have ht : ∀ a, some a ∈ body.nodes → Forall (N.L p1) false a :=
      (grammar_trees hN fuel).parseBlockLoop hp (by simp) h1
    exact ⟨hN.inv_reach hr hp, rfl, hr, ht⟩

/-! ## `MissingTypeInformation` errors -/

theorem Error.NotMissing.ok {e : Error} (h : e.NotMissing) (table : List (String × TypeChain)) :
    MissingOK table e :=
  fun n hn => absurd hn (h n)

theorem ensure_error {p : Parser} {type : TokenType} {e : Error}
    (h : p.ensure type = .error e) : e.NotMissing := by
  unfold Parser.ensure at h
  split at h
  · simp at h
  · simp only [Except.error.injEq] at h
    subst h
    intro n hn
    cases hn

theorem tokenOf_error {p : Parser} {type : TokenType} {e : Error}
    (h : p.tokenOf type = .error e) : e.NotMissing := by
  unfold Parser.tokenOf at h
  split at h
  · simp at h
  · simp only [Except.error.injEq] at h
    subst h
    intro n hn
    cases hn

theorem intern_error {p : Parser} {text : String} {e : Error}
    (h : p.intern text = .error e) : e.NotMissing := by
  unfold Parser.intern at h
  simp only at h
  split at h <;> split at h <;> first
    | (simp at h; done)
    | (simp only [Except.error.injEq] at h
       subst h
       intro n hn
       cases hn)

theorem parseNumber_error {p : Parser} {e : Error}
    (h : parseNumber p = .error e) : e.NotMissing := by
  unfold parseNumber at h
  split at h
  · rename_i h1
    simp only [Except.error.injEq] at h
    subst h
    exact tokenOf_error h1
  · simp at h

theorem parseString_error {p : Parser} {e : Error}
    (h : parseString p = .error e) : e.NotMissing := by
  unfold parseString at h
  split at h
  · rename_i h1
    simp only [Except.error.injEq] at h
    subst h
    exact tokenOf_error h1
  · split at h
    · rename_i h2
      simp only [Except.error.injEq] at h
      subst h
      exact intern_error h2
    · simp at h

theorem resolveID_error {id : Token} {p : Parser} {e : Error}
    (h : resolveID id p = .error e) : e.NotMissing := by
  unfold resolveID at h
  split at h
  · simp at h
  · split at h
    · rename_i h2
      simp only [Except.error.injEq] at h
      subst h
      exact intern_error h2
    · split at h
      · split at h <;> simp at h
      · simp at h

theorem argumentName_error {p : Parser} {arg : AST} {e : Error}
    (h : argumentName p arg = .error e) : e.NotMissing := by
  unfold argumentName at h
  split at h
  · simp at h
  · split at h
    · simp at h
    · simp only [Except.error.injEq] at h
      subst h
      intro n hn
      cases hn
  · simp only [Except.error.injEq] at h
    subst h
    intro n hn
    cases hn

theorem declareArguments_error {sig : TypeChain} {args : List AST} {i : Nat}
    {acc : List Nat} {p : Parser} {e : Error}
    (h : declareArguments sig args i acc p = .error e) : e.NotMissing := by
  induction args generalizing i acc p with
  | nil => simp [declareArguments] at h
  | cons arg rest ih =>
    rw [declareArguments] at h
    split at h
    · rename_i h1
      simp only [Except.error.injEq] at h
      subst h
      exact argumentName_error h1
    · split at h
      · simp only [Except.error.injEq] at h
        subst h
        intro n hn
        cases hn
      · exact ih h

theorem asID_error {node : Option AST} {e : Error} (h : asID node = .error e) :
    e.NotMissing := by
  unfold asID at h
  split at h
  · simp only [Except.error.injEq] at h
    subst h
    intro n hn
    cases hn
  · simp at h
  · simp only [Except.error.injEq] at h
    subst h
    intro n hn
    cases hn

theorem scopeRestore_error {p : Parser} {e : Error} (h : p.scopeRestore = .error e) :
    e.NotMissing := by
  unfold Parser.scopeRestore at h
  split at h
  · simp only [Except.error.injEq] at h
    subst h
    intro n hn
    cases hn
  · simp at h

theorem typeCheckLoop_error {sig call : List (Option TypePtr)} {n i fresh : Nat} {e : Error}
    (h : typeCheckLoop sig call n i fresh = .error e) : e.NotMissing := by
  induction fresh generalizing i with
  | zero =>
    rw [typeCheckLoop_zero] at h
    simp only [Except.error.injEq] at h
    subst h
    intro n hn
    cases hn
  | succ k ih =>
    rw [typeCheckLoop] at h
    split at h
    · split at h
      · split at h
        · split at h <;>
          · simp only [Except.error.injEq] at h
            subst h
            intro n hn
            cases hn
        · exact ih h
      · simp only [Except.error.injEq] at h
        subst h
        intro n hn
        cases hn
    · simp at h

theorem typeCheck_error {table : List (String × TypeChain)} {callee : AST}
    {arguments : List AST} {callTypes : TypeChain} {e : Error}
    (h : typeCheck table callee arguments callTypes = .error e) : MissingOK table e := by
  unfold typeCheck at h
  split at h
  · split at h
    · rename_i hl
      simp only [Except.error.injEq] at h
      subst h
      intro n hn
      cases hn
      exact hl
    · simp only at h
      split at h
      · simp only [Except.error.injEq] at h
        subst h
        intro n hn
        cases hn
      · exact (typeCheckLoop_error h).ok _
  · simp at h

theorem checkFinal_error {ast : AST} {p : Parser} {e : Error}
    (h : checkFinal ast p = .error e) : MissingOK p.m_typeInfo e := by
  unfold checkFinal at h
  split at h
  · split at h
    · rename_i h1
      simp only [Except.error.injEq] at h
      subst h
      exact typeCheck_error h1
    · simp at h
  · simp at h

/-- A name without a chain in a later table has none in an earlier one. -/
theorem lookup_none_of_suffix {t1 t2 : List (String × TypeChain)} (h : t1 <:+ t2) {n : String}
    (hn : t2.lookup n = none) : t1.lookup n = none := by
  obtain ⟨front, rfl⟩ := h
  induction front with
  | nil => exact hn
  | cons x front ih =>
    obtain ⟨k, v⟩ := x
    rw [List.cons_append, List.lookup_cons] at hn
    split at hn
    · cases hn
    · exact ih hn

theorem MissingOK.of_reach {p q : Parser} (h : Reach p q) {e : Error}
    (he : MissingOK q.m_typeInfo e) : MissingOK p.m_typeInfo e :=
  fun n hn => lookup_none_of_suffix (reach_typeInfo h) (he n hn)

theorem errors_bottom : Grammar.bottom.Errors := by
  constructor <;>
  · intros
    rename_i h
    simp only [Grammar.bottom, Except.error.injEq] at h
    subst h
    intro n hn
    cases hn

theorem errors_step {g : Grammar} (hr : g.Reaches) (hg : g.Errors) : g.step.Errors where
  parseBlockLoop := by
    intro delim nodes p e h
    show MissingOK p.m_typeInfo e
    change parseBlockLoopBody g delim nodes p = .error e at h
    unfold parseBlockLoopBody at h
    split at h
    · simp at h
    · split at h
      · rename_i h1
        simp only [Except.error.injEq] at h
        subst h
        exact hg.parseFactor h1
      · rename_i h1
        exact (hg.parseBlockLoop h).of_reach (hr.parseFactor h1)
      · rename_i h1
        exact (hg.parseBlockLoop h).of_reach (hr.parseFactor h1)
  parseFactor := by
    intro p e h
    change parseFactorBody g p = .error e at h
    unfold parseFactorBody at h
    split at h
    · split at h
      · rename_i h1
        simp only [Except.error.injEq] at h
        subst h
        exact (parseNumber_error h1).ok _
      · simp at h
    · exact hg.parseID h
    · split at h
      · rename_i h1
        simp only [Except.error.injEq] at h
        subst h
        exact (parseString_error h1).ok _
      · simp at h
    · simp only [Except.error.injEq] at h
      subst h
      intro n hn
      cases hn
  parseBranch := by
    intro p e h
    change parseBranchBody g p = .error e at h
    unfold parseBranchBody at h
    split at h
    · split at h
      · rename_i h1
        simp only [Except.error.injEq] at h
        subst h
        exact (ensure_error h1).ok _
      · rename_i p1 h1
        split at h
        · rename_i h2
          simp only [Except.error.injEq] at h
          subst h
          exact (hg.parseBlockLoop h2).of_reach (reach_ensure h1)
        · split at h
          · rename_i h3
            simp only [Except.error.injEq] at h
            subst h
            exact (ensure_error h3).ok _
          · simp at h
    · split at h
      · rename_i h1
        simp only [Except.error.injEq] at h
        subst h
        exact hg.parseFactor h1
      · simp at h
  parseIf := by
    intro p e h
    change parseIfBody g p = .error e at h
    unfold parseIfBody at h
    split at h
    · rename_i h1
      simp only [Except.error.injEq] at h
      subst h
      exact (ensure_error h1).ok _
    · rename_i p1 h1
      split at h
      · rename_i h2
        simp only [Except.error.injEq] at h
        subst h
        exact (hg.parseFactor h2).of_reach (reach_ensure h1)
      · rename_i c p2 h2
        have r2 : Reach p p2 := (reach_ensure h1).trans (hr.parseFactor h2)
        split at h
        · rename_i h3
          simp only [Except.error.injEq] at h
          subst h
          exact (ensure_error h3).ok _
        · rename_i p3 h3
          have r3 : Reach p p3 := r2.trans (reach_ensure h3)
          split at h
          · rename_i h4
            simp only [Except.error.injEq] at h
            subst h
            exact (hg.parseBranch h4).of_reach r3
          · rename_i ifBody p4 h4
            have r4 : Reach p p4 := r3.trans (hr.parseBranch h4)
            split at h
            · split at h
              · rename_i h5
                simp only [Except.error.injEq] at h
                subst h
                exact (ensure_error h5).ok _
              · rename_i p5 h5
                split at h
                · rename_i h6
                  simp only [Except.error.injEq] at h
                  subst h
                  exact (hg.parseBranch h6).of_reach (r4.trans (reach_ensure h5))
                · simp at h
            · simp at h
  parseID := by
    intro p e h
    change parseIDBody g p = .error e at h
    unfold parseIDBody at h
    split at h
    · rename_i h1
      simp only [Except.error.injEq] at h
      subst h
      exact (tokenOf_error h1).ok _
    · rename_i id p1 h1
      have r1 : Reach p p1 := reach_tokenOf h1
      split at h
      · split at h
        · rename_i h2
          simp only [Except.error.injEq] at h
          subst h
          exact (hg.parseIf h2).of_reach r1
        · simp at h
      · split at h
        · rename_i h2
          simp only [Except.error.injEq] at h
          subst h
          exact (resolveID_error h2).ok _
        · rename_i ast p2 h2
          have r2 : Reach p p2 := r1.trans (reach_resolveID h2)
          split at h
          · rename_i h3
            simp only [Except.error.injEq] at h
            subst h
            exact (hg.parseIDLoop h3).of_reach r2
          · simp at h
          · rename_i node p3 h3
            exact (checkFinal_error h).of_reach (r2.trans (hr.parseIDLoop h3))
  parseIDLoop := by
    intro ast p e h
    change parseIDLoopBody g ast p = .error e at h
    unfold parseIDLoopBody at h
    split at h
    · split at h
      · rename_i h1
        simp only [Except.error.injEq] at h
        subst h
        exact hg.parseTypeInfo h1
      · simp at h
    · split at h
      · split at h
        · rename_i h1
          simp only [Except.error.injEq] at h
          subst h
          exact hg.parseCall h1
        · rename_i call p1 h1
          exact (hg.parseIDLoop h).of_reach (hr.parseCall h1)
      · split at h
        · split at h
          · split at h
            · rename_i h1
              simp only [Except.error.injEq] at h
              subst h
              exact hg.parseFunction h1
            · rename_i fn p1 h1
              exact (hg.parseIDLoop h).of_reach (hr.parseFunction h1)
          · simp only [Except.error.injEq] at h
            subst h
            intro n hn
            cases hn
        · simp at h
  parseFunction := by
    intro callee arguments p e h
    change parseFunctionBody g callee arguments p = .error e at h
    unfold parseFunctionBody at h
    split at h
    · rename_i name
      split at h
      · rename_i hl
        simp only [Except.error.injEq] at h
        subst h
        intro n hn
        cases hn
        exact hl
      · rename_i typeInfo hl
        simp only at h
        split at h
        · rename_i h1
          simp only [Except.error.injEq] at h
          subst h
          exact (declareArguments_error h1).ok _
        · rename_i fnArgs p1 h1
          have r1 : Reach p p1 :=
            (reach_enterFunction p name.name).trans (reach_declareArguments h1)
          split at h
          · rename_i h2
            simp only [Except.error.injEq] at h
            subst h
            exact (ensure_error h2).ok _
          · rename_i p2 h2
            split at h
            · rename_i h3
              simp only [Except.error.injEq] at h
              subst h
              exact (hg.parseBlockLoop h3).of_reach (r1.trans (reach_ensure h2))
            · split at h
              · rename_i h4
                simp only [Except.error.injEq] at h
                subst h
                exact (tokenOf_error h4).ok _
              · split at h
                · rename_i h5
                  simp only [Except.error.injEq] at h
                  subst h
                  exact (scopeRestore_error h5).ok _
                · simp at h
    · simp only [Except.error.injEq] at h
      subst h
      intro n hn
      cases hn
  parseCallLoop := by
    intro arguments types p e h
    change parseCallLoopBody g arguments types p = .error e at h
    unfold parseCallLoopBody at h
    split at h
    · simp at h
    · split at h
      · rename_i h1
        simp only [Except.error.injEq] at h
        subst h
        exact hg.parseFactor h1
      · simp only [Except.error.injEq] at h
        subst h
        intro n hn
        cases hn
      · rename_i argument p1 h1
        simp only at h
        split at h
        · split at h
          · rename_i h2
            simp only [Except.error.injEq] at h
            subst h
            exact (ensure_error h2).ok _
          · rename_i p2 h2
            exact (hg.parseCallLoop h).of_reach ((hr.parseFactor h1).trans (reach_ensure h2))
        · exact (hg.parseCallLoop h).of_reach (hr.parseFactor h1)
  parseCall := by
    intro callee p e h
    change parseCallBody g callee p = .error e at h
    unfold parseCallBody at h
    simp only at h
    split at h
    · rename_i h1
      simp only [Except.error.injEq] at h
      subst h
      exact (ensure_error h1).ok _
    · rename_i p1 h1
      split at h
      · rename_i h2
        simp only [Except.error.injEq] at h
        subst h
        exact (hg.parseCallLoop h2).of_reach
          ((reach_ensure h1).trans (Reach.step (.alloc _)))
      · split at h
        · rename_i h3
          simp only [Except.error.injEq] at h
          subst h
          exact (tokenOf_error h3).ok _
        · simp at h
  parseTypeInfo := by
    intro target p e h
    change parseTypeInfoBody g target p = .error e at h
    unfold parseTypeInfoBody at h
    simp only at h
    split at h
    · rename_i h1
      simp only [Except.error.injEq] at h
      subst h
      exact (ensure_error h1).ok _
    · rename_i p1 h1
      split at h
      · rename_i h2
        simp only [Except.error.injEq] at h
        subst h
        exact (hg.parseTypeInfoLoop h2).of_reach
          ((reach_ensure h1).trans (Reach.step (.alloc _)))
      · split at h
        · rename_i h3
          simp only [Except.error.injEq] at h
          subst h
          exact (asID_error h3).ok _
        · simp at h
  parseTypeInfoLoop := by
    intro types p e h
    change parseTypeInfoLoopBody g types p = .error e at h
    unfold parseTypeInfoLoopBody at h
    split at h
    · rename_i h1
      simp only [Except.error.injEq] at h
      subst h
      exact hg.parseID h1
    · rename_i node p1 h1
      split at h
      · rename_i h2
        simp only [Except.error.injEq] at h
        subst h
        exact (asID_error h2).ok _
      · split at h
        · simp only [Except.error.injEq] at h
          subst h
          intro n hn
          cases hn
        · simp only at h
          split at h
          · rename_i p2 h4
            exact (hg.parseTypeInfoLoop h).of_reach ((hr.parseID h1).trans (reach_skip h4))
          · simp at h

/-- At every level of the grammar a `MissingTypeInformation` error names a
function without a registered chain. -/
theorem grammar_errors : ∀ fuel, (grammar fuel).Errors
  | 0 => errors_step reaches_bottom errors_bottom
  | fuel + 1 => errors_step (grammar_reaches fuel) (grammar_errors fuel)

/-! ## Interning a list of texts -/

theorem Grammar.IsLevel.cases {g : Grammar} (h : g.IsLevel) :
    g = Grammar.bottom ∨ ∃ g1 : Grammar, g1.IsLevel ∧ g = g1.step := by
  rcases h with h | ⟨fuel, rfl⟩
  · exact .inl h
  · cases fuel with
    | zero => exact .inr ⟨Grammar.bottom, .inl rfl, rfl⟩
    | succ n => exact .inr ⟨grammar n, .inr ⟨n, rfl⟩, rfl⟩

theorem grammar_isLevel (fuel : Nat) : (grammar fuel).IsLevel := .inr ⟨fuel, rfl⟩

theorem token_of_tokens {p : Parser} {t : Token} {rest : List Token}
    (h : p.tokens = t :: rest) : p.token = t := by
  simp [Parser.token, h]

theorem advance_tokens {p : Parser} {t : Token} {rest : List Token}
    (h : p.tokens = t :: rest) : p.advance.tokens = rest := by
  simp [Parser.advance, h]

theorem tokenOf_ok {p q : Parser} {type : TokenType} {tok : Token}
    (h : p.tokenOf type = .ok (tok, q)) :
    p.token.type = type ∧ tok = p.token ∧ q = p.advance := by
  unfold Parser.tokenOf at h
  by_cases hc : p.token.type = type
  · simp only [hc, ↓reduceIte, Except.ok.injEq, Prod.mk.injEq] at h
    exact ⟨hc, h.1.symm, h.2.symm⟩
  · simp [hc] at h

theorem ensure_ok {p q : Parser} {type : TokenType} (h : p.ensure type = .ok q) :
    p.token.type = type ∧ q = p.advance := by
  unfold Parser.ensure at h
  by_cases hc : p.token.type = type
  · simp only [hc, ↓reduceIte, Except.ok.injEq] at h
    exact ⟨hc, h.symm⟩
  · simp [hc] at h

/-- At a closing parenthesis the argument loop of `parseCall` stops, whatever
the fuel. -/
theorem parseCallLoop_rparen (fuel : Nat) (arguments : List AST)
    (types : List (Option TypePtr)) (p : Parser) (h : p.token.type = .R_PAREN) :
    parseCallLoop fuel arguments types p = .ok (arguments, types, p) := by
  obtain ⟨g, hg⟩ := grammar_eq_step fuel
  show (grammar fuel).parseCallLoop arguments types p = _
  rw [hg]
  show parseCallLoopBody g arguments types p = _
  unfold parseCallLoopBody
  simp [h]

theorem parseFactor_token {fuel : Nat} {p q : Parser} {x : Option AST}
    (h : parseFactor fuel p = .ok (x, q)) :
    p.token.type = .NUMBER ∨ p.token.type = .ID ∨ p.token.type = .STRING := by
  obtain ⟨g, hg⟩ := grammar_eq_step fuel
  change (grammar fuel).parseFactor p = _ at h
  rw [hg] at h
  have h2 : parseFactorBody g p = .ok (x, q) := h
  rcases parseFactorBody_ok h2 with ⟨ht, _⟩ | ⟨ht, _⟩ | ⟨ht, _⟩
  · exact .inl ht
  · exact .inr (.inl ht)
  · exact .inr (.inr ht)

theorem parseFactor_unexpected (fuel : Nat) (p : Parser) (h1 : p.token.type ≠ .NUMBER)
    (h2 : p.token.type ≠ .ID) (h3 : p.token.type ≠ .STRING) :
    parseFactor fuel p = .error .UnexpectedToken := by
  obtain ⟨g, hg⟩ := grammar_eq_step fuel
  show (grammar fuel).parseFactor p = _
  rw [hg]
  show parseFactorBody g p = _
  unfold parseFactorBody
  split <;> simp_all

theorem capture_frame (p : Parser) (ref : Nat) (name : String) :
    (p.capture ref name).tokens = p.tokens ∧ (p.capture ref name).m_types = p.m_types ∧
      (p.capture ref name).m_typeInfo = p.m_typeInfo ∧
      (p.capture ref name).nextAddr = p.nextAddr ∧
      (p.capture ref name).str_uid = p.str_uid ∧
      (p.capture ref name).m_scope.table = p.m_scope.table := by
  unfold Parser.capture Parser.requireScopeFor Parser.setCaptured
  simp only
  split <;> exact ⟨rfl, rfl, rfl, rfl, rfl, rfl⟩

/-- On a plain name `resolveID` interns the name and makes an `ID` node; only
the string table, the flags of the scopes and the captured flags change. -/
theorem resolveID_plain (p : Parser) (t : Token) (hplain : PlainName p.m_scope.table t.name)
    (hstr : p.str_uid = p.strings.length) :
    ∃ uid q, resolveID t p = .ok (.ID ⟨t.name, uid, t.loc⟩, q) ∧ q.tokens = p.tokens ∧
      q.m_types = p.m_types ∧ q.m_typeInfo = p.m_typeInfo ∧ q.nextAddr = p.nextAddr ∧
      q.str_uid = q.strings.length ∧ q.m_scope.table = p.m_scope.table := by
  have hget : ∀ ref, p.scopeGet t.name false ≠ some (.FunctionArgument ref) := by
    intro ref h
    unfold Parser.scopeGet at h
    split at h
    · rename_i b hb
      exact hplain.2 ref (hb.trans h)
    · simp at h
  have hi := intern_spec p t.name hstr
  have hstr2 : (if t.name ∈ p.strings then p
      else { p with str_uid := p.str_uid + 1, strings := p.strings ++ [t.name] }).str_uid
      = (if t.name ∈ p.strings then p
      else { p with str_uid := p.str_uid + 1, strings := p.strings ++ [t.name] }).strings.length := by
    split
    · exact hstr
    · simp [hstr]
  generalize (if t.name ∈ p.strings then p
      else { p with str_uid := p.str_uid + 1, strings := p.strings ++ [t.name] }) = p2 at hi hstr2
  have hf := intern_frame hi
  have hf1 : p2.tokens = p.tokens := by rw [hf]
  have hf2 : p2.m_types = p.m_types := by rw [hf]
  have hf3 : p2.m_typeInfo = p.m_typeInfo := by rw [hf]
  have hf4 : p2.nextAddr = p.nextAddr := by rw [hf]
  have hf5 : p2.m_scope.table = p.m_scope.table := by rw [hf]
  unfold resolveID
  split
  · rename_i ref href
    exact absurd href (hget ref)
  · rw [hi]
    simp only
    split
    · rename_i ref href
      split
      · exact ⟨_, p2, rfl, hf1, hf2, hf3, hf4, hstr2, hf5⟩
      · obtain ⟨c1, c2, c3, c4, c5, c6⟩ := capture_frame p2 ref t.name
        refine ⟨_, _, rfl, c1.trans hf1, c2.trans hf2, c3.trans hf3, c4.trans hf4, ?_,
          c6.trans hf5⟩
        rw [c5, capture_strings]
        exact hstr2
    · exact ⟨_, p2, rfl, hf1, hf2, hf3, hf4, hstr2, hf5⟩

/-- The postfix loop of `parseID` stops at a token that is no postfix. -/
theorem parseIDLoop_stop (fuel : Nat) (ast : AST) (p : Parser) (h1 : p.token.type ≠ .TYPE)
    (h2 : p.token.type ≠ .L_PAREN) (h3 : p.token.type ≠ .L_BRACE) :
    parseIDLoop fuel ast p = .ok (some ast, p) := by
  obtain ⟨g, hg⟩ := grammar_eq_step fuel
  show (grammar fuel).parseIDLoop ast p = _
  rw [hg]
  show parseIDLoopBody g ast p = _
  unfold parseIDLoopBody
  simp [h1, h2, h3]

/-- A plain name that is followed by no postfix is parsed into an `ID`
node. -/
theorem parseID_plain (fuel : Nat) (p : Parser) (t : Token) (rest : List Token)
    (htok : p.tokens = t :: rest) (ht : t.type = .ID)
    (hplain : PlainName p.m_scope.table t.name) (hstr : p.str_uid = p.strings.length)
    (h1 : (rest.headD Token.eof).type ≠ .TYPE) (h2 : (rest.headD Token.eof).type ≠ .L_PAREN)
    (h3 : (rest.headD Token.eof).type ≠ .L_BRACE) :
    ∃ uid q, parseID (fuel + 1) p = .ok (some (.ID ⟨t.name, uid, t.loc⟩), q) ∧
      q.tokens = rest ∧ q.m_types = p.m_types ∧ q.m_typeInfo = p.m_typeInfo ∧
      q.nextAddr = p.nextAddr ∧ q.str_uid = q.strings.length ∧
      q.m_scope.table = p.m_scope.table := by
  obtain ⟨uid, q, hr, f1, f2, f3, f4, f5, f6⟩ :=
    resolveID_plain p.advance t hplain hstr
  have hq : q.token = rest.headD Token.eof := by
    simp [Parser.token, f1, Parser.advance, htok]
  have hloop := parseIDLoop_stop fuel (.ID ⟨t.name, uid, t.loc⟩) q (by rw [hq]; exact h1)
    (by rw [hq]; exact h2) (by rw [hq]; exact h3)
  change (grammar fuel).parseIDLoop _ _ = _ at hloop
  refine ⟨uid, q, ?_, by rw [f1, advance_tokens htok], f2, f3, f4, f5, f6⟩
  show parseIDBody (grammar fuel) p = _
  unfold parseIDBody
  simp only [Parser.tokenOf, token_of_tokens htok, ht, ↓reduceIte, hplain.1, hr, hloop]
  rfl

/-- The loop of `parseTypeInfo` over a chain of plain type names: if every
name is in the registry the chain gets their types in order, otherwise the
loop fails with `UndefinedType`. -/
theorem parseTypeInfoLoop_chain (registry : List (String × TypePtr)) (arrow : Token)
    (harrow : arrow.type = .ARROW) (rest : List Token)
    (hrest : (rest.headD Token.eof).EndsDeclaration) (ts : List Token) (hne : ts ≠ []) :
    ∀ (fuel : Nat) (types : List (Option TypePtr)) (p : Parser), ts.length + 1 ≤ fuel →
      (∀ t ∈ ts, t.type = .ID ∧ PlainName p.m_scope.table t.name) →
      p.m_types = registry → p.str_uid = p.strings.length →
      p.tokens = ts.intersperse arrow ++ rest →
      ((∀ t ∈ ts, registry.lookup t.name ≠ none) →
        ∃ q, parseTypeInfoLoop fuel types p
            = .ok (types ++ ts.map (fun t => registry.lookup t.name), q) ∧
          q.tokens = rest ∧ q.m_typeInfo = p.m_typeInfo ∧ q.nextAddr = p.nextAddr) ∧
      ((∃ t ∈ ts, registry.lookup t.name = none) →
        parseTypeInfoLoop fuel types p = .error .UndefinedType) := by
  induction ts with
  | nil => exact absurd rfl hne
  | cons t ts ih =>
    intro fuel types p hfuel hts hreg hstr htok
    obtain ⟨fuel, rfl⟩ : ∃ n, fuel = n + 2 := ⟨fuel - 2, by simp at hfuel; omega⟩
    have ht := hts t (List.mem_cons_self _ _)
    cases ts with
    | nil =>
      simp only [List.intersperse_single, List.singleton_append] at htok
      obtain ⟨uid, q, hq, f1, f2, f3, f4, f5, f6⟩ := parseID_plain fuel p t rest htok ht.1 ht.2
        hstr hrest.1 hrest.2.1 hrest.2.2.1
      change (grammar (fuel + 1)).parseID p = _ at hq
      have hskip : q.skip .ARROW = (false, q) := by
        have : q.token.type ≠ .ARROW := by
          simp only [Parser.token, f1]
          exact hrest.2.2.2
        simp [Parser.skip, this]
      constructor
      · intro hall
        have hl := hall t (List.mem_cons_self _ _)
        obtain ⟨ty, hty⟩ := Option.ne_none_iff_exists'.1 hl
        refine ⟨q, ?_, f1, f3, f4⟩
        show parseTypeInfoLoopBody (grammar (fuel + 1)) types p = _
        unfold parseTypeInfoLoopBody
        simp [hq, asID, f2, hreg, hty, hskip]
      · rintro ⟨t1, ht1, hnone⟩
        simp only [List.mem_singleton] at ht1
        subst ht1
        show parseTypeInfoLoopBody (grammar (fuel + 1)) types p = _
        unfold parseTypeInfoLoopBody
        simp [hq, asID, f2, hreg, hnone]
    | cons t2 ts =>
      simp only [List.intersperse_cons₂, List.cons_append] at htok
      obtain ⟨uid, q, hq, f1, f2, f3, f4, f5, f6⟩ := parseID_plain fuel p t _ htok ht.1 ht.2
        hstr (by simp [harrow]) (by simp [harrow]) (by simp [harrow])
      change (grammar (fuel + 1)).parseID p = _ at hq
      have hskip : q.skip .ARROW = (true, q.advance) := by
        have : q.token.type = .ARROW := by
          simp [Parser.token, f1, harrow]
        simp [Parser.skip, this]
      have hadv : q.advance.tokens = (t2 :: ts).intersperse arrow ++ rest := by
        simp [Parser.advance, f1]
      have ih2 := ih (by simp) (fuel + 1)
      cases hl : registry.lookup t.name with
      | none =>
        constructor
        · intro hall
          exact absurd hl (hall t (List.mem_cons_self _ _))
        · intro _
          show parseTypeInfoLoopBody (grammar (fuel + 1)) types p = _
          unfold parseTypeInfoLoopBody
          simp [hq, asID, f2, hreg, hl]
      | some ty =>
        have ih3 := ih2 (types ++ [some ty]) q.advance (by simp at hfuel ⊢; omega)
          (fun t1 h1 => by
            have := hts t1 (List.mem_cons_of_mem _ h1)
            simpa [Parser.advance, f6] using this)
          (by simp [Parser.advance, f2, hreg]) (by simpa [Parser.advance] using f5) hadv
        have hbody : parseTypeInfoLoop (fuel + 2) types p
            = parseTypeInfoLoop (fuel + 1) (types ++ [some ty]) q.advance := by
          show parseTypeInfoLoopBody (grammar (fuel + 1)) types p = _
          unfold parseTypeInfoLoopBody
          simp [hq, asID, f2, hreg, hl, hskip]
          rfl
        rw [hbody]
        constructor
        · intro hall
          obtain ⟨q2, h1, h2, h3, h4⟩ :=
            ih3.1 (fun t1 h1 => hall t1 (List.mem_cons_of_mem _ h1))
          refine ⟨q2, ?_, h2, ?_, ?_⟩
          · rw [h1]
            simp [hl]
          · rw [h3]
            simp [Parser.advance, f3]
          · rw [h4]
            simp [Parser.advance, f4]
        · rintro ⟨t1, ht1, hnone⟩
          apply ih3.2
          rcases List.mem_cons.1 ht1 with rfl | h
          · rw [hl] at hnone
            cases hnone
          · exact ⟨t1, h, hnone⟩

/-- A type declaration `n : T1 -> ... -> Tk` of plain names as a factor.  If
every type name is in the registry, the factor yields no node and the chain of
their types, in order, is put in front of the signature table under the name
`n`; otherwise the factor fails with `UndefinedType`. -/
theorem parseFactor_declaration (registry : List (String × TypePtr)) (p : Parser)
    (n colon arrow : Token) (ts rest : List Token) (fuel : Nat)
    (hreg : p.m_types = registry) (hstr : p.str_uid = p.strings.length)
    (hn : n.type = .ID ∧ PlainName p.m_scope.table n.name) (hcolon : colon.type = .TYPE)
    (harrow : arrow.type = .ARROW)
    (hts : ∀ t ∈ ts, t.type = .ID ∧ PlainName p.m_scope.table t.name) (hne : ts ≠ [])
    (htok : p.tokens = n :: colon :: (ts.intersperse arrow ++ rest))
    (hrest : (rest.headD Token.eof).EndsDeclaration) (hfuel : ts.length + 5 ≤ fuel) :
    ((∀ t ∈ ts, registry.lookup t.name ≠ none) →
      ∃ q, parseFactor fuel p = .ok (none, q) ∧ q.tokens = rest ∧
        q.m_typeInfo = (n.name, ⟨p.nextAddr, ts.map (fun t => registry.lookup t.name)⟩)
          :: p.m_typeInfo) ∧
    ((∃ t ∈ ts, registry.lookup t.name = none) →
      parseFactor fuel p = .error .UndefinedType) := by
  obtain ⟨fuel, rfl⟩ : ∃ f, fuel = f + 5 := ⟨fuel - 5, by omega⟩
  obtain ⟨uid, p1, hr, f1, f2, f3, f4, f5, f6⟩ := resolveID_plain p.advance n hn.2 hstr
  have htok1 : p1.tokens = colon :: (ts.intersperse arrow ++ rest) := by
    rw [f1, advance_tokens htok]
  have hchain := parseTypeInfoLoop_chain registry arrow harrow rest hrest ts hne (fuel + 1) []
    { p1.advance with nextAddr := p1.advance.nextAddr + 1 } (by omega)
    (fun t ht => by simpa [Parser.advance, f6] using hts t ht)
    (by simp [Parser.advance, f2, hreg]) (by simpa [Parser.advance] using f5)
    (by simp [Parser.advance, htok1])
  have hfactor : parseFactor (fuel + 5) p
      = match parseTypeInfoLoop (fuel + 1) []
          { p1.advance with nextAddr := p1.advance.nextAddr + 1 } with
        | .error e => .error e
        | .ok (types, p2) =>
          .ok (none, { p2 with
            m_typeInfo := (n.name, ⟨p1.advance.nextAddr, types⟩) :: p2.m_typeInfo }) := by
    have up : ∀ r : Except Error (Option AST × Parser),
        (grammar (fuel + 2)).parseTypeInfo (.ID ⟨n.name, uid, n.loc⟩) p1
          = (match r with
            | .error e => .error e
            | .ok (_, p) => .ok p) →
        (∀ x p, r = .ok (x, p) → x = none) → parseFactor (fuel + 5) p = r := by
      intro r hti hnone
      have hloop : (grammar (fuel + 3)).parseIDLoop (.ID ⟨n.name, uid, n.loc⟩) p1 = r := by
        show parseIDLoopBody (grammar (fuel + 2)) _ p1 = _
        unfold parseIDLoopBody
        simp only [token_of_tokens htok1, hcolon, ↓reduceIte, hti]
        cases r with
        | error e => rfl
        | ok v =>
          obtain ⟨x, p⟩ := v
          cases hnone x p rfl
          rfl
      have hid : (grammar (fuel + 4)).parseID p = r := by
        show parseIDBody (grammar (fuel + 3)) p = _
        unfold parseIDBody
        simp only [Parser.tokenOf, token_of_tokens htok, hn.1, ↓reduceIte, hn.2.1, hr, hloop]
        cases r with
        | error e => rfl
        | ok v =>
          obtain ⟨x, p⟩ := v
          cases hnone x p rfl
          rfl
      show parseFactorBody (grammar (fuel + 4)) p = _
      unfold parseFactorBody
      simp only [token_of_tokens htok, hn.1, hid]
    cases hres : parseTypeInfoLoop (fuel + 1) []
        { p1.advance with nextAddr := p1.advance.nextAddr + 1 } with
    | error e =>
      refine up (.error e) ?_ (fun x p h => by cases h)
      have hres2 : (grammar (fuel + 1)).parseTypeInfoLoop []
          { p1.advance with nextAddr := p1.advance.nextAddr + 1 } = .error e := hres
      have hti : parseTypeInfoBody (grammar (fuel + 1)) (.ID ⟨n.name, uid, n.loc⟩) p1
          = .error e := by
        unfold parseTypeInfoBody
        simp only [Parser.ensure, token_of_tokens htok1, hcolon, ↓reduceIte, hres2]
      exact hti
    | ok v =>
      obtain ⟨types, p2⟩ := v
      have hres2 : (grammar (fuel + 1)).parseTypeInfoLoop []
          { p1.advance with nextAddr := p1.advance.nextAddr + 1 } = .ok (types, p2) := hres
      have hti : parseTypeInfoBody (grammar (fuel + 1)) (.ID ⟨n.name, uid, n.loc⟩) p1
          = .ok { p2 with
              m_typeInfo := (n.name, ⟨p1.advance.nextAddr, types⟩) :: p2.m_typeInfo } := by
        unfold parseTypeInfoBody
        simp only [Parser.ensure, token_of_tokens htok1, hcolon, ↓reduceIte, hres2, asID]
      exact up (.ok (none, _)) hti (fun x p h => by cases h; rfl)
  rw [hfactor]
  constructor
  · intro hall
    obtain ⟨q, h1, h2, h3, h4⟩ := hchain.1 hall
    rw [h1]
    refine ⟨_, rfl, h2, ?_⟩
    simp only [h3, List.nil_append]
    simp [Parser.advance, f3, f4]
  · intro hex
    rw [hchain.2 hex]

theorem resolveID_tokens {id : Token} {p q : Parser} {ast : AST}
    (h : resolveID id p = .ok (ast, q)) : q.tokens = p.tokens := by
  rcases resolveID_ok h with ⟨_, _, _, rfl⟩ | ⟨_, s, uid, p2, h2, _, h3⟩
  · rfl
  · have hf : p2.tokens = p.tokens := by rw [intern_frame h2]
    rcases h3 with ⟨ref, _, _, rfl⟩ | ⟨_, rfl⟩
    · rw [(capture_frame p2 ref id.name).1, hf]
    · exact hf

/-- A factor that starts with an identifier and the type-declaration token
yields no node. -/
theorem parseFactor_declaration_none {fuel : Nat} {p q : Parser} {x : Option AST}
    {n colon : Token} {rest : List Token} (htok : p.tokens = n :: colon :: rest)
    (hn : n.type = .ID) (hcolon : colon.type = .TYPE)
    (h : parseFactor fuel p = .ok (x, q)) : x = none := by
  obtain ⟨g, hg, hstep⟩ : ∃ g : Grammar, g.IsLevel ∧ grammar fuel = g.step := by
    cases fuel with
    | zero => exact ⟨Grammar.bottom, .inl rfl, rfl⟩
    | succ k => exact ⟨grammar k, .inr ⟨k, rfl⟩, rfl⟩
  change (grammar fuel).parseFactor p = _ at h
  rw [hstep] at h
  have h2 : parseFactorBody g p = .ok (x, q) := h
  have hp : p.token = n := token_of_tokens htok
  rcases parseFactorBody_ok h2 with ⟨ht, _⟩ | ⟨_, h3⟩ | ⟨ht, _⟩
  · rw [hp, hn] at ht
    cases ht
  · rcases hg.cases with rfl | ⟨g1, hg1, rfl⟩
    · simp [Grammar.bottom] at h3
    · have h4 : parseIDBody g1 p = .ok (x, q) := h3
      obtain ⟨id, p1, h5, h6⟩ := parseIDBody_ok h4
      have hp1 : p1.tokens = colon :: rest := by
        rw [(tokenOf_ok h5).2.2]
        exact advance_tokens htok
      rcases h6 with ⟨_, ast, h7, _⟩ | ⟨_, ast, p2, y, p3, h7, h8, h9⟩
      · rcases hg1.cases with rfl | ⟨g2, _, rfl⟩
        · simp [Grammar.bottom] at h7
        · have h10 : parseIfBody g2 p1 = .ok (ast, q) := h7
          obtain ⟨p5, _, _, _, _, _, h11, _⟩ := parseIfBody_ok h10
          simp [Parser.ensure, token_of_tokens hp1, hcolon] at h11
      · have hp2 : p2.token.type = .TYPE := by
          rw [token_of_tokens ((resolveID_tokens h7).trans hp1)]
          exact hcolon
        rcases hg1.cases with rfl | ⟨g2, _, rfl⟩
        · simp [Grammar.bottom] at h8
        · have h10 : parseIDLoopBody g2 ast p2 = .ok (y, p3) := h8
          rcases parseIDLoopBody_ok h10 with ⟨_, _, rfl⟩ | ⟨ht, _⟩ | ⟨ht, _⟩ | ⟨ht, _⟩
          · rcases h9 with ⟨_, hx, _⟩ | ⟨node, hy, _⟩
            · exact hx
            · cases hy
          · rw [hp2] at ht
            cases ht
          · rw [hp2] at ht
            cases ht
          · exact absurd hp2 ht
  · rw [hp, hn] at ht
    cases ht

/-- The nodes of a block are the non-null results of its factors, in
order. -/
theorem parseBlockLoop_factors (fuel : Nat) (delim : TokenType) :
    ∀ (nodes : List (Option AST)) (p q : Parser) (b : Block AST),
      parseBlockLoop fuel delim nodes p = .ok (b, q) →
        ∃ xs, FactorRun delim p xs q ∧ b.nodes = nodes ++ xs.filter Option.isSome := by
  induction fuel with
  | zero =>
    intro nodes p q b h
    have h2 : parseBlockLoopBody Grammar.bottom delim nodes p = .ok (b, q) := h
    rcases parseBlockLoopBody_ok h2 with ⟨hd, rfl, rfl⟩ | ⟨_, x, p1, h3, _⟩
    · exact ⟨[], .done _ hd, by simp⟩
    · simp [Grammar.bottom] at h3
  | succ fuel ih =>
    intro nodes p q b h
    have h2 : parseBlockLoopBody (grammar fuel) delim nodes p = .ok (b, q) := h
    rcases parseBlockLoopBody_ok h2 with ⟨hd, rfl, rfl⟩ | ⟨hd, x, p1, h3, h4⟩
    · exact ⟨[], .done _ hd, by simp⟩
    · obtain ⟨xs, h5, h6⟩ := ih _ _ _ _ h4
      refine ⟨x :: xs, .factor fuel p p1 q x xs hd h3 h5, ?_⟩
      rw [h6]
      cases x <;> simp [pushNode, List.filter_cons]

theorem handle_injective (a : Nat) :
    ∀ s ∈ seededNames, ∀ t ∈ seededNames,
      handle a s ≠ none ∧ (handle a s = handle a t → s = t) := by
  intro s hs t ht
  simp only [seededNames, List.mem_cons, List.mem_singleton, List.not_mem_nil, or_false] at hs ht
  rcases hs with rfl | rfl | rfl | rfl | rfl | rfl <;>
    rcases ht with rfl | rfl | rfl | rfl | rfl | rfl <;>
    simp [handle, seededTypes, List.lookup]

theorem handle_ne_none_iff (a : Nat) (name : String) :
    handle a name ≠ none ↔ name ∈ seededNames := by
  constructor
  · intro h
    by_contra hn
    apply h
    simp only [seededNames, List.mem_cons, List.mem_singleton, List.not_mem_nil, or_false,
      not_or] at hn
    obtain ⟨h1, h2, h3, h4, h5, h6⟩ := hn
    simp [handle, seededTypes, List.lookup, beq_false_of_ne, h1, h2, h3, h4, h5, h6]
  · intro h
    exact (handle_injective a name h name h).1

/-! ## The order of the errors of `typeCheck` -/

/-- The loop of `typeCheck` stops at the lowest index at which the two chains
differ, if the counter can reach it: with a `TypeMismatch` that names the
expected and the actual type if both are there, and in a null dereference if
one of the two pointers is null. -/
theorem typeCheckLoop_mismatch (sig call : List (Option TypePtr)) (n : Nat) :
    ∀ (fresh i0 i : Nat) (e a : Option TypePtr), i0 + fresh = 2 ^ 32 → i0 ≤ i → i < n →
      i < 2 ^ 32 →
      (∀ j, i0 ≤ j → j < i → ∃ t, sig[j]? = some t ∧ call[j]? = some t) →
      sig[i]? = some e → call[i]? = some a → a ≠ e →
      typeCheckLoop sig call n i0 fresh =
        match e, a with
        | some e, some a => .error (.TypeMismatch e a)
        | _, _ => .error .NullPointer := by
  intro fresh
  induction fresh with
  | zero =>
    intro i0 i e a h0 h1 _ h2
    omega
  | succ k ih =>
    intro i0 i e a h0 h1 hn h2 hagree hs hc hne
    rw [typeCheckLoop]
    have hin : i0 < n := by omega
    rw [if_pos hin]
    rcases Nat.eq_or_lt_of_le h1 with h3 | h3
    · subst h3
      simp only [hs, hc, ne_eq, hne, not_false_eq_true, ↓reduceIte]
    · obtain ⟨t, ht1, ht2⟩ := hagree i0 (Nat.le_refl _) h3
      simp only [ht1, ht2, ne_eq, not_true_eq_false, ↓reduceIte]
      have hmod : (i0 + 1) % 2 ^ 32 = i0 + 1 := Nat.mod_eq_of_lt (by omega)
      rw [hmod]
      exact ih (i0 + 1) i e a (by omega) (by omega) hn h2
        (fun j hj1 hj2 => hagree j (by omega) hj2) hs hc hne

/-- The order in which `typeCheck` rejects a call with an identifier callee:
no registered chain, then the argument count, then the lowest argument
position whose type differs, if it is below `2 ^ 32`; with `2 ^ 32` arguments
or more that agree at every position below `2 ^ 32` the loop never ends. -/
theorem typeCheck_error_order (m_typeInfo : List (String × TypeChain)) (id : IDNode)
    (arguments : List AST) (callTypes : TypeChain) :
    (m_typeInfo.lookup id.name = none →
      typeCheck m_typeInfo (.ID id) arguments callTypes
        = .error (.MissingTypeInformation id.name)) ∧
    (∀ sig, m_typeInfo.lookup id.name = some sig →
      arguments.length ≠ (sig.types.length + 2 ^ 64 - 1) % 2 ^ 64 →
      typeCheck m_typeInfo (.ID id) arguments callTypes = .error .ArityMismatch) ∧
    (∀ sig i e a, m_typeInfo.lookup id.name = some sig →
      arguments.length = (sig.types.length + 2 ^ 64 - 1) % 2 ^ 64 → i < arguments.length →
      i < 2 ^ 32 →
      (∀ j, j < i → ∃ t, sig.types[j]? = some t ∧ callTypes.types[j]? = some t) →
      sig.types[i]? = some e → callTypes.types[i]? = some a → a ≠ e →
      typeCheck m_typeInfo (.ID id) arguments callTypes =
        match e, a with
        | some e, some a => .error (.TypeMismatch e a)
        | _, _ => .error .NullPointer) ∧
    (∀ sig, m_typeInfo.lookup id.name = some sig →
      arguments.length = (sig.types.length + 2 ^ 64 - 1) % 2 ^ 64 →
      2 ^ 32 ≤ arguments.length →
      (∀ j, j < 2 ^ 32 → ∃ t, sig.types[j]? = some t ∧ callTypes.types[j]? = some t) →
      typeCheck m_typeInfo (.ID id) arguments callTypes = .error .CounterWrapped) := by
  refine ⟨?_, ?_, ?_, ?_⟩
  · intro h
    unfold typeCheck
    simp only [h]
  · intro sig h hlen
    unfold typeCheck
    simp only [h, ne_eq, hlen, not_false_eq_true, ↓reduceIte]
  · intro sig i e a h hlen hi hi2 hagree hs hc hne
    unfold typeCheck
    simp only [h, ne_eq, hlen, not_true_eq_false, ↓reduceIte]
    exact typeCheckLoop_mismatch sig.types callTypes.types _ _ 0 i e a (Nat.zero_add _)
      (Nat.zero_le _) (by omega) hi2 (fun j _ hj => hagree j hj) hs hc hne
  · intro sig h hlen hbig hagree
    unfold typeCheck
    simp only [h, ne_eq, hlen, not_true_eq_false, ↓reduceIte]
    exact typeCheckLoop_wraps sig.types callTypes.types _ (by omega) _ 0 (Nat.zero_add _)
      (fun j _ hj => hagree j hj)

/-! ## The arguments of a function declaration -/

theorem argumentName_prefix {p q : Parser} {arg : AST} {name : String}
    (hpre : p.heap <+: q.heap) (h : argumentName p arg = .ok name) :
    argumentName q arg = .ok name := by
  obtain ⟨more, hmore⟩ := hpre
  unfold argumentName at h ⊢
  split at h
  · exact h
  · rename_i ref
    split at h
    · rename_i a ha
      have hlt : ref < p.heap.length := by
        by_contra hc
        rw [List.getElem?_eq_none (by omega)] at ha
        cases ha
      simp only [← hmore, List.getElem?_append_left hlt, ha]
      exact h
    · simp at h
  · simp at h

/-- What the loop over the arguments of a function head does when it
succeeds: argument `k` of the head becomes a new `FunctionArgument` object
whose index is the value `(i + k) % 2 ^ 32` of the 32-bit counter and whose
type is the one at that position of the signature, which exists; the objects
are appended to the heap in order and `fn->arguments` gets pointers to
them. -/
theorem declareArguments_spec (sig : TypeChain) (args : List AST) :
    ∀ (i : Nat) (acc fnArgs : List Nat) (p q : Parser), i < 2 ^ 32 →
      declareArguments sig args i acc p = .ok (fnArgs, q) →
        fnArgs = acc ++ List.range' p.heap.length args.length ∧
        p.heap <+: q.heap ∧ q.heap.length = p.heap.length + args.length ∧
        ∀ k, k < args.length → ∃ name ty arg, args[k]? = some arg ∧
          argumentName q arg = .ok name ∧ sig.types[(i + k) % 2 ^ 32]? = some ty ∧
          q.heap[p.heap.length + k]? = some ⟨name, (i + k) % 2 ^ 32, ty, false⟩ := by
  induction args with
  | nil =>
    intro i acc fnArgs p q _ h
    simp only [declareArguments, Except.ok.injEq, Prod.mk.injEq] at h
    obtain ⟨rfl, rfl⟩ := h
    simp
  | cons arg rest ih =>
    intro i acc fnArgs p q hi h
    rw [declareArguments] at h
    split at h
    · simp at h
    · rename_i name hname
      split at h
      · simp at h
      · rename_i ty hty
        obtain ⟨h1, hpre, h2, h4⟩ := ih _ _ _ _ _ (Nat.mod_lt _ (by decide)) h
        simp only [Parser.scopeSet, List.length_append, List.length_singleton] at h1 hpre h2 h4
        have hpq : p.heap <+: q.heap := (List.prefix_append _ _).trans hpre
        refine ⟨?_, hpq, ?_, ?_⟩
        · rw [h1, List.append_assoc]
          simp [List.range'_succ]
        · rw [h2]
          simp only [List.length_cons]
          omega
        · intro k hk
          cases k with
          | zero =>
            have hi0 : (i + 0) % 2 ^ 32 = i := by
              rw [Nat.add_zero, Nat.mod_eq_of_lt hi]
            rw [hi0]
            refine ⟨name, ty, arg, by simp, argumentName_prefix hpq hname, hty, ?_⟩
            obtain ⟨more, hmore⟩ := hpre
            rw [← hmore, List.append_assoc, Nat.add_zero,
              List.getElem?_append_right (Nat.le_refl _)]
            simp
          | succ k =>
            obtain ⟨name2, ty2, arg2, g1, g2, g3, g4⟩ := h4 k (by simpa using hk)
            have hmod : ((i + 1) % 2 ^ 32 + k) % 2 ^ 32 = (i + (k + 1)) % 2 ^ 32 := by
              rw [Nat.mod_add_mod]
              congr 1
              omega
            rw [hmod] at g3 g4
            refine ⟨name2, ty2, arg2, by simpa using g1, g2, g3, ?_⟩
            rw [show p.heap.length + (k + 1) = p.heap.length + 1 + k by omega]
            exact g4

/-! ## A definition whose name has a registered chain -/

/-- The function `parseFunction` after its own check has found a chain. -/
theorem parseFunctionBody_registered (g : Grammar) (name : IDNode) (arguments : List AST)
    (p : Parser) (typeInfo : TypeChain) (hl : p.m_typeInfo.lookup name.name = some typeInfo) :
    parseFunctionBody g (.ID name) arguments p =
      match declareArguments typeInfo arguments 0 [] (p.enterFunction name.name) with
      | .error e => .error e
      | .ok (fnArgs, p) =>
        match p.ensure .L_BRACE with
        | .error e => .error e
        | .ok p =>
          match g.parseBlockLoop .R_BRACE [] p with
          | .error e => .error e
          | .ok (body, p) =>
            match p.tokenOf .R_BRACE with
            | .error e => .error e
            | .ok (rbrace, p) =>
              match p.scopeRestore with
              | .error e => .error e
              | .ok p =>
                .ok (.Function name fnArgs body ⟨name.loc.start, rbrace.loc.stop⟩ typeInfo, p) := by
  unfold parseFunctionBody
  simp only [hl]
  rfl

/-- With a chain registered for its name, `parseFunction` fails with
`MissingTypeInformation` exactly when the statements of its body do. -/
theorem parseFunctionBody_missing (g : Grammar) (name : IDNode) (arguments : List AST)
    (p : Parser) (typeInfo : TypeChain) (n : String)
    (hl : p.m_typeInfo.lookup name.name = some typeInfo) :
    parseFunctionBody g (.ID name) arguments p = .error (.MissingTypeInformation n) ↔
      ∃ fnArgs p1 p2,
        declareArguments typeInfo arguments 0 [] (p.enterFunction name.name) = .ok (fnArgs, p1) ∧
        p1.ensure .L_BRACE = .ok p2 ∧
        g.parseBlockLoop .R_BRACE [] p2 = .error (.MissingTypeInformation n) := by
  rw [parseFunctionBody_registered g name arguments p typeInfo hl]
  cases h1 : declareArguments typeInfo arguments 0 [] (p.enterFunction name.name) with
  | error e =>
    constructor
    · intro h
      simp only [Except.error.injEq] at h
      exact absurd h (declareArguments_error h1 n)
    · rintro ⟨_, _, _, h, _⟩
      cases h
  | ok r1 =>
    obtain ⟨fnArgs, p1⟩ := r1
    simp only
    cases h2 : p1.ensure .L_BRACE with
    | error e =>
      constructor
      · intro h
        simp only [Except.error.injEq] at h
        exact absurd h (ensure_error h2 n)
      · rintro ⟨_, _, _, h, h3, _⟩
        cases h
        rw [h2] at h3
        cases h3
    | ok p2 =>
      simp only
      cases h3 : g.parseBlockLoop .R_BRACE [] p2 with
      | error e =>
        constructor
        · intro h
          simp only [Except.error.injEq] at h
          exact ⟨fnArgs, p1, p2, rfl, h2, by rw [h3, h]⟩
        · rintro ⟨_, _, _, h, h4, h5⟩
          cases h
          rw [h2] at h4
          cases h4
          rw [h3] at h5
          simp only [Except.error.injEq] at h5
          show Except.error e = _
          rw [h5]
      | ok r3 =>
        obtain ⟨body, p3⟩ := r3
        simp only
        constructor
        · intro h
          cases h4 : p3.tokenOf .R_BRACE with
          | error e =>
            rw [h4] at h
            simp only [Except.error.injEq] at h
            exact absurd h (tokenOf_error h4 n)
          | ok r4 =>
            obtain ⟨rbrace, p4⟩ := r4
            rw [h4] at h
            simp only at h
            cases h5 : p4.scopeRestore with
            | error e =>
              rw [h5] at h
              simp only [Except.error.injEq] at h
              exact absurd h (scopeRestore_error h5 n)
            | ok p5 =>
              rw [h5] at h
              simp at h
        · rintro ⟨_, _, _, h, h4, h5⟩
          cases h
          rw [h2] at h4
          cases h4
          rw [h3] at h5
          cases h5

/-! ## The capture algorithm -/

/-- Marking the owner of a name: the nearest scope that binds the name gets
`isRequired`, every other scope of the chain is left as it is. -/
theorem markRequired_owner (name : String) : ∀ (l : List Scope) (k : Nat) (owner : Scope),
    Owns l name k owner →
    (markRequired name l)[k]? = some { owner with isRequired := true } ∧
      ∀ j, j ≠ k → (markRequired name l)[j]? = l[j]? := by
  intro l
  induction l with
  | nil =>
    intro k owner h
    simp [Owns] at h
  | cons s rest ih =>
    intro k owner ⟨h1, h2, h3⟩
    cases k with
    | zero =>
      simp only [List.getElem?_cons_zero, Option.some.injEq] at h1
      subst h1
      simp only [markRequired, h2, ↓reduceIte, List.getElem?_cons_zero, true_and]
      intro j hj
      cases j with
      | zero => exact absurd rfl hj
      | succ j => simp
    | succ k =>
      have hs : s.table.lookup name = none := h3 0 s (Nat.succ_pos k) (by simp)
      simp only [List.getElem?_cons_succ] at h1
      have hrest : Owns rest name k owner :=
        ⟨h1, h2, fun j t hj ht => h3 (j + 1) t (Nat.succ_lt_succ hj) (by simpa using ht)⟩
      obtain ⟨ih1, ih2⟩ := ih k owner hrest
      simp only [markRequired, hs, Option.isSome_none, Bool.false_eq_true, ↓reduceIte,
        List.getElem?_cons_succ]
      refine ⟨ih1, ?_⟩
      intro j hj
      cases j with
      | zero => simp
      | succ j =>
        simp only [List.getElem?_cons_succ]
        exact ih2 j (fun hc => hj (by rw [hc]))

/-- Interning does not change what the scope chain binds. -/
theorem intern_scopeGet {p q : Parser} {text s : String} {uid : Nat}
    (h : p.intern text = .ok (s, uid, q)) (name : String) (r : Bool) :
    q.scopeGet name r = p.scopeGet name r ∧ q.isInCurrentScope name = p.isInCurrentScope name ∧
      q.m_scope = p.m_scope ∧ q.parents = p.parents ∧ q.heap = p.heap := by
  have hf : q.m_scope = p.m_scope ∧ q.parents = p.parents ∧ q.heap = p.heap := by
    unfold Parser.intern at h
    simp only at h
    split at h
    · split at h
      · simp only [Except.ok.injEq, Prod.mk.injEq] at h
        obtain ⟨_, _, rfl⟩ := h
        exact ⟨rfl, rfl, rfl⟩
      · simp at h
    · split at h
      · simp only [Except.ok.injEq, Prod.mk.injEq] at h
        obtain ⟨_, _, rfl⟩ := h
        exact ⟨rfl, rfl, rfl⟩
      · simp at h
  refine ⟨?_, ?_, hf⟩
  · unfold Parser.scopeGet
    rw [hf.1, hf.2.1]
  · unfold Parser.isInCurrentScope
    rw [hf.1]

/-- What the three assignments of a capture do to the heap and to the current
scope when the name is not bound in the current scope. -/
theorem capture_local (p : Parser) (ref : Nat) (name : String)
    (hcur : p.isInCurrentScope name = false) :
    (p.capture ref name).heap = p.heap.modify (fun a => { a with isCaptured := true }) ref ∧
      (p.capture ref name).m_scope = { p.m_scope with capturesScope := true } := by
  have hl : (p.m_scope.table.lookup name).isSome = false := hcur
  unfold Parser.capture Parser.requireScopeFor Parser.setCaptured
  simp only [hl, Bool.false_eq_true, ↓reduceIte]
  exact ⟨trivial, trivial⟩

/-- What the three assignments of a capture do to the enclosing scopes when
the name is not bound in the current scope: the owner is marked and no other
scope changes. -/
theorem capture_chain (p : Parser) (ref : Nat) (name : String) (k : Nat) (owner : Scope)
    (hcur : p.isInCurrentScope name = false) (hown : Owns p.parents name k owner) :
    (p.capture ref name).parents[k]? = some { owner with isRequired := true } ∧
      ∀ j, j ≠ k → (p.capture ref name).parents[j]? = p.parents[j]? := by
  have hl : (p.m_scope.table.lookup name).isSome = false := hcur
  obtain ⟨h1, h2⟩ := markRequired_owner name p.parents k owner hown
  unfold Parser.capture Parser.requireScopeFor Parser.setCaptured
  simp only [hl, Bool.false_eq_true, ↓reduceIte]
  exact ⟨h1, h2⟩

/-- The outcome of the capture algorithm of `resolveID` for a name that is
not an argument of the current scope. -/
theorem resolveID_capture {id : Token} {p q : Parser} {ast : AST}
    (h : resolveID id p = .ok (ast, q))
    (hnot : ∀ ref, p.scopeGet id.name false ≠ some (.FunctionArgument ref)) :
    (∀ ref, p.scopeGet id.name true = some (.FunctionArgument ref) →
        p.isInCurrentScope id.name = false →
        q.heap = p.heap.modify (fun a => { a with isCaptured := true }) ref ∧
          q.m_scope = { p.m_scope with capturesScope := true } ∧
          ∀ k owner, Owns p.parents id.name k owner →
            q.parents[k]? = some { owner with isRequired := true } ∧
              ∀ j, j ≠ k → q.parents[j]? = p.parents[j]?) ∧
      ((¬ ∃ ref, p.scopeGet id.name true = some (.FunctionArgument ref) ∧
          p.isInCurrentScope id.name = false) →
        q.heap = p.heap ∧ q.m_scope = p.m_scope ∧ q.parents = p.parents) := by
  rcases resolveID_ok h with ⟨ref, href, _, _⟩ | ⟨_, s, uid, p2, h2, _, hq⟩
  · exact absurd href (hnot ref)
  · obtain ⟨hg, hc, hs, hpar, hheap⟩ := intern_scopeGet h2 id.name true
    rcases hq with ⟨ref, href, hin, rfl⟩ | ⟨hall, rfl⟩
    · rw [hg] at href
      rw [hc] at hin
      constructor
      · intro ref2 href2 _
        rw [href] at href2
        simp only [Option.some.injEq, Binding.FunctionArgument.injEq] at href2
        subst href2
        have hin2 : p2.isInCurrentScope id.name = false := by rw [hc]; exact hin
        obtain ⟨c1, c2⟩ := capture_local p2 ref id.name hin2
        refine ⟨by rw [c1, hheap], by rw [c2, hs], ?_⟩
        intro k owner hown
        have hown2 : Owns p2.parents id.name k owner := by rw [hpar]; exact hown
        obtain ⟨c3, c4⟩ := capture_chain p2 ref id.name k owner hin2 hown2
        refine ⟨c3, ?_⟩
        intro j hj
        rw [c4 j hj, hpar]
      · intro hno
        exact absurd ⟨ref, href, hin⟩ hno
    · constructor
      · intro ref href hin
        rw [← hg] at href
        rw [← hc] at hin
        have := hall ref href
        rw [hin] at this
        cases this
      · intro _
        exact ⟨hheap, hs, hpar⟩

/-! ## Interning as a function on tables -/

theorem foldl_internText (texts : List String) : ∀ table : List String,
    texts.foldl internText table = table ++ (firstSeen texts).filter (fun t => t ∉ table) := by
  induction texts with
  | nil => intro table; simp [firstSeen]
  | cons text rest ih =>
    intro table
    rw [List.foldl_cons, ih, firstSeen, List.filter_cons]
    by_cases hm : text ∈ table
    · simp only [internText, hm, ↓reduceIte, not_true_eq_false, decide_False,
        Bool.false_eq_true, List.filter_filter, List.append_cancel_left_eq]
      apply List.filter_congr
      intro t _
      by_cases ht : t ∈ table
      · simp [ht]
      · have hne : t ≠ text := fun h => ht (h ▸ hm)
        simp [ht, hne]
    · simp only [internText, hm, ↓reduceIte, not_false_eq_true, decide_True,
        List.filter_filter, List.append_assoc, List.singleton_append,
        List.append_cancel_left_eq, List.cons.injEq, true_and]
      apply List.filter_congr
      intro t _
      by_cases ht : t ∈ table
      · simp [ht]
      · by_cases hne : t = text
        · simp [hne]
        · simp [ht, hne]

theorem foldl_internText_nil (texts : List String) :
    texts.foldl internText [] = firstSeen texts := by
  rw [foldl_internText]
  simp

/-- Interning a text when the counter equals the length of the table, with
the new table given by `internText`. -/
theorem intern_internText (p : Parser) (text : String) (h : p.str_uid = p.strings.length) :
    ∃ q, p.intern text = .ok (text, (internText p.strings text).indexOf text, q) ∧
      q.strings = internText p.strings text ∧ q.str_uid = q.strings.length ∧
      q.tokens = p.tokens ∧ q.m_types = p.m_types ∧ q.m_scope = p.m_scope ∧
      q.parents = p.parents ∧ q.m_typeInfo = p.m_typeInfo ∧ q.heap = p.heap ∧
      q.nextAddr = p.nextAddr := by
  rw [intern_spec p text h]
  by_cases hm : text ∈ p.strings
  · simp only [hm, ↓reduceIte, internText]
    exact ⟨p, rfl, rfl, h, rfl, rfl, rfl, rfl, rfl, rfl, rfl⟩
  · simp only [hm, ↓reduceIte, internText]
    refine ⟨{ p with str_uid := p.str_uid + 1, strings := p.strings ++ [text] }, ?_, rfl,
      by simp [h], rfl, rfl, rfl, rfl, rfl, rfl, rfl⟩
    rw [List.indexOf_eq_length.2 hm, List.indexOf_append_of_not_mem hm]
    simp

/-! ## Literal factors -/

/-- If `resolveID` yields an `ID` node, the node carries the text of the
token and the text was interned. -/
theorem resolveID_identifier {t : Token} {p q : Parser} {id : IDNode}
    (h : resolveID t p = .ok (.ID id, q)) (hstr : p.str_uid = p.strings.length) :
    id.name = t.name ∧ q.tokens = p.tokens ∧ q.strings = internText p.strings t.name ∧
      q.str_uid = q.strings.length := by
  obtain ⟨q1, i1, i2, i3, i4, _⟩ := intern_internText p t.name hstr
  rcases resolveID_ok h with ⟨_, _, hc, _⟩ | ⟨_, s, uid, p2, h2, hast, hq⟩
  · cases hc
  · rw [i1] at h2
    simp only [Except.ok.injEq, Prod.mk.injEq] at h2
    obtain ⟨rfl, rfl, rfl⟩ := h2
    simp only [AST.ID.injEq] at hast
    subst hast
    refine ⟨rfl, ?_⟩
    rcases hq with ⟨ref, _, _, rfl⟩ | ⟨_, rfl⟩
    · obtain ⟨c1, _, _, _, c5, _⟩ := capture_frame q1 ref t.name
      refine ⟨c1.trans i4, ?_, ?_⟩
      · rw [capture_strings, i2]
      · rw [c5, capture_strings, i3]
    · exact ⟨i4, i2, i3⟩

/-- If `parseID` on an identifier that no postfix follows yields an `ID`
node, the node carries the text of the token and the text was interned. -/
theorem parseID_identifier {g : Grammar} (hg : g.IsLevel) {p q : Parser} {id : IDNode}
    {t : Token} {rest : List Token} (h : g.parseID p = .ok (some (.ID id), q))
    (htok : p.tokens = t :: rest) (h1 : (rest.headD Token.eof).type ≠ .TYPE)
    (h2 : (rest.headD Token.eof).type ≠ .L_PAREN) (h3 : (rest.headD Token.eof).type ≠ .L_BRACE)
    (hstr : p.str_uid = p.strings.length) :
    id.name = t.name ∧ q.tokens = rest ∧ q.strings = internText p.strings t.name ∧
      q.str_uid = q.strings.length := by
  rcases hg.cases with rfl | ⟨g1, hg1, rfl⟩
  · simp [Grammar.bottom] at h
  have h4 : parseIDBody g1 p = .ok (some (.ID id), q) := h
  obtain ⟨id0, p1, h5, h6⟩ := parseIDBody_ok h4
  obtain ⟨_, rfl, rfl⟩ := tokenOf_ok h5
  rw [token_of_tokens htok] at h6
  have hp1 : p.advance.tokens = rest := advance_tokens htok
  rcases h6 with ⟨_, ast, h7, hx⟩ | ⟨_, ast, p2, y, p3, h7, h8, h9⟩
  · simp only [Option.some.injEq] at hx
    subst hx
    rcases hg1.cases with rfl | ⟨g2, _, rfl⟩
    · simp [Grammar.bottom] at h7
    · have h10 : parseIfBody g2 p.advance = .ok (.ID id, q) := h7
      obtain ⟨_, _, _, _, _, _, _, _, _, _, h11⟩ := parseIfBody_ok h10
      rcases h11 with ⟨_, _, _, _, _, _, hc⟩ | ⟨_, _, hc⟩ <;> cases hc
  · have hp2 : p2.tokens = rest := (resolveID_tokens h7).trans hp1
    have ht2 : p2.token = rest.headD Token.eof := by simp [Parser.token, hp2]
    rcases hg1.cases with rfl | ⟨g2, _, rfl⟩
    · simp [Grammar.bottom] at h8
    have h10 : parseIDLoopBody g2 ast p2 = .ok (y, p3) := h8
    rcases parseIDLoopBody_ok h10 with ⟨hc, _⟩ | ⟨hc, _⟩ | ⟨hc, _⟩ | ⟨_, _, _, rfl, rfl⟩
    · rw [ht2] at hc
      exact absurd hc h1
    · rw [ht2] at hc
      exact absurd hc h2
    · rw [ht2] at hc
      exact absurd hc h3
    · rcases h9 with ⟨hc, _, _⟩ | ⟨node, hy, hcf⟩
      · cases hc
      · simp only [Option.some.injEq] at hy
        subst hy
        obtain ⟨hx, rfl, _⟩ := checkFinal_ok hcf
        simp only [Option.some.injEq] at hx
        subst hx
        obtain ⟨r1, r2, r3, r4⟩ := resolveID_identifier h7 hstr
        exact ⟨r1, r2.trans hp1, r3, r4⟩


/-! ## Scope entry and exit are balanced -/

theorem Scope.Raised.unchanged (s : Scope) : Scope.Raised s s := ⟨rfl, id, id⟩

theorem raised_same (l : List Scope) : List.Forall₂ Scope.Raised l l := by
  induction l with
  | nil => exact .nil
  | cons s rest ih => exact .cons (.unchanged s) ih

theorem raised_then {l1 l2 : List Scope} (h12 : List.Forall₂ Scope.Raised l1 l2) :
    ∀ {l3 : List Scope}, List.Forall₂ Scope.Raised l2 l3 → List.Forall₂ Scope.Raised l1 l3 := by
  induction h12 with
  | nil => intro l3 h; cases h; exact .nil
  | cons hab _ ih =>
    intro l3 h
    cases h with
    | cons hbc hrest =>
      exact .cons ⟨hbc.1.trans hab.1, fun h => hbc.2.1 (hab.2.1 h), fun h => hbc.2.2 (hab.2.2 h)⟩
        (ih hrest)

theorem scopeTables_raised {l1 l2 : List Scope} (h : List.Forall₂ Scope.Raised l1 l2) :
    scopeTables l2 = scopeTables l1 := by
  induction h with
  | nil => rfl
  | cons hab _ ih =>
    simp only [scopeTables, List.map_cons, List.cons.injEq]
    exact ⟨hab.1, ih⟩

theorem SameScope.same (p : Parser) : SameScope p p :=
  ⟨raised_same _, ⟨[], rfl, fun _ h => absurd h (List.not_mem_nil _)⟩, id, id⟩

theorem SameScope.andThen {p q r : Parser} (h1 : SameScope p q) (h2 : SameScope q r) :
    SameScope p r := by
  obtain ⟨a1, ⟨m1, a2, a3⟩, a4, a5⟩ := h1
  obtain ⟨b1, ⟨m2, b2, b3⟩, b4, b5⟩ := h2
  refine ⟨raised_then a1 b1, ⟨m2 ++ m1, by rw [b2, a2, List.append_assoc], ?_⟩,
    fun h => b4 (a4 h), fun h => b5 (a5 h)⟩
  intro b hb
  rcases List.mem_append.1 hb with h | h
  · exact b3 b h
  · exact a3 b h

theorem SameScope.ofEq {p q : Parser} (h1 : q.m_scope = p.m_scope)
    (h2 : q.parents = p.parents) : SameScope p q := by
  refine ⟨by rw [h2]; exact raised_same _,
    ⟨[], by rw [h1]; rfl, fun _ h => absurd h (List.not_mem_nil _)⟩, ?_, ?_⟩
  · rw [h1]; exact id
  · rw [h1]; exact id

theorem sameScope_ensure {p q : Parser} {type : TokenType} (h : p.ensure type = .ok q) :
    SameScope p q := by
  rw [(ensure_ok h).2]
  exact .ofEq rfl rfl

theorem sameScope_tokenOf {p q : Parser} {type : TokenType} {tok : Token}
    (h : p.tokenOf type = .ok (tok, q)) : SameScope p q := by
  rw [(tokenOf_ok h).2.2]
  exact .ofEq rfl rfl

theorem sameScope_skip {p q : Parser} {type : TokenType} {b : Bool}
    (h : p.skip type = (b, q)) : SameScope p q := by
  unfold Parser.skip at h
  split at h
  · simp only [Prod.mk.injEq] at h
    rw [← h.2]
    exact .ofEq rfl rfl
  · simp only [Prod.mk.injEq] at h
    rw [← h.2]
    exact .same _

theorem sameScope_intern {p q : Parser} {text s : String} {uid : Nat}
    (h : p.intern text = .ok (s, uid, q)) : SameScope p q := by
  obtain ⟨_, _, h1, h2, _⟩ := intern_scopeGet h "" false
  exact .ofEq h1 h2

theorem sameScope_parseNumber {p q : Parser} {ast : AST}
    (h : parseNumber p = .ok (ast, q)) : SameScope p q := by
  unfold parseNumber at h
  split at h
  · simp at h
  · rename_i number p1 h1
    simp only [Except.ok.injEq, Prod.mk.injEq] at h
    rw [← h.2]
    exact sameScope_tokenOf h1

theorem sameScope_parseString {p q : Parser} {ast : AST}
    (h : parseString p = .ok (ast, q)) : SameScope p q := by
  unfold parseString at h
  split at h
  · simp at h
  · rename_i string p1 h1
    split at h
    · simp at h
    · rename_i s uid p2 h2
      simp only [Except.ok.injEq, Prod.mk.injEq] at h
      rw [← h.2]
      exact (sameScope_tokenOf h1).andThen (sameScope_intern h2)

theorem markRequired_raised (name : String) (l : List Scope) :
    List.Forall₂ Scope.Raised l (markRequired name l) := by
  induction l with
  | nil => exact .nil
  | cons s rest ih =>
    unfold markRequired
    split
    · exact .cons ⟨rfl, fun _ => rfl, id⟩ (raised_same _)
    · exact .cons (.unchanged s) ih

theorem sameScope_capture (p : Parser) (ref : Nat) (name : String) :
    SameScope p (p.capture ref name) := by
  unfold Parser.capture Parser.requireScopeFor Parser.setCaptured
  simp only
  split
  · exact ⟨raised_same _, ⟨[], rfl, fun _ h => absurd h (List.not_mem_nil _)⟩,
      fun _ => rfl, fun _ => rfl⟩
  · exact ⟨markRequired_raised name p.parents,
      ⟨[], rfl, fun _ h => absurd h (List.not_mem_nil _)⟩, id, fun _ => rfl⟩

theorem sameScope_resolveID {id : Token} {p q : Parser} {ast : AST}
    (h : resolveID id p = .ok (ast, q)) : SameScope p q := by
  rcases resolveID_ok h with ⟨_, _, _, rfl⟩ | ⟨_, s, uid, p2, h2, _, h3⟩
  · exact .same _
  · rcases h3 with ⟨ref, _, _, rfl⟩ | ⟨_, rfl⟩
    · exact (sameScope_intern h2).andThen (sameScope_capture p2 ref id.name)
    · exact sameScope_intern h2

/-- The loop over the arguments of a function head binds names in the current
scope only. -/
theorem declareArguments_parents {sig : TypeChain} {args : List AST} {i : Nat}
    {acc fnArgs : List Nat} {p q : Parser}
    (h : declareArguments sig args i acc p = .ok (fnArgs, q)) : q.parents = p.parents := by
  induction args generalizing i acc p with
  | nil =>
    simp only [declareArguments, Except.ok.injEq, Prod.mk.injEq] at h
    rw [← h.2]
  | cons arg rest ih =>
    rw [declareArguments] at h
    split at h
    · simp at h
    · split at h
      · simp at h
      · simp only at h
        have := ih h
        rw [this]
        rfl

theorem balanced_bottom : Grammar.bottom.Balanced := by
  constructor <;> intros <;> simp_all [Grammar.bottom]

/-- A successful `parseFunction` binds the function name in the scope it
started in, marks that scope as required and changes no other binding of that
scope or of the enclosing scopes: the child scope with the arguments is left
again. -/
theorem parseFunctionBody_scope {g : Grammar} (hg : g.Balanced) {callee : AST}
    {arguments : List AST} {p q : Parser} {ast : AST}
    (h : parseFunctionBody g callee arguments p = .ok (ast, q)) :
    ∃ name, callee = .ID name ∧
      q.m_scope.table = (name.name, Binding.Function) :: p.m_scope.table ∧
      List.Forall₂ Scope.Raised p.parents q.parents ∧ q.m_scope.isRequired = true ∧
      (p.m_scope.capturesScope = true → q.m_scope.capturesScope = true) := by
  obtain ⟨name, typeInfo, fnArgs, p1, p2, body, p3, rbrace, p4, hc, _, h1, h2, h3, h4, h5, _⟩ :=
    parseFunctionBody_ok h
  have e1 : p1.parents = (p.enterFunction name.name).parents := declareArguments_parents h1
  have r : SameScope p1 p4 :=
    ((sameScope_ensure h2).andThen (hg.parseBlockLoop h3)).andThen (sameScope_tokenOf h4)
  have e4 := r.1
  rw [e1] at e4
  unfold Parser.scopeRestore at h5
  split at h5
  · simp at h5
  · rename_i s rest hs
    simp only [Except.ok.injEq] at h5
    subst h5
    rw [hs] at e4
    have e5 : List.Forall₂ Scope.Raised
        ({ table := (name.name, Binding.Function) :: p.m_scope.table, isRequired := true,
           capturesScope := p.m_scope.capturesScope } :: p.parents) (s :: rest) := e4
    cases e5 with
    | cons hs0 hrest => exact ⟨name, hc, hs0.1, hrest, hs0.2.1 rfl, hs0.2.2⟩

theorem balanced_step {g : Grammar} (hg : g.Balanced) : g.step.Balanced where
  parseBlockLoop := by
    intro delim nodes p b q h
    rcases parseBlockLoopBody_ok h with ⟨_, rfl, _⟩ | ⟨_, x, p1, h1, h2⟩
    · exact .same _
    · exact (hg.parseFactor h1).andThen (hg.parseBlockLoop h2)
  parseFactor := by
    intro p x q h
    rcases parseFactorBody_ok h with ⟨_, ast, h1, _⟩ | ⟨_, h1⟩ | ⟨_, ast, h1, _⟩
    · exact sameScope_parseNumber h1
    · exact hg.parseID h1
    · exact sameScope_parseString h1
  parseBranch := by
    intro p b q h
    rcases parseBranchBody_ok h with ⟨_, p1, p2, h1, h2, h3⟩ | ⟨_, node, h1, _⟩
    · exact ((sameScope_ensure h1).andThen (hg.parseBlockLoop h2)).andThen (sameScope_ensure h3)
    · exact hg.parseFactor h1
  parseIf := by
    intro p ast q h
    obtain ⟨p1, c, p2, p3, ifBody, p4, h1, h2, h3, h4, h5⟩ := parseIfBody_ok h
    have r4 : SameScope p p4 :=
      (((sameScope_ensure h1).andThen (hg.parseFactor h2)).andThen (sameScope_ensure h3)).andThen
        (hg.parseBranch h4)
    rcases h5 with ⟨_, _, p5, elseBody, h6, h7, _⟩ | ⟨_, rfl, _⟩
    · exact (r4.andThen (sameScope_ensure h6)).andThen (hg.parseBranch h7)
    · exact r4
  parseID := by
    intro p x q h
    obtain ⟨id, p1, h1, h2⟩ := parseIDBody_ok h
    rcases h2 with ⟨_, ast, h3, _⟩ | ⟨_, ast, p2, y, p3, h3, h4, h5⟩
    · exact (sameScope_tokenOf h1).andThen (hg.parseIf h3)
    · have r3 : SameScope p p3 :=
        ((sameScope_tokenOf h1).andThen (sameScope_resolveID h3)).andThen (hg.parseIDLoop h4)
      rcases h5 with ⟨_, _, rfl⟩ | ⟨node, _, h6⟩
      · exact r3
      · rw [(checkFinal_ok h6).2.1]
        exact r3
  parseIDLoop := by
    intro ast p x q h
    rcases parseIDLoopBody_ok h with ⟨_, h1, _⟩ | ⟨_, call, p1, h1, h2⟩ |
      ⟨_, callee, arguments, loc, typeInfo, fn, p1, _, h1, h2⟩ | ⟨_, _, _, _, rfl⟩
    · exact hg.parseTypeInfo h1
    · exact (hg.parseCall h1).andThen (hg.parseIDLoop h2)
    · exact (hg.parseFunction h1).andThen (hg.parseIDLoop h2)
    · exact .same _
  parseFunction := by
    intro callee arguments p ast q h
    obtain ⟨name, _, h1, h2, h3, h4⟩ := parseFunctionBody_scope hg h
    refine ⟨h2, ⟨[(name.name, Binding.Function)], h1, ?_⟩, fun _ => h3, h4⟩
    intro b hb
    simp only [List.mem_singleton] at hb
    rw [hb]
  parseCallLoop := by
    intro arguments types p r h
    rcases parseCallLoopBody_ok h with ⟨_, rfl⟩ | ⟨_, argument, p1, p2, h1, h2, h3⟩
    · exact .same _
    · rcases h2 with ⟨_, h2⟩ | ⟨_, rfl⟩
      · exact ((hg.parseFactor h1).andThen (sameScope_ensure h2)).andThen (hg.parseCallLoop h3)
      · exact (hg.parseFactor h1).andThen (hg.parseCallLoop h3)
  parseCall := by
    intro callee p ast q h
    obtain ⟨p1, arguments, types, p2, rparen, h1, h2, h3, _⟩ := parseCallBody_ok h
    have r1 : SameScope p1 { p1 with nextAddr := p1.nextAddr + 1 } := .ofEq rfl rfl
    exact (((sameScope_ensure h1).andThen r1).andThen (hg.parseCallLoop h2)).andThen
      (sameScope_tokenOf h3)
  parseTypeInfo := by
    intro target p q h
    obtain ⟨p1, types, p2, id, h1, h2, _, rfl⟩ := parseTypeInfoBody_ok h
    have r1 : SameScope p1 { p1 with nextAddr := p1.nextAddr + 1 } := .ofEq rfl rfl
    have r2 : SameScope p2
        { p2 with m_typeInfo := (id.name, ⟨p1.nextAddr, types⟩) :: p2.m_typeInfo } :=
      .ofEq rfl rfl
    exact (((sameScope_ensure h1).andThen r1).andThen (hg.parseTypeInfoLoop h2)).andThen r2
  parseTypeInfoLoop := by
    intro types p r h
    obtain ⟨id, p1, type, p2, b, h1, _, h3, h4⟩ := parseTypeInfoLoopBody_ok h
    have r2 : SameScope p p2 := (hg.parseID h1).andThen (sameScope_skip h3)
    rcases h4 with ⟨_, h4⟩ | ⟨_, rfl⟩
    · exact r2.andThen (hg.parseTypeInfoLoop h4)
    · exact r2

/-- Every level of the grammar ends in the scope it started in. -/
theorem grammar_balanced : ∀ fuel, (grammar fuel).Balanced
  | 0 => balanced_step balanced_bottom
  | fuel + 1 => balanced_step (grammar_balanced fuel)

theorem balanced_of_isLevel {g : Grammar} (hg : g.IsLevel) : g.Balanced := by
  rcases hg with rfl | ⟨fuel, rfl⟩
  · exact balanced_bottom
  · exact grammar_balanced fuel

/-- The flags of a block are the flags of the current scope when the block is
closed, and that scope is the one in which the block was opened. -/
theorem parseBlockLoop_flags : ∀ (fuel : Nat) (delim : TokenType) (nodes : List (Option AST))
    (p q : Parser) (b : Block AST), parseBlockLoop fuel delim nodes p = .ok (b, q) →
      b.needsScope = q.m_scope.isRequired ∧ b.capturesScope = q.m_scope.capturesScope := by
  intro fuel
  induction fuel with
  | zero =>
    intro delim nodes p q b h
    have h2 : parseBlockLoopBody Grammar.bottom delim nodes p = .ok (b, q) := h
    rcases parseBlockLoopBody_ok h2 with ⟨_, rfl, rfl⟩ | ⟨_, x, p1, h3, _⟩
    · exact ⟨rfl, rfl⟩
    · simp [Grammar.bottom] at h3
  | succ fuel ih =>
    intro delim nodes p q b h
    have h2 : parseBlockLoopBody (grammar fuel) delim nodes p = .ok (b, q) := h
    rcases parseBlockLoopBody_ok h2 with ⟨_, rfl, rfl⟩ | ⟨_, x, p1, _, h4⟩
    · exact ⟨rfl, rfl⟩
    · exact ih _ _ _ _ _ h4

/-- A block that is parsed in a scope that captures has `capturesScope`, and
one parsed in a required scope has `needsScope`. -/
theorem parseBlockLoop_raised {fuel : Nat} {delim : TokenType} {nodes : List (Option AST)}
    {p q : Parser} {b : Block AST} (h : parseBlockLoop fuel delim nodes p = .ok (b, q)) :
    (p.m_scope.isRequired = true → b.needsScope = true) ∧
      (p.m_scope.capturesScope = true → b.capturesScope = true) := by
  obtain ⟨f1, f2⟩ := parseBlockLoop_flags fuel delim nodes p q b h
  obtain ⟨_, _, s3, s4⟩ := (grammar_balanced fuel).parseBlockLoop h
  exact ⟨fun hr => f1.trans (s3 hr), fun hc => f2.trans (s4 hc)⟩

/-! ## Progress: successful runs consume tokens -/

theorem ok_noFuel {α : Type} (a : α) : (Except.ok a : Except Error α) ≠ .error .OutOfFuel :=
  fun h => nomatch h

theorem noFuel_back {α β : Type} {e : Error}
    (h : (Except.error e : Except Error β) ≠ .error .OutOfFuel) :
    (Except.error e : Except Error α) ≠ .error .OutOfFuel := by
  intro hc
  cases hc
  exact h rfl

theorem below_bottom (g : Grammar) : Grammar.bottom.Below g := by
  constructor <;> intros <;> simp_all [Grammar.bottom]

theorem Grammar.Below.self (g : Grammar) : g.Below g := by
  constructor <;> intros <;> rfl

theorem Grammar.Below.chain {g1 g2 g3 : Grammar} (h12 : g1.Below g2) (h23 : g2.Below g3) :
    g1.Below g3 where
  parseBlockLoop := fun d n p h => by
    have e := h12.parseBlockLoop d n p h
    rw [h23.parseBlockLoop d n p (by rw [e]; exact h), e]
  parseFactor := fun p h => by
    have e := h12.parseFactor p h
    rw [h23.parseFactor p (by rw [e]; exact h), e]
  parseBranch := fun p h => by
    have e := h12.parseBranch p h
    rw [h23.parseBranch p (by rw [e]; exact h), e]
  parseIf := fun p h => by
    have e := h12.parseIf p h
    rw [h23.parseIf p (by rw [e]; exact h), e]
  parseID := fun p h => by
    have e := h12.parseID p h
    rw [h23.parseID p (by rw [e]; exact h), e]
  parseIDLoop := fun a p h => by
    have e := h12.parseIDLoop a p h
    rw [h23.parseIDLoop a p (by rw [e]; exact h), e]
  parseFunction := fun c a p h => by
    have e := h12.parseFunction c a p h
    rw [h23.parseFunction c a p (by rw [e]; exact h), e]
  parseCallLoop := fun a t p h => by
    have e := h12.parseCallLoop a t p h
    rw [h23.parseCallLoop a t p (by rw [e]; exact h), e]
  parseCall := fun c p h => by
    have e := h12.parseCall c p h
    rw [h23.parseCall c p (by rw [e]; exact h), e]
  parseTypeInfo := fun t p h => by
    have e := h12.parseTypeInfo t p h
    rw [h23.parseTypeInfo t p (by rw [e]; exact h), e]
  parseTypeInfoLoop := fun t p h => by
    have e := h12.parseTypeInfoLoop t p h
    rw [h23.parseTypeInfoLoop t p (by rw [e]; exact h), e]

theorem below_step {g g' : Grammar} (hb : g.Below g') : g.step.Below g'.step where
  parseBlockLoop := by
    intro delim nodes p hne
    have hne' : parseBlockLoopBody g delim nodes p ≠ .error .OutOfFuel := hne
    show parseBlockLoopBody g' delim nodes p = parseBlockLoopBody g delim nodes p
    unfold parseBlockLoopBody at hne' ⊢
    split at hne'
    · rename_i hd
      simp only [hd, ↓reduceIte]
    · rename_i hd
      simp only [hd, ↓reduceIte]
      split at hne'
      · rename_i e h1
        simp only [hb.parseFactor p (by rw [h1]; exact noFuel_back hne'), h1]
      · rename_i node p1 h1
        simp only [hb.parseFactor p (by rw [h1]; exact ok_noFuel _), h1]
        exact hb.parseBlockLoop _ _ _ hne'
      · rename_i p1 h1
        simp only [hb.parseFactor p (by rw [h1]; exact ok_noFuel _), h1]
        exact hb.parseBlockLoop _ _ _ hne'
  parseFactor := by
    intro p hne
    have hne' : parseFactorBody g p ≠ .error .OutOfFuel := hne
    show parseFactorBody g' p = parseFactorBody g p
    unfold parseFactorBody at hne' ⊢
    split at hne'
    · rfl
    · exact hb.parseID p hne'
    · rfl
    · rfl
  parseBranch := by
    intro p hne
    have hne' : parseBranchBody g p ≠ .error .OutOfFuel := hne
    show parseBranchBody g' p = parseBranchBody g p
    unfold parseBranchBody at hne' ⊢
    split at hne'
    · rename_i ht
      simp only [ht, ↓reduceIte]
      split at hne'
      · rename_i e h1
        rfl
      · rename_i p1 h1
        split at hne'
        · rename_i e h2
          simp only [hb.parseBlockLoop _ _ p1 (by rw [h2]; exact noFuel_back hne'), h2]
        · rename_i body p2 h2
          simp only [hb.parseBlockLoop _ _ p1 (by rw [h2]; exact ok_noFuel _), h2]
    · rename_i ht
      simp only [ht, ↓reduceIte]
      split at hne'
      · rename_i e h2
        simp only [hb.parseFactor p (by rw [h2]; exact noFuel_back hne'), h2]
      · rename_i node p2 h2
        simp only [hb.parseFactor p (by rw [h2]; exact ok_noFuel _), h2]
  parseIf := by
    intro p hne
    have hne' : parseIfBody g p ≠ .error .OutOfFuel := hne
    show parseIfBody g' p = parseIfBody g p
    unfold parseIfBody at hne' ⊢
    split at hne'
    · rename_i e h1
      rfl
    · rename_i p1 h1
      split at hne'
      · rename_i e h2
        simp only [hb.parseFactor p1 (by rw [h2]; exact noFuel_back hne'), h2]
      · rename_i condition p2 h2
        simp only [hb.parseFactor p1 (by rw [h2]; exact ok_noFuel _), h2]
        split at hne'
        · rename_i e h3
          rfl
        · rename_i p3 h3
          split at hne'
          · rename_i e h4
            simp only [hb.parseBranch p3 (by rw [h4]; exact noFuel_back hne'), h4]
          · rename_i ifBody p4 h4
            simp only [hb.parseBranch p3 (by rw [h4]; exact ok_noFuel _), h4]
            split at hne'
            · rename_i he
              simp only [he, and_self, ↓reduceIte]
              split at hne'
              · rename_i e h5
                rfl
              · rename_i p5 h5
                split at hne'
                · rename_i e h6
                  simp only [hb.parseBranch p5 (by rw [h6]; exact noFuel_back hne'), h6]
                · rename_i elseBody p6 h6
                  simp only [hb.parseBranch p5 (by rw [h6]; exact ok_noFuel _), h6]
            · rename_i he
              simp only [he, ↓reduceIte]
  parseID := by
    intro p hne
    have hne' : parseIDBody g p ≠ .error .OutOfFuel := hne
    show parseIDBody g' p = parseIDBody g p
    unfold parseIDBody at hne' ⊢
    split at hne'
    · rename_i e h1
      rfl
    · rename_i id p1 h1
      split at hne'
      · rename_i hif
        simp only [hif, ↓reduceIte]
        split at hne'
        · rename_i e h2
          simp only [hb.parseIf p1 (by rw [h2]; exact noFuel_back hne'), h2]
        · rename_i ast p2 h2
          simp only [hb.parseIf p1 (by rw [h2]; exact ok_noFuel _), h2]
      · rename_i hif
        simp only [hif, ↓reduceIte]
        split at hne'
        · rename_i e h2
          rfl
        · rename_i ast p2 h2
          split at hne'
          · rename_i e h3
            simp only [hb.parseIDLoop ast p2 (by rw [h3]; exact noFuel_back hne'), h3]
          · rename_i p3 h3
            simp only [hb.parseIDLoop ast p2 (by rw [h3]; exact ok_noFuel _), h3]
          · rename_i node p3 h3
            simp only [hb.parseIDLoop ast p2 (by rw [h3]; exact ok_noFuel _), h3]
  parseIDLoop := by
    intro ast p hne
    have hne' : parseIDLoopBody g ast p ≠ .error .OutOfFuel := hne
    show parseIDLoopBody g' ast p = parseIDLoopBody g ast p
    unfold parseIDLoopBody at hne' ⊢
    split at hne'
    · rename_i ht
      simp only [ht, ↓reduceIte]
      split at hne'
      · rename_i e h1
        simp only [hb.parseTypeInfo ast p (by rw [h1]; exact noFuel_back hne'), h1]
      · rename_i p1 h1
        simp only [hb.parseTypeInfo ast p (by rw [h1]; exact ok_noFuel _), h1]
    · rename_i ht
      simp only [ht, ↓reduceIte]
      split at hne'
      · rename_i hp
        simp only [hp, ↓reduceIte]
        split at hne'
        · rename_i e h1
          simp only [hb.parseCall ast p (by rw [h1]; exact noFuel_back hne'), h1]
        · rename_i call p1 h1
          simp only [hb.parseCall ast p (by rw [h1]; exact ok_noFuel _), h1]
          exact hb.parseIDLoop _ _ hne'
      · rename_i hp
        simp only [hp, ↓reduceIte]
        split at hne'
        · rename_i hbr
          simp only [hbr, ↓reduceIte]
          split at hne'
          · rename_i callee arguments loc typeInfo
            split at hne'
            · rename_i e h1
              simp only [hb.parseFunction callee arguments p
                (by rw [h1]; exact noFuel_back hne'), h1]
            · rename_i fn p1 h1
              simp only [hb.parseFunction callee arguments p (by rw [h1]; exact ok_noFuel _),
                h1]
              exact hb.parseIDLoop _ _ hne'
          · rfl
        · rename_i hbr
          simp only [hbr, ↓reduceIte]
  parseFunction := by
    intro callee arguments p hne
    have hne' : parseFunctionBody g callee arguments p ≠ .error .OutOfFuel := hne
    show parseFunctionBody g' callee arguments p = parseFunctionBody g callee arguments p
    unfold parseFunctionBody at hne' ⊢
    split at hne'
    · rename_i name
      split at hne'
      · rfl
      · rename_i typeInfo hl
        simp only at hne' ⊢
        split at hne'
        · rename_i e h1
          rfl
        · rename_i fnArgs p1 h1
          split at hne'
          · rename_i e h2
            rfl
          · rename_i p2 h2
            split at hne'
            · rename_i e h3
              simp only [hb.parseBlockLoop _ _ p2 (by rw [h3]; exact noFuel_back hne'), h3]
            · rename_i body p3 h3
              simp only [hb.parseBlockLoop _ _ p2 (by rw [h3]; exact ok_noFuel _), h3]
    · rfl
  parseCallLoop := by
    intro arguments types p hne
    have hne' : parseCallLoopBody g arguments types p ≠ .error .OutOfFuel := hne
    show parseCallLoopBody g' arguments types p = parseCallLoopBody g arguments types p
    unfold parseCallLoopBody at hne' ⊢
    split at hne'
    · rename_i ht
      simp only [ht, ↓reduceIte]
    · rename_i ht
      simp only [ht, ↓reduceIte]
      split at hne'
      · rename_i e h1
        simp only [hb.parseFactor p (by rw [h1]; exact noFuel_back hne'), h1]
      · rename_i p1 h1
        simp only [hb.parseFactor p (by rw [h1]; exact ok_noFuel _), h1]
      · rename_i argument p1 h1
        simp only [hb.parseFactor p (by rw [h1]; exact ok_noFuel _), h1]
        simp only at hne'
        split at hne'
        · rename_i hr
          rw [if_pos hr, if_pos hr]
          split at hne'
          · rename_i e h2
            rfl
          · rename_i p2 h2
            exact hb.parseCallLoop _ _ _ hne'
        · rename_i hr
          rw [if_neg hr, if_neg hr]
          exact hb.parseCallLoop _ _ _ hne'
  parseCall := by
    intro callee p hne
    have hne' : parseCallBody g callee p ≠ .error .OutOfFuel := hne
    show parseCallBody g' callee p = parseCallBody g callee p
    unfold parseCallBody at hne' ⊢
    simp only at hne' ⊢
    split at hne'
    · rename_i e h1
      rfl
    · rename_i p1 h1
      split at hne'
      · rename_i e h2
        simp only [hb.parseCallLoop _ _ _ (by rw [h2]; exact noFuel_back hne'), h2]
      · rename_i arguments types p2 h2
        simp only [hb.parseCallLoop _ _ _ (by rw [h2]; exact ok_noFuel _), h2]
  parseTypeInfo := by
    intro target p hne
    have hne' : parseTypeInfoBody g target p ≠ .error .OutOfFuel := hne
    show parseTypeInfoBody g' target p = parseTypeInfoBody g target p
    unfold parseTypeInfoBody at hne' ⊢
    split at hne'
    · rename_i e h1
      rfl
    · rename_i p1 h1
      simp only at hne'
      split at hne'
      · rename_i e h2
        simp only [hb.parseTypeInfoLoop _ _ (by rw [h2]; exact noFuel_back hne'), h2]
      · rename_i types p2 h2
        simp only [hb.parseTypeInfoLoop _ _ (by rw [h2]; exact ok_noFuel _), h2]
  parseTypeInfoLoop := by
    intro types p hne
    have hne' : parseTypeInfoLoopBody g types p ≠ .error .OutOfFuel := hne
    show parseTypeInfoLoopBody g' types p = parseTypeInfoLoopBody g types p
    unfold parseTypeInfoLoopBody at hne' ⊢
    split at hne'
    · rename_i e h1
      simp only [hb.parseID p (by rw [h1]; exact noFuel_back hne'), h1]
    · rename_i node p1 h1
      simp only [hb.parseID p (by rw [h1]; exact ok_noFuel _), h1]
      split at hne'
      · rename_i e h2
        rfl
      · rename_i id h2
        split at hne'
        · rfl
        · rename_i type hl
          simp only at hne'
          split at hne'
          · exact hb.parseTypeInfoLoop _ _ hne'
          · rfl

/-- Each level of the grammar returns what the level below returns, unless
that ran out of fuel. -/
theorem grammar_below_succ : ∀ fuel, (grammar fuel).Below (grammar (fuel + 1))
  | 0 => below_step (below_bottom _)
  | fuel + 1 => below_step (grammar_below_succ fuel)

theorem grammar_below {m n : Nat} (h : m ≤ n) : (grammar m).Below (grammar n) := by
  induction n with
  | zero =>
    have : m = 0 := by omega
    subst this
    exact .self _
  | succ n ih =>
    by_cases hm : m = n + 1
    · subst hm
      exact .self _
    · exact (ih (by omega)).chain (grammar_below_succ n)

/-! ## Termination of `parse` -/

theorem parseFactor_mono {m n : Nat} (h : m ≤ n) {p : Parser} {r : Option AST × Parser}
    (hr : parseFactor m p = .ok r) : parseFactor n p = .ok r := by
  have hm : (grammar m).parseFactor p = .ok r := hr
  have := (grammar_below h).parseFactor p (by rw [hm]; exact ok_noFuel _)
  show (grammar n).parseFactor p = _
  rw [this, hm]

theorem parseBranch_mono {m n : Nat} (h : m ≤ n) {p : Parser} {r : Block AST × Parser}
    (hr : parseBranch m p = .ok r) : parseBranch n p = .ok r := by
  have hm : (grammar m).parseBranch p = .ok r := hr
  have := (grammar_below h).parseBranch p (by rw [hm]; exact ok_noFuel _)
  show (grammar n).parseBranch p = _
  rw [this, hm]

theorem ensure_of_token {p : Parser} {type : TokenType} (h : p.token.type = type) :
    p.ensure type = .ok p.advance := by
  simp [Parser.ensure, h]

/-- A branch in braces around one factor that yields a node: the block holds
exactly that node and has the flags of the current scope. -/
theorem parseBranch_braced (fuel : Nat) (p q : Parser) (a : AST)
    (h1 : p.token.type = .L_BRACE) (h2 : parseFactor fuel p.advance = .ok (some a, q))
    (h3 : q.token.type = .R_BRACE) :
    parseBranch (fuel + 2) p
      = .ok (⟨[some a], q.m_scope.isRequired, q.m_scope.capturesScope⟩, q.advance) := by
  have hne : p.advance.token.type ≠ .R_BRACE := by
    rcases parseFactor_token h2 with h | h | h <;> rw [h] <;> decide
  obtain ⟨g, hg⟩ := grammar_eq_step fuel
  have hloop2 : (grammar fuel).parseBlockLoop .R_BRACE [some a] q
      = .ok (⟨[some a], q.m_scope.isRequired, q.m_scope.capturesScope⟩, q) := by
    rw [hg]
    show parseBlockLoopBody g .R_BRACE [some a] q = _
    unfold parseBlockLoopBody
    simp only [h3, ↓reduceIte]
  have hloop : (grammar (fuel + 1)).parseBlockLoop .R_BRACE [] p.advance
      = .ok (⟨[some a], q.m_scope.isRequired, q.m_scope.capturesScope⟩, q) := by
    show parseBlockLoopBody (grammar fuel) .R_BRACE [] p.advance = _
    unfold parseBlockLoopBody
    have h2b : (grammar fuel).parseFactor p.advance = .ok (some a, q) := h2
    simp only [hne, ↓reduceIte, h2b, List.nil_append]
    exact hloop2
  show parseBranchBody (grammar (fuel + 1)) p = _
  unfold parseBranchBody
  simp only [h1, ↓reduceIte, ensure_of_token h1, hloop, ensure_of_token h3]

/-- A branch without braces: the block holds exactly the result of the
factor, and both flags are clear. -/
theorem parseBranch_unbraced (fuel : Nat) (p q : Parser) (x : Option AST)
    (h1 : p.token.type ≠ .L_BRACE) (h2 : parseFactor fuel p = .ok (x, q)) :
    parseBranch (fuel + 1) p = .ok (⟨[x], false, false⟩, q) := by
  show parseBranchBody (grammar fuel) p = _
  unfold parseBranchBody
  have h2b : (grammar fuel).parseFactor p = .ok (x, q) := h2
  simp only [h1, ↓reduceIte, h2b]

/-- The function `parseIf` from the results of its condition and branches. -/
theorem parseIf_branches (fuel : Nat) (p p2 p4 : Parser) (c : Option AST) (ifBody : Block AST)
    (h1 : p.token.type = .L_PAREN) (h2 : parseFactor fuel p.advance = .ok (c, p2))
    (h3 : p2.token.type = .R_PAREN) (h4 : parseBranch fuel p2.advance = .ok (ifBody, p4)) :
    (∀ elseBody q, (p4.token.type = .ID ∧ p4.token.name = "else") →
      parseBranch fuel p4.advance = .ok (elseBody, q) →
      parseIf (fuel + 1) p = .ok (.If c ifBody (some elseBody), q)) ∧
    (¬ (p4.token.type = .ID ∧ p4.token.name = "else") →
      parseIf (fuel + 1) p = .ok (.If c ifBody none, p4)) := by
  have h2b : (grammar fuel).parseFactor p.advance = .ok (c, p2) := h2
  have h4b : (grammar fuel).parseBranch p2.advance = .ok (ifBody, p4) := h4
  constructor
  · intro elseBody q he h5
    have h5b : (grammar fuel).parseBranch p4.advance = .ok (elseBody, q) := h5
    show parseIfBody (grammar fuel) p = _
    unfold parseIfBody
    simp only [ensure_of_token h1, h2b, ensure_of_token h3, h4b, he, and_self, ↓reduceIte,
      ensure_of_token he.1, h5b]
  · intro he
    show parseIfBody (grammar fuel) p = _
    unfold parseIfBody
    simp only [ensure_of_token h1, h2b, ensure_of_token h3, h4b, he, ↓reduceIte]

/-! ## The type information of the trees -/

theorem TypesOK.ofFrame {B : Nat} {p q : Parser} (hp : TypesOK B p)
    (h1 : q.nextAddr = p.nextAddr) (h2 : q.m_types = p.m_types)
    (h3 : q.m_typeInfo = p.m_typeInfo) : TypesOK B q := by
  unfold TypesOK
  rw [h1, h2, h3]
  exact hp

theorem typesOK_ensure {B : Nat} {p q : Parser} {type : TokenType} (hp : TypesOK B p)
    (h : p.ensure type = .ok q) : TypesOK B q := by
  rw [(ensure_ok h).2]
  exact hp.ofFrame rfl rfl rfl

theorem typesOK_tokenOf {B : Nat} {p q : Parser} {type : TokenType} {tok : Token}
    (hp : TypesOK B p) (h : p.tokenOf type = .ok (tok, q)) : TypesOK B q := by
  rw [(tokenOf_ok h).2.2]
  exact hp.ofFrame rfl rfl rfl

theorem typesOK_skip {B : Nat} {p q : Parser} {type : TokenType} {b : Bool}
    (hp : TypesOK B p) (h : p.skip type = (b, q)) : TypesOK B q := by
  unfold Parser.skip at h
  split at h
  · simp only [Prod.mk.injEq] at h
    rw [← h.2]
    exact hp.ofFrame rfl rfl rfl
  · simp only [Prod.mk.injEq] at h
    rw [← h.2]
    exact hp

theorem typesOK_intern {B : Nat} {p q : Parser} {text s : String} {uid : Nat}
    (hp : TypesOK B p) (h : p.intern text = .ok (s, uid, q)) : TypesOK B q := by
  have hf := intern_frame h
  exact hp.ofFrame (by rw [hf]) (by rw [hf]) (by rw [hf])

theorem typesOK_parseNumber {B : Nat} {p q : Parser} {ast : AST} (hp : TypesOK B p)
    (h : parseNumber p = .ok (ast, q)) : TypesOK B q := by
  unfold parseNumber at h
  split at h
  · simp at h
  · rename_i number p1 h1
    simp only [Except.ok.injEq, Prod.mk.injEq] at h
    rw [← h.2]
    exact typesOK_tokenOf hp h1

theorem typesOK_parseString {B : Nat} {p q : Parser} {ast : AST} (hp : TypesOK B p)
    (h : parseString p = .ok (ast, q)) : TypesOK B q := by
  unfold parseString at h
  split at h
  · simp at h
  · rename_i string p1 h1
    split at h
    · simp at h
    · rename_i s uid p2 h2
      simp only [Except.ok.injEq, Prod.mk.injEq] at h
      rw [← h.2]
      exact typesOK_intern (typesOK_tokenOf hp h1) h2

theorem typesOK_resolveID {B : Nat} {id : Token} {p q : Parser} {ast : AST}
    (hp : TypesOK B p) (h : resolveID id p = .ok (ast, q)) : TypesOK B q := by
  rcases resolveID_ok h with ⟨_, _, _, rfl⟩ | ⟨_, s, uid, p2, h2, _, h3⟩
  · exact hp
  · have hp2 := typesOK_intern hp h2
    rcases h3 with ⟨ref, _, _, rfl⟩ | ⟨_, rfl⟩
    · obtain ⟨_, c2, c3, c4, _⟩ := capture_frame p2 ref id.name
      exact hp2.ofFrame c4 c2 c3
    · exact hp2

theorem declareArguments_types {sig : TypeChain} {args : List AST} {i : Nat}
    {acc fnArgs : List Nat} {p q : Parser}
    (h : declareArguments sig args i acc p = .ok (fnArgs, q)) :
    q.nextAddr = p.nextAddr ∧ q.m_types = p.m_types ∧ q.m_typeInfo = p.m_typeInfo := by
  induction args generalizing i acc p with
  | nil =>
    simp only [declareArguments, Except.ok.injEq, Prod.mk.injEq] at h
    rw [← h.2]
    exact ⟨rfl, rfl, rfl⟩
  | cons arg rest ih =>
    rw [declareArguments] at h
    split at h
    · simp at h
    · split at h
      · simp at h
      · simp only at h
        obtain ⟨e1, e2, e3⟩ := ih h
        exact ⟨e1, e2, e3⟩

theorem typesOK_scopeRestore {B : Nat} {p q : Parser} (hp : TypesOK B p)
    (h : p.scopeRestore = .ok q) : TypesOK B q := by
  have hf := scopeRestore_frame h
  exact hp.ofFrame (by rw [hf]) (by rw [hf]) (by rw [hf])

theorem mem_of_lookup {α : Type} {l : List (String × α)} {k : String} {v : α}
    (h : l.lookup k = some v) : (k, v) ∈ l := by
  induction l with
  | nil => simp at h
  | cons e rest ih =>
    obtain ⟨k1, v1⟩ := e
    rw [List.lookup_cons] at h
    by_cases hk : k == k1
    · simp only [hk, Option.some.injEq] at h
      have : k = k1 := by simpa using hk
      rw [this, h]
      exact List.mem_cons_self _ _
    · simp only [hk] at h
      exact List.mem_cons_of_mem _ (ih h)

theorem Forall.imp {L1 L2 : Bool → AST → Prop} (h : ∀ c a, L1 c a → L2 c a) {c : Bool}
    {ast : AST} (ht : Forall L1 c ast) : Forall L2 c ast := by
  induction ht with
  | node c ast here _ ih => exact .node c ast (h _ _ here) ih

/-- The type recorded for an argument whose chain, if it has one, is no
registry type. -/
theorem recorded_of_typed {B : Nat} {c : Bool} {a : AST} (p : Parser)
    (h : TypedNode B c a) : Recorded B a (p.typeInfoOf a) := by
  intro t ht hlt
  cases a with
  | Number _ _ _ => trivial
  | String _ _ _ _ => trivial
  | FunctionArgument _ => trivial
  | ID _ => simp [Parser.typeInfoOf] at ht
  | If _ _ _ => simp [Parser.typeInfoOf] at ht
  | Call _ _ _ ti =>
    simp only [Parser.typeInfoOf, Option.some.injEq] at ht
    subst ht
    exact absurd hlt (Nat.not_lt.2 h.1)
  | Function _ _ _ _ ti =>
    simp only [Parser.typeInfoOf, Option.some.injEq] at ht
    subst ht
    have hb : B ≤ ti.addr := h
    exact absurd hlt (Nat.not_lt.2 hb)

theorem forall₂_getElem? {α β : Type} {R : α → β → Prop} {l1 : List α} {l2 : List β}
    (h : List.Forall₂ R l1 l2) : ∀ (i : Nat) (a : α) (b : β),
      l1[i]? = some a → l2[i]? = some b → R a b := by
  induction h with
  | nil => intro i a b h1; simp at h1
  | cons hab _ ih =>
    intro i a b h1 h2
    cases i with
    | zero =>
      simp only [List.getElem?_cons_zero, Option.some.injEq] at h1 h2
      rw [← h1, ← h2]
      exact hab
    | succ i =>
      simp only [List.getElem?_cons_succ] at h1 h2
      exact ih i a b h1 h2

/-- What a successful `typeCheck` of a call with an identifier callee says
about the chains. -/
theorem typeCheck_ID_ok {table : List (String × TypeChain)} {id : IDNode}
    {arguments : List AST} {callTypes : TypeChain}
    (h : typeCheck table (.ID id) arguments callTypes = .ok ()) :
    ∃ sig, table.lookup id.name = some sig ∧
      ∀ j, j < arguments.length → ∃ t, sig.types[j]? = some t ∧
        callTypes.types[j]? = some t := by
  cases hl : table.lookup id.name with
  | none => simp [typeCheck, hl] at h
  | some sig =>
    simp only [typeCheck, hl] at h
    split at h
    · simp at h
    · rename_i hlen
      have hlen2 := not_not.1 hlen
      refine ⟨sig, rfl, ?_⟩
      intro j hj
      refine ((typeCheckLoop_ok_iff _ _ _ _ 0 (Nat.zero_add _) (by omega)).1 h).2 j
        (Nat.zero_le j) ?_
      rw [← hlen2]
      exact hj

/-- The arguments of a call that `typeCheck` accepts are literals and
function arguments, if the recorded types are faithful. -/
theorem accepted_of_recorded {B : Nat} {p : Parser} {id : IDNode} {arguments : List AST}
    {callTypes : TypeChain} (hp : TypesOK B p)
    (h : typeCheck p.m_typeInfo (.ID id) arguments callTypes = .ok ())
    (hrec : List.Forall₂ (Recorded B) arguments callTypes.types) :
    ∀ a ∈ arguments, IsLiteralOrArgument a := by
  obtain ⟨sig, hl, hall⟩ := typeCheck_ID_ok h
  obtain ⟨_, hsig⟩ := hp.2.2 _ (mem_of_lookup hl)
  intro a ha
  obtain ⟨i, hi, hget⟩ := List.getElem_of_mem ha
  obtain ⟨t, h1, h2⟩ := hall i hi
  obtain ⟨hh, rfl, hlt⟩ := hsig t (List.getElem?_mem h1)
  have ha2 : arguments[i]? = some a := by
    rw [List.getElem?_eq_getElem hi, hget]
  exact forall₂_getElem? hrec i a _ ha2 h2 hh rfl hlt

theorem typed_bottom (B : Nat) : Grammar.bottom.Typed B := by
  constructor <;> intros <;> simp_all [Grammar.bottom]

theorem typed_step {g : Grammar} {B : Nat} (hg : g.Typed B) : g.step.Typed B where
  parseBlockLoop := by
    intro delim nodes p b q hp hnodes h
    rcases parseBlockLoopBody_ok h with ⟨_, rfl, rfl⟩ | ⟨_, x, p1, h1, h2⟩
    · exact ⟨hp, hnodes⟩
    · obtain ⟨hp1, hx⟩ := hg.parseFactor hp h1
      refine hg.parseBlockLoop hp1 ?_ h2
      intro a ha
      cases x with
      | none => exact hnodes a ha
      | some node =>
        simp only [pushNode, List.mem_append, List.mem_singleton, Option.some.injEq] at ha
        rcases ha with ha | rfl
        · exact hnodes a ha
        · exact hx a rfl
  parseFactor := by
    intro p x q hp h
    rcases parseFactorBody_ok h with ⟨_, ast, h1, rfl⟩ | ⟨_, h1⟩ | ⟨_, ast, h1, rfl⟩
    · refine ⟨typesOK_parseNumber hp h1, ?_⟩
      intro a hx
      cases hx
      refine .leaf ?_ (parseNumber_leaf h1)
      unfold parseNumber at h1
      split at h1
      · simp at h1
      · simp only [Except.ok.injEq, Prod.mk.injEq] at h1
        rw [← h1.1]
        trivial
    · exact hg.parseID hp h1
    · refine ⟨typesOK_parseString hp h1, ?_⟩
      intro a hx
      cases hx
      refine .leaf ?_ (parseString_leaf h1)
      unfold parseString at h1
      split at h1
      · simp at h1
      · split at h1
        · simp at h1
        · simp only [Except.ok.injEq, Prod.mk.injEq] at h1
          rw [← h1.1]
          trivial
  parseBranch := by
    intro p b q hp h
    rcases parseBranchBody_ok h with ⟨_, p1, p2, h1, h2, h3⟩ | ⟨_, node, h1, rfl⟩
    · have hp1 := typesOK_ensure hp h1
      obtain ⟨hp2, hb⟩ := hg.parseBlockLoop hp1 (by simp) h2
      exact ⟨typesOK_ensure hp2 h3, hb⟩
    · obtain ⟨hq, hx⟩ := hg.parseFactor hp h1
      refine ⟨hq, ?_⟩
      intro a ha
      simp only [List.mem_singleton] at ha
      exact hx a ha.symm
  parseIf := by
    intro p ast q hp h
    obtain ⟨p1, c, p2, p3, ifBody, p4, h1, h2, h3, h4, h5⟩ := parseIfBody_ok h
    have hp1 := typesOK_ensure hp h1
    obtain ⟨hp2, hc⟩ := hg.parseFactor hp1 h2
    have hp3 := typesOK_ensure hp2 h3
    obtain ⟨hp4, hb4⟩ := hg.parseBranch hp3 h4
    rcases h5 with ⟨_, _, p5, elseBody, h6, h7, rfl⟩ | ⟨_, rfl, rfl⟩
    · have hp5 := typesOK_ensure hp4 h6
      obtain ⟨hq, hb5⟩ := hg.parseBranch hp5 h7
      refine ⟨hq, .node _ _ trivial ?_⟩
      intro c1 a hmem
      simp only [AST.children, List.mem_append, List.mem_map, Option.mem_toList,
        Option.mem_def, Prod.mk.injEq, mem_blockChildren] at hmem
      rcases hmem with (⟨a1, ha1, rfl, rfl⟩ | ⟨rfl, ha⟩) | ⟨rfl, ha⟩
      · exact hc _ ha1
      · exact hb4 _ ha
      · exact hb5 _ ha
    · refine ⟨hp4, .node _ _ trivial ?_⟩
      intro c1 a hmem
      simp only [AST.children, List.mem_append, List.mem_map, Option.mem_toList,
        Option.mem_def, Prod.mk.injEq, mem_blockChildren, List.not_mem_nil, or_false] at hmem
      rcases hmem with ⟨a1, ha1, rfl, rfl⟩ | ⟨rfl, ha⟩
      · exact hc _ ha1
      · exact hb4 _ ha
  parseID := by
    intro p x q hp h
    obtain ⟨id, p1, h1, h2⟩ := parseIDBody_ok h
    have hp1 := typesOK_tokenOf hp h1
    rcases h2 with ⟨_, ast, h3, rfl⟩ | ⟨_, ast, p2, y, p3, h3, h4, h5⟩
    · obtain ⟨hq, ht⟩ := hg.parseIf hp1 h3
      refine ⟨hq, ?_⟩
      intro a hx
      cases hx
      exact ht
    · have hp2 := typesOK_resolveID hp1 h3
      have hleaf : ∀ c, TypedNode B c ast := by
        intro c
        rcases resolveID_ok h3 with ⟨_, _, rfl, _⟩ | ⟨_, _, _, _, _, rfl, _⟩ <;> trivial
      have hpend : (typedProp B).Pending p2 ast :=
        ⟨.leaf (hleaf true) (resolveID_leaf h3).1,
          fun _ => .leaf (hleaf false) (resolveID_leaf h3).1⟩
      obtain ⟨hp3, hpn⟩ := hg.parseIDLoop hp2 hpend h4
      rcases h5 with ⟨_, rfl, rfl⟩ | ⟨node, rfl, h6⟩
      · refine ⟨hp3, ?_⟩
        intro a hx
        cases hx
      · obtain ⟨rfl, rfl, hcheck⟩ := checkFinal_ok h6
        refine ⟨hp3, ?_⟩
        intro a hx
        have hx2 : node = a := Option.some.inj hx
        subst hx2
        have hpa := hpn node rfl
        by_cases hcall : ∃ callee arguments loc typeInfo,
            node = .Call callee arguments loc typeInfo
        · obtain ⟨callee, arguments, loc, typeInfo, rfl⟩ := hcall
          have hhere : TypedNode B true (.Call callee arguments loc typeInfo) :=
            hpa.1.here_of
          refine .node _ _ ⟨hhere.1, hhere.2.1, ?_⟩ hpa.1.below_of
          intro _ id hid
          subst hid
          exact accepted_of_recorded hp3 (hcheck _ _ _ _ rfl) hhere.2.1
        · exact hpa.2 (fun callee arguments loc typeInfo he => hcall ⟨_, _, _, _, he⟩)
  parseIDLoop := by
    intro ast p x q hp hpend h
    rcases parseIDLoopBody_ok h with ⟨_, h1, rfl⟩ | ⟨_, call, p1, h1, h2⟩ |
      ⟨_, callee, arguments, loc, typeInfo, fn, p1, rfl, h1, h2⟩ | ⟨_, _, _, rfl, rfl⟩
    · refine ⟨hg.parseTypeInfo hp h1, ?_⟩
      intro a hx
      cases hx
    · obtain ⟨hp1, hc⟩ := hg.parseCall hp hpend.1 h1
      exact hg.parseIDLoop hp1 hc h2
    · have hcallee : Forall (TypedNode B) true callee :=
        hpend.1.below_of true callee (by simp [AST.children])
      obtain ⟨hp1, hf⟩ := hg.parseFunction hp hcallee h1
      exact hg.parseIDLoop hp1 hf h2
    · refine ⟨hp, ?_⟩
      intro a hx
      cases hx
      exact hpend
  parseFunction := by
    intro callee arguments p ast q hp hcallee h
    obtain ⟨name, typeInfo, fnArgs, p1, p2, body, p3, rbrace, p4, rfl, hl, h1, h2, h3, h4, h5,
      rfl⟩ := parseFunctionBody_ok h
    have hpe : TypesOK B (p.enterFunction name.name) := hp.ofFrame rfl rfl rfl
    obtain ⟨e1, e2, e3⟩ := declareArguments_types h1
    have hp1 : TypesOK B p1 := hpe.ofFrame e1 e2 e3
    have hp2 := typesOK_ensure hp1 h2
    obtain ⟨hp3, hbody⟩ := hg.parseBlockLoop hp2 (by simp) h3
    have hq := typesOK_scopeRestore (typesOK_tokenOf hp3 h4) h5
    have haddr : B ≤ typeInfo.addr := (hp.2.2 _ (mem_of_lookup hl)).1
    have hbelow : ∀ c1 a,
        (c1, a) ∈ (AST.Function name fnArgs body ⟨name.loc.start, rbrace.loc.stop⟩
          typeInfo).children → Forall (TypedNode B) c1 a := by
      intro c1 a hmem
      simp only [AST.children, List.mem_cons, Prod.mk.injEq, mem_blockChildren] at hmem
      rcases hmem with ⟨rfl, rfl⟩ | ⟨rfl, ha⟩
      · exact hcallee
      · exact hbody a ha
    exact ⟨hq, .node _ _ haddr hbelow, fun _ => .node _ _ haddr hbelow⟩
  parseCallLoop := by
    intro arguments types p r hp hargs hrec h
    rcases parseCallLoopBody_ok h with ⟨_, rfl⟩ | ⟨_, argument, p1, p2, h1, h2, h3⟩
    · exact ⟨hp, hargs, hrec⟩
    · obtain ⟨hp1, hx⟩ := hg.parseFactor hp h1
      have hp2 : TypesOK B p2 := by
        rcases h2 with ⟨_, h2⟩ | ⟨_, rfl⟩
        · exact typesOK_ensure hp1 h2
        · exact hp1
      have harg := hx argument rfl
      refine hg.parseCallLoop hp2 ?_ ?_ h3
      · intro b hb
        simp only [List.mem_append, List.mem_singleton] at hb
        rcases hb with hb | rfl
        · exact hargs b hb
        · exact harg
      · exact List.rel_append hrec
          (.cons (recorded_of_typed p1 harg.here_of) .nil)
  parseCall := by
    intro callee p ast q hp hcallee h
    obtain ⟨p1, arguments, types, p2, rparen, h1, h2, h3, rfl⟩ := parseCallBody_ok h
    have hp1 := typesOK_ensure hp h1
    have hp1' : TypesOK B { p1 with nextAddr := p1.nextAddr + 1 } :=
      ⟨Nat.le_succ_of_le hp1.1, hp1.2.1, hp1.2.2⟩
    obtain ⟨hp2, hargs, hrec⟩ := hg.parseCallLoop hp1' (by simp) .nil h2
    have hq := typesOK_tokenOf hp2 h3
    refine ⟨hq, .node _ _ ⟨hp1.1, hrec, fun hc => absurd hc (by decide)⟩ ?_,
      fun hc => absurd rfl (hc _ _ _ _)⟩
    intro c1 a hmem
    simp only [AST.children, List.mem_cons, Prod.mk.injEq, List.mem_map] at hmem
    rcases hmem with ⟨rfl, rfl⟩ | ⟨b, hb, rfl, rfl⟩
    · exact hcallee
    · exact hargs _ hb
  parseTypeInfo := by
    intro target p q hp h
    obtain ⟨p1, types, p2, id, h1, h2, _, rfl⟩ := parseTypeInfoBody_ok h
    have hp1 := typesOK_ensure hp h1
    have hp1' : TypesOK B { p1 with nextAddr := p1.nextAddr + 1 } :=
      ⟨Nat.le_succ_of_le hp1.1, hp1.2.1, hp1.2.2⟩
    obtain ⟨hp2, htypes⟩ := hg.parseTypeInfoLoop hp1' (by simp) h2
    refine ⟨hp2.1, hp2.2.1, ?_⟩
    intro e he
    simp only [List.mem_cons] at he
    rcases he with rfl | he
    · exact ⟨hp1.1, htypes⟩
    · exact hp2.2.2 e he
  parseTypeInfoLoop := by
    intro types p r hp htypes h
    obtain ⟨id, p1, type, p2, b, h1, hl, h3, h4⟩ := parseTypeInfoLoopBody_ok h
    obtain ⟨hp1, _⟩ := hg.parseID hp h1
    have hp2 := typesOK_skip hp1 h3
    have hnew : ∀ t ∈ types ++ [some type], ∃ h, t = some h ∧ h < B := by
      intro t ht
      simp only [List.mem_append, List.mem_singleton] at ht
      rcases ht with ht | rfl
      · exact htypes t ht
      · exact ⟨type, rfl, hp1.2.1 _ (mem_of_lookup hl)⟩
    rcases h4 with ⟨_, h4⟩ | ⟨_, rfl⟩
    · exact hg.parseTypeInfoLoop hp2 hnew h4
    · exact ⟨hp2, hnew⟩

/-- Every level of the grammar keeps the registry and the signature table in
order and builds typed trees. -/
theorem grammar_typed (B : Nat) : ∀ fuel, (grammar fuel).Typed B
  | 0 => typed_step (typed_bottom B)
  | fuel + 1 => typed_step (grammar_typed B fuel)

/-- After the registry is seeded at the fresh address `a`, the registry and
the signature table of a fresh parser are in order with respect to `a + 6`. -/
theorem typesOK_seed (tokens : List Token) :
    TypesOK 6 { (Parser.init tokens).seedTypes with strings := [] } := by
  refine ⟨Nat.le_refl _, ?_, ?_⟩
  · intro e he
    simp only [Parser.seedTypes, Parser.init, seededTypes, List.append_nil, List.mem_cons,
      List.mem_singleton, List.not_mem_nil, or_false] at he
    rcases he with rfl | rfl | rfl | rfl | rfl | rfl <;> decide
  · intro e he
    simp [Parser.seedTypes, Parser.init] at he
/-! ## Type declarations with arbitrary arrow tokens -/

/-- The loop of `parseTypeInfo` over a chain of plain type names, each arrow
its own token: if every name is in the registry the chain gets their types in
order, otherwise the loop fails with `UndefinedType`. -/
theorem parseTypeInfoLoop_arrows (registry : List (String × TypePtr)) (rest : List Token)
    (hrest : (rest.headD Token.eof).EndsDeclaration) (more : List (Token × Token)) :
    ∀ (t : Token) (fuel : Nat) (types : List (Option TypePtr)) (p : Parser),
      more.length + 2 ≤ fuel →
      (∀ x ∈ typeNames t more, x.type = .ID ∧ PlainName p.m_scope.table x.name) →
      (∀ x ∈ more, x.1.type = .ARROW) →
      p.m_types = registry → p.str_uid = p.strings.length →
      p.tokens = chainTokens t more ++ rest →
      ((∀ x ∈ typeNames t more, registry.lookup x.name ≠ none) →
        ∃ q, parseTypeInfoLoop fuel types p
            = .ok (types ++ (typeNames t more).map (fun t => registry.lookup t.name), q) ∧
          q.tokens = rest ∧ q.m_typeInfo = p.m_typeInfo ∧ q.nextAddr = p.nextAddr) ∧
      ((∃ x ∈ typeNames t more, registry.lookup x.name = none) →
        parseTypeInfoLoop fuel types p = .error .UndefinedType) := by
  induction more with
  | nil =>
    intro t fuel types p hfuel hts _ hreg hstr htok
    obtain ⟨fuel, rfl⟩ : ∃ n, fuel = n + 2 := ⟨fuel - 2, by simp at hfuel; omega⟩
    have ht := hts t (List.mem_cons_self _ _)
    simp only [chainTokens, List.singleton_append] at htok
    obtain ⟨uid, q, hq, f1, f2, f3, f4, f5, f6⟩ := parseID_plain fuel p t rest htok ht.1 ht.2
      hstr hrest.1 hrest.2.1 hrest.2.2.1
    change (grammar (fuel + 1)).parseID p = _ at hq
    have hskip : q.skip .ARROW = (false, q) := by
      have : q.token.type ≠ .ARROW := by
        simp only [Parser.token, f1]
        exact hrest.2.2.2
      simp [Parser.skip, this]
    constructor
    · intro hall
      have hl := hall t (List.mem_cons_self _ _)
      obtain ⟨ty, hty⟩ := Option.ne_none_iff_exists'.1 hl
      refine ⟨q, ?_, f1, f3, f4⟩
      show parseTypeInfoLoopBody (grammar (fuel + 1)) types p = _
      unfold parseTypeInfoLoopBody
      simp [hq, asID, f2, hreg, hty, hskip, typeNames]
    · rintro ⟨t1, ht1, hnone⟩
      simp only [typeNames, List.map_nil, List.mem_singleton] at ht1
      subst ht1
      show parseTypeInfoLoopBody (grammar (fuel + 1)) types p = _
      unfold parseTypeInfoLoopBody
      simp [hq, asID, f2, hreg, hnone]
  | cons x more ih =>
    intro t fuel types p hfuel hts harrows hreg hstr htok
    obtain ⟨arrow, t2⟩ := x
    obtain ⟨fuel, rfl⟩ : ∃ n, fuel = n + 2 := ⟨fuel - 2, by simp at hfuel; omega⟩
    have ht := hts t (List.mem_cons_self _ _)
    have harrow : arrow.type = .ARROW := harrows (arrow, t2) (List.mem_cons_self _ _)
    simp only [chainTokens, List.cons_append] at htok
    obtain ⟨uid, q, hq, f1, f2, f3, f4, f5, f6⟩ := parseID_plain fuel p t _ htok ht.1 ht.2
      hstr (by simp [harrow]) (by simp [harrow]) (by simp [harrow])
    change (grammar (fuel + 1)).parseID p = _ at hq
    have hskip : q.skip .ARROW = (true, q.advance) := by
      have : q.token.type = .ARROW := by
        simp [Parser.token, f1, harrow]
      simp [Parser.skip, this]
    have hadv : q.advance.tokens = chainTokens t2 more ++ rest := by
      simp [Parser.advance, f1]
    have hsub : ∀ t1, t1 ∈ typeNames t2 more → t1 ∈ typeNames t ((arrow, t2) :: more) :=
      fun t1 h1 => List.mem_cons_of_mem _ h1
    cases hl : registry.lookup t.name with
    | none =>
      constructor
      · intro hall
        exact absurd hl (hall t (List.mem_cons_self _ _))
      · intro _
        show parseTypeInfoLoopBody (grammar (fuel + 1)) types p = _
        unfold parseTypeInfoLoopBody
        simp [hq, asID, f2, hreg, hl]
    | some ty =>
      have ih3 := ih t2 (fuel + 1) (types ++ [some ty]) q.advance
        (by simp at hfuel ⊢; omega)
        (fun t1 h1 => by
          have := hts t1 (hsub t1 h1)
          simpa [Parser.advance, f6] using this)
        (fun x hx => harrows x (List.mem_cons_of_mem _ hx))
        (by simp [Parser.advance, f2, hreg]) (by simpa [Parser.advance] using f5) hadv
      have hbody : parseTypeInfoLoop (fuel + 2) types p
          = parseTypeInfoLoop (fuel + 1) (types ++ [some ty]) q.advance := by
        show parseTypeInfoLoopBody (grammar (fuel + 1)) types p = _
        unfold parseTypeInfoLoopBody
        simp [hq, asID, f2, hreg, hl, hskip]
        rfl
      rw [hbody]
      constructor
      · intro hall
        obtain ⟨q2, h1, h2, h3, h4⟩ := ih3.1 (fun t1 h1 => hall t1 (hsub t1 h1))
        refine ⟨q2, ?_, h2, ?_, ?_⟩
        · rw [h1]
          simp [hl, typeNames]
        · rw [h3]
          simp [Parser.advance, f3]
        · rw [h4]
          simp [Parser.advance, f4]
      · rintro ⟨t1, ht1, hnone⟩
        apply ih3.2
        rcases List.mem_cons.1 ht1 with rfl | h
        · rw [hl] at hnone
          cases hnone
        · exact ⟨t1, h, hnone⟩

/-- A type declaration `n : T1 -> ... -> Tk` of plain names as a factor, each
arrow its own token.  If every type name is in the registry, the factor yields
no node and the chain of their types, in order, is put in front of the
signature table under the name `n`; otherwise the factor fails with
`UndefinedType`. -/
theorem parseFactor_declaration_arrows (registry : List (String × TypePtr)) (p : Parser)
    (n colon t : Token) (more : List (Token × Token)) (rest : List Token) (fuel : Nat)
    (hreg : p.m_types = registry) (hstr : p.str_uid = p.strings.length)
    (hn : n.type = .ID ∧ PlainName p.m_scope.table n.name) (hcolon : colon.type = .TYPE)
    (harrows : ∀ x ∈ more, x.1.type = .ARROW)
    (hts : ∀ x ∈ typeNames t more, x.type = .ID ∧ PlainName p.m_scope.table x.name)
    (htok : p.tokens = n :: colon :: (chainTokens t more ++ rest))
    (hrest : (rest.headD Token.eof).EndsDeclaration) (hfuel : more.length + 6 ≤ fuel) :
    ((∀ x ∈ typeNames t more, registry.lookup x.name ≠ none) →
      ∃ q, parseFactor fuel p = .ok (none, q) ∧ q.tokens = rest ∧
        q.m_typeInfo
          = (n.name, ⟨p.nextAddr, (typeNames t more).map (fun t => registry.lookup t.name)⟩)
            :: p.m_typeInfo) ∧
    ((∃ x ∈ typeNames t more, registry.lookup x.name = none) →
      parseFactor fuel p = .error .UndefinedType) := by
  obtain ⟨fuel, rfl⟩ : ∃ f, fuel = f + 5 := ⟨fuel - 5, by omega⟩
  obtain ⟨uid, p1, hr, f1, f2, f3, f4, f5, f6⟩ := resolveID_plain p.advance n hn.2 hstr
  have htok1 : p1.tokens = colon :: (chainTokens t more ++ rest) := by
    rw [f1, advance_tokens htok]
  have hchain := parseTypeInfoLoop_arrows registry rest hrest more t (fuel + 1) []
    { p1.advance with nextAddr := p1.advance.nextAddr + 1 } (by omega)
    (fun t ht => by simpa [Parser.advance, f6] using hts t ht) harrows
    (by simp [Parser.advance, f2, hreg]) (by simpa [Parser.advance] using f5)
    (by simp [Parser.advance, htok1])
  have hfactor : parseFactor (fuel + 5) p
      = match parseTypeInfoLoop (fuel + 1) []
          { p1.advance with nextAddr := p1.advance.nextAddr + 1 } with
        | .error e => .error e
        | .ok (types, p2) =>
          .ok (none, { p2 with
            m_typeInfo := (n.name, ⟨p1.advance.nextAddr, types⟩) :: p2.m_typeInfo }) := by
    have up : ∀ r : Except Error (Option AST × Parser),
        (grammar (fuel + 2)).parseTypeInfo (.ID ⟨n.name, uid, n.loc⟩) p1
          = (match r with
            | .error e => .error e
            | .ok (_, p) => .ok p) →
        (∀ x p, r = .ok (x, p) → x = none) → parseFactor (fuel + 5) p = r := by
      intro r hti hnone
      have hloop : (grammar (fuel + 3)).parseIDLoop (.ID ⟨n.name, uid, n.loc⟩) p1 = r := by
        show parseIDLoopBody (grammar (fuel + 2)) _ p1 = _
        unfold parseIDLoopBody
        simp only [token_of_tokens htok1, hcolon, ↓reduceIte, hti]
        cases r with
        | error e => rfl
        | ok v =>
          obtain ⟨x, p⟩ := v
          cases hnone x p rfl
          rfl
      have hid : (grammar (fuel + 4)).parseID p = r := by
        show parseIDBody (grammar (fuel + 3)) p = _
        unfold parseIDBody
        simp only [Parser.tokenOf, token_of_tokens htok, hn.1, ↓reduceIte, hn.2.1, hr, hloop]
        cases r with
        | error e => rfl
        | ok v =>
          obtain ⟨x, p⟩ := v
          cases hnone x p rfl
          rfl
      show parseFactorBody (grammar (fuel + 4)) p = _
      unfold parseFactorBody
      simp only [token_of_tokens htok, hn.1, hid]
    cases hres : parseTypeInfoLoop (fuel + 1) []
        { p1.advance with nextAddr := p1.advance.nextAddr + 1 } with
    | error e =>
      refine up (.error e) ?_ (fun x p h => by cases h)
      have hres2 : (grammar (fuel + 1)).parseTypeInfoLoop []
          { p1.advance with nextAddr := p1.advance.nextAddr + 1 } = .error e := hres
      have hti : parseTypeInfoBody (grammar (fuel + 1)) (.ID ⟨n.name, uid, n.loc⟩) p1
          = .error e := by
        unfold parseTypeInfoBody
        simp only [Parser.ensure, token_of_tokens htok1, hcolon, ↓reduceIte, hres2]
      exact hti
    | ok v =>
      obtain ⟨types, p2⟩ := v
      have hres2 : (grammar (fuel + 1)).parseTypeInfoLoop []
          { p1.advance with nextAddr := p1.advance.nextAddr + 1 } = .ok (types, p2) := hres
      have hti : parseTypeInfoBody (grammar (fuel + 1)) (.ID ⟨n.name, uid, n.loc⟩) p1
          = .ok { p2 with
              m_typeInfo := (n.name, ⟨p1.advance.nextAddr, types⟩) :: p2.m_typeInfo } := by
        unfold parseTypeInfoBody
        simp only [Parser.ensure, token_of_tokens htok1, hcolon, ↓reduceIte, hres2, asID]
      exact up (.ok (none, _)) hti (fun x p h => by cases h; rfl)
  rw [hfactor]
  constructor
  · intro hall
    obtain ⟨q, h1, h2, h3, h4⟩ := hchain.1 hall
    rw [h1]
    refine ⟨_, rfl, h2, ?_⟩
    simp only [h3, List.nil_append]
    simp [Parser.advance, f3, f4]
  · intro hex
    rw [hchain.2 hex]

/-- The string table after a successful run of the loop of `parseTypeInfo`
over the type names `T1 -> ... -> Tk`, each arrow its own token: the names
were interned in order. -/
theorem parseTypeInfoLoop_strings_arrows (rest : List Token)
    (hrest : (rest.headD Token.eof).EndsDeclaration) (more : List (Token × Token)) :
    ∀ (t : Token) (g : Grammar), g.IsLevel → (∀ x ∈ more, x.1.type = .ARROW) →
      ∀ (types : List (Option TypePtr)) (p : Parser)
      (r : List (Option TypePtr) × Parser), g.parseTypeInfoLoop types p = .ok r →
      p.tokens = chainTokens t more ++ rest → p.str_uid = p.strings.length →
      r.2.strings = ((typeNames t more).map (fun t => t.name)).foldl internText p.strings ∧
        r.2.tokens = rest := by
  induction more with
  | nil =>
    intro t g hg _ types p r h htok hstr
    rcases hg.cases with rfl | ⟨g1, hg1, rfl⟩
    · simp [Grammar.bottom] at h
    have h4 : parseTypeInfoLoopBody g1 types p = .ok r := h
    obtain ⟨id, p1, type, p2, b, h5, _, h7, h8⟩ := parseTypeInfoLoopBody_ok h4
    simp only [chainTokens, List.singleton_append] at htok
    obtain ⟨_, a2, a3, _⟩ := parseID_identifier hg1 h5 htok hrest.1 hrest.2.1 hrest.2.2.1 hstr
    have hna : p1.token.type ≠ .ARROW := by
      simp only [Parser.token, a2]
      exact hrest.2.2.2
    simp only [Parser.skip, hna, ↓reduceIte, Prod.mk.injEq] at h7
    obtain ⟨rfl, rfl⟩ := h7
    rcases h8 with ⟨hc, _⟩ | ⟨_, rfl⟩
    · cases hc
    · exact ⟨a3, a2⟩
  | cons x more ih =>
    intro t g hg harrows types p r h htok hstr
    obtain ⟨arrow, t2⟩ := x
    have harrow : arrow.type = .ARROW := harrows (arrow, t2) (List.mem_cons_self _ _)
    rcases hg.cases with rfl | ⟨g1, hg1, rfl⟩
    · simp [Grammar.bottom] at h
    have h4 : parseTypeInfoLoopBody g1 types p = .ok r := h
    obtain ⟨id, p1, type, p2, b, h5, _, h7, h8⟩ := parseTypeInfoLoopBody_ok h4
    simp only [chainTokens, List.cons_append] at htok
    have hh : ((arrow :: (chainTokens t2 more ++ rest)).headD Token.eof).type
        = .ARROW := harrow
    obtain ⟨_, a2, a3, a4⟩ := parseID_identifier hg1 h5 htok (by rw [hh]; decide)
      (by rw [hh]; decide) (by rw [hh]; decide) hstr
    have hta : p1.token.type = .ARROW := by
      simp only [Parser.token, a2]
      exact harrow
    simp only [Parser.skip, hta, ↓reduceIte, Prod.mk.injEq] at h7
    obtain ⟨rfl, rfl⟩ := h7
    rcases h8 with ⟨_, h9⟩ | ⟨hc, _⟩
    · obtain ⟨b1, b2⟩ := ih t2 g1 hg1 (fun x hx => harrows x (List.mem_cons_of_mem _ hx)) _
        p1.advance r h9 (advance_tokens a2) (by simpa [Parser.advance] using a4)
      refine ⟨?_, b2⟩
      rw [b1]
      simp [Parser.advance, a3, typeNames]
    · cases hc

/-- The string table after a successful type declaration
`n : T1 -> ... -> Tk`, each arrow its own token: the name `n` and then the
type names were interned, in this order. -/
theorem parseFactor_declaration_strings_arrows {g : Grammar} (hg : g.IsLevel) {p q : Parser}
    {x : Option AST} {n colon t : Token} {more : List (Token × Token)} {rest : List Token}
    (h : g.parseFactor p = .ok (x, q))
    (htok : p.tokens = n :: colon :: (chainTokens t more ++ rest))
    (hn : n.type = .ID) (hcolon : colon.type = .TYPE)
    (harrows : ∀ x ∈ more, x.1.type = .ARROW)
    (hrest : (rest.headD Token.eof).EndsDeclaration)
    (hstr : p.str_uid = p.strings.length) :
    q.strings = (n.name :: (typeNames t more).map (fun t => t.name)).foldl internText p.strings ∧
      q.tokens = rest := by
  rcases hg.cases with rfl | ⟨g0, hg0, rfl⟩
  · simp [Grammar.bottom] at h
  have h2 : parseFactorBody g0 p = .ok (x, q) := h
  have hp : p.token = n := token_of_tokens htok
  rcases parseFactorBody_ok h2 with ⟨ht, _⟩ | ⟨_, h3⟩ | ⟨ht, _⟩
  · rw [hp, hn] at ht
    cases ht
  · rcases hg0.cases with rfl | ⟨g1, hg1, rfl⟩
    · simp [Grammar.bottom] at h3
    have h4 : parseIDBody g1 p = .ok (x, q) := h3
    obtain ⟨id, p1, h5, h6⟩ := parseIDBody_ok h4
    obtain ⟨_, rfl, rfl⟩ := tokenOf_ok h5
    rw [hp] at h6
    have hp1 : p.advance.tokens = colon :: (chainTokens t more ++ rest) := advance_tokens htok
    rcases h6 with ⟨_, ast, h7, _⟩ | ⟨_, ast, p2, y, p3, h7, h8, h9⟩
    · rcases hg1.cases with rfl | ⟨g2, _, rfl⟩
      · simp [Grammar.bottom] at h7
      · have h10 : parseIfBody g2 p.advance = .ok (ast, q) := h7
        obtain ⟨p5, _, _, _, _, _, h11, _⟩ := parseIfBody_ok h10
        simp [Parser.ensure, token_of_tokens hp1, hcolon] at h11
    · have hp2t : p2.tokens = colon :: (chainTokens t more ++ rest) :=
        (resolveID_tokens h7).trans hp1
      have hp2 : p2.token.type = .TYPE := by
        rw [token_of_tokens hp2t]
        exact hcolon
      rcases hg1.cases with rfl | ⟨g2, hg2, rfl⟩
      · simp [Grammar.bottom] at h8
      have h10 : parseIDLoopBody g2 ast p2 = .ok (y, p3) := h8
      rcases parseIDLoopBody_ok h10 with ⟨_, hti, rfl⟩ | ⟨ht, _⟩ | ⟨ht, _⟩ | ⟨ht, _⟩
      · rcases h9 with ⟨_, _, rfl⟩ | ⟨node, hy, _⟩
        · rcases hg2.cases with rfl | ⟨g3, hg3, rfl⟩
          · simp [Grammar.bottom] at hti
          have h11 : parseTypeInfoBody g3 ast p2 = .ok q := hti
          obtain ⟨p4, types, p5, tid, h12, h13, rfl, rfl⟩ := parseTypeInfoBody_ok h11
          obtain ⟨_, rfl⟩ := ensure_ok h12
          obtain ⟨_, r2, r3, r4⟩ := resolveID_identifier h7 hstr
          obtain ⟨b1, b2⟩ := parseTypeInfoLoop_strings_arrows rest hrest more t g3 hg3 harrows
            [] _ (types, p5) h13 (advance_tokens hp2t) (by simpa [Parser.advance] using r4)
          refine ⟨?_, b2⟩
          simp only at b1
          simp only [b1, Parser.advance, r3, List.foldl_cons]
        · cases hy
      · rw [hp2] at ht
        cases ht
      · rw [hp2] at ht
        cases ht
      · exact absurd hp2 ht
  · rw [hp, hn] at ht
    cases ht

/-! ## The parameters a tree refers to -/

theorem Within.atNode {L : Enclosing → Bool → AST → Prop}
    {ctx : Enclosing} {c : Bool} {ast : AST} (h : Within L ctx c ast) :
    L ctx c ast := by
  cases h with
  | node _ _ _ here _ => exact here

theorem Within.atChildren {L : Enclosing → Bool → AST → Prop}
    {ctx : Enclosing} {c : Bool} {ast : AST} (h : Within L ctx c ast) :
    ∀ c1 a, (c1, a) ∈ ast.children → Within L (ast.childContext ctx) c1 a := by
  cases h with
  | node _ _ _ _ below => exact below

theorem Within.ofLeaf {L : Enclosing → Bool → AST → Prop}
    {ctx : Enclosing} {c : Bool} {ast : AST} (h : L ctx c ast)
    (hc : ast.children = []) : Within L ctx c ast :=
  .node ctx c ast h (by simp [hc])

/-- The leaves of a tree do not depend on whether the tree is a callee. -/
theorem Within.flag {types : List (String × TypePtr)} {heap : List FunctionArgument}
    {ctx : Enclosing} {c : Bool} {ast : AST}
    (h : Within (OwnedNode types heap) ctx c ast) (c1 : Bool) :
    Within (OwnedNode types heap) ctx c1 ast := by
  cases h with
  | node _ _ _ here below => exact .node _ _ _ here below

theorem HeapLE.identity (h : List FunctionArgument) : HeapLE h h :=
  fun _ a ha => ⟨a, ha, rfl, rfl⟩

theorem HeapLE.next {h1 h2 h3 : List FunctionArgument} (h12 : HeapLE h1 h2)
    (h23 : HeapLE h2 h3) : HeapLE h1 h3 := by
  intro ref a ha
  obtain ⟨b, hb, hbi, hbt⟩ := h12 ref a ha
  obtain ⟨d, hd, hdi, hdt⟩ := h23 ref b hb
  exact ⟨d, hd, hdi.trans hbi, hdt.trans hbt⟩

/-- A primitive change keeps every argument object, its index and its
type. -/
theorem prim_heap {p q : Parser} (h : Prim p q) : HeapLE p.heap q.heap := by
  cases h with
  | intern =>
    rename_i h
    rw [intern_frame h]
    exact .identity _
  | scopeRestore =>
    rename_i h
    rw [scopeRestore_frame h]
    exact .identity _
  | requireScopeFor =>
    unfold Parser.requireScopeFor
    split <;> exact .identity _
  | setCaptured ref0 =>
    intro ref a ha
    simp only [Parser.setCaptured, List.getElem?_modify, ha, Option.map_eq_map, Option.map_some']
    by_cases hr : ref0 = ref
    · exact ⟨{ a with isCaptured := true }, by rw [if_pos hr], rfl, rfl⟩
    · exact ⟨a, by rw [if_neg hr], rfl, rfl⟩
  | newArgument a0 =>
    intro ref a ha
    have hlt : ref < p.heap.length := by
      by_contra hge
      rw [List.getElem?_eq_none (Nat.le_of_not_lt hge)] at ha
      cases ha
    exact ⟨a, by simp only [List.getElem?_append_left hlt, ha], rfl, rfl⟩
  | _ => exact .identity _

theorem reach_heap {p q : Parser} (h : Reach p q) : HeapLE p.heap q.heap := by
  induction h with
  | refl => exact .identity _
  | tail _ hstep ih => exact ih.next (prim_heap hstep)

theorem OwnParameter.onLater {h1 h2 : List FunctionArgument} (hle : HeapLE h1 h2)
    {ctx : Enclosing} {ref : Nat} (h : OwnParameter h1 ctx ref) :
    OwnParameter h2 ctx ref := by
  obtain ⟨fnArgs, sig, hctx, k, arg, hk, harg, hidx, hty⟩ := h
  obtain ⟨b, hb1, hb2, hb3⟩ := hle ref arg harg
  refine ⟨fnArgs, sig, hctx, k, b, hk, hb1, hb2.trans hidx, ?_⟩
  rw [hb2, hb3]
  exact hty

theorem Within.later {types : List (String × TypePtr)} {h1 h2 : List FunctionArgument}
    (hle : HeapLE h1 h2) {ctx : Enclosing} {c : Bool} {ast : AST}
    (h : Within (OwnedNode types h1) ctx c ast) : Within (OwnedNode types h2) ctx c ast := by
  induction h with
  | node ctx c ast here _ ih =>
    refine .node ctx c ast ?_ ih
    cases ast with
    | FunctionArgument ref => exact OwnParameter.onLater hle here
    | _ => exact here

theorem Within.afterReach {types : List (String × TypePtr)} {p q : Parser} (hr : Reach p q)
    {ctx : Enclosing} {c : Bool} {ast : AST}
    (h : Within (OwnedNode types p.heap) ctx c ast) :
    Within (OwnedNode types q.heap) ctx c ast :=
  h.later (reach_heap hr)

/-- The parameters bound in the current scope stay bound as long as the
current scope is the same. -/
theorem Bound.after {p q : Parser} {ctx : Enclosing} (hb : Bound p ctx)
    (hs : SameScope p q) (hr : Reach p q) : Bound q ctx := by
  intro e he ref href
  obtain ⟨added, htab, hadd⟩ := hs.2.1
  rw [htab] at he
  rcases List.mem_append.1 he with h | h
  · have hf := hadd e h
    rw [href] at hf
    cases hf
  · exact (hb e h ref href).onLater (reach_heap hr)

theorem parseNumber_type {p q : Parser} {ast : AST} (h : parseNumber p = .ok (ast, q)) :
    ∃ v loc, ast = .Number v loc (p.m_types.lookup "Int") := by
  unfold parseNumber at h
  split at h
  · simp at h
  · rename_i number p1 ht
    obtain ⟨_, _, rfl⟩ := tokenOf_ok ht
    simp only [Except.ok.injEq, Prod.mk.injEq] at h
    exact ⟨_, _, h.1.symm⟩

theorem parseString_type {p q : Parser} {ast : AST} (h : parseString p = .ok (ast, q)) :
    ∃ s uid loc, ast = .String s uid loc (p.m_types.lookup "String") := by
  unfold parseString at h
  split at h
  · simp at h
  · rename_i string p1 ht
    obtain ⟨_, _, rfl⟩ := tokenOf_ok ht
    split at h
    · simp at h
    · rename_i s uid p2 hi
      simp only [Except.ok.injEq, Prod.mk.injEq] at h
      refine ⟨s, uid, string.loc, ?_⟩
      rw [← h.1, intern_frame hi]
      rfl

/-- The bindings the loop over the arguments of a function head adds to the
current scope are bindings of the new argument objects. -/
theorem declareArguments_table {sig : TypeChain} {args : List AST} :
    ∀ {i : Nat} {acc fnArgs : List Nat} {p q : Parser},
      declareArguments sig args i acc p = .ok (fnArgs, q) →
      ∀ e ∈ q.m_scope.table, e ∈ p.m_scope.table ∨
        ∃ k, k < args.length ∧ e.2 = Binding.FunctionArgument (p.heap.length + k) := by
  induction args with
  | nil =>
    intro i acc fnArgs p q h e he
    simp only [declareArguments, Except.ok.injEq, Prod.mk.injEq] at h
    rw [← h.2] at he
    exact .inl he
  | cons arg rest ih =>
    intro i acc fnArgs p q h e he
    rw [declareArguments] at h
    split at h
    · simp at h
    · split at h
      · simp at h
      · simp only at h
        rcases ih h e he with h1 | ⟨k, hk, hek⟩
        · simp only [Parser.scopeSet, List.mem_cons] at h1
          rcases h1 with rfl | h1
          · exact .inr ⟨0, by simp, rfl⟩
          · exact .inl h1
        · refine .inr ⟨k + 1, by simp only [List.length_cons]; omega, ?_⟩
          rw [hek]
          simp only [Parser.scopeSet, List.length_append, List.length_singleton]
          congr 1
          omega

/-- In the scope of a function body the bound arguments are the parameters of
the function, typed by its signature. -/
theorem declareArguments_bound {sig : TypeChain} {args : List AST} {fnArgs : List Nat}
    {p q : Parser} (h : declareArguments sig args 0 [] p = .ok (fnArgs, q))
    (hempty : p.m_scope.table = []) : Bound q (some (fnArgs, sig)) := by
  obtain ⟨hf, _, _, hspec⟩ := declareArguments_spec sig args 0 [] fnArgs p q (by decide) h
  intro e he ref href
  rcases declareArguments_table h e he with h1 | ⟨k, hk, hek⟩
  · rw [hempty] at h1
    cases h1
  · rw [href] at hek
    simp only [Binding.FunctionArgument.injEq] at hek
    subst hek
    obtain ⟨name, ty, arg, _, _, hty, hheap⟩ := hspec k hk
    rw [Nat.zero_add] at hty hheap
    refine ⟨fnArgs, sig, rfl, k, _, ?_, hheap, rfl, hty⟩
    rw [hf, List.nil_append, List.getElem?_range' _ _ hk]
    simp

theorem owned_bottom (types : List (String × TypePtr)) : Grammar.bottom.Owned types := by
  constructor <;> intros <;> simp_all [Grammar.bottom]

theorem owned_step {g : Grammar} {types : List (String × TypePtr)} (hr : g.Reaches)
    (hb : g.Balanced) (hg : g.Owned types) : g.step.Owned types where
  parseBlockLoop := by
    intro delim nodes p b q ctx hI hctx hnodes h
    rcases parseBlockLoopBody_ok h with ⟨_, rfl, rfl⟩ | ⟨_, x, p1, h1, h2⟩
    · exact hnodes
    · have r1 := hr.parseFactor h1
      have hI1 : p1.m_types = types := (reach_types r1).trans hI
      have hctx1 := hctx.after (hb.parseFactor h1) r1
      refine hg.parseBlockLoop hI1 hctx1 ?_ h2
      intro a ha
      cases x with
      | none => exact (hnodes a ha).afterReach r1
      | some node =>
        simp only [pushNode, List.mem_append, List.mem_singleton, Option.some.injEq] at ha
        rcases ha with ha | rfl
        · exact (hnodes a ha).afterReach r1
        · exact hg.parseFactor hI hctx h1 a rfl
  parseFactor := by
    intro p x q ctx hI hctx h a hx
    rcases parseFactorBody_ok h with ⟨_, ast, h1, rfl⟩ | ⟨_, h1⟩ | ⟨_, ast, h1, rfl⟩
    · cases hx
      obtain ⟨v, loc, rfl⟩ := parseNumber_type h1
      refine .ofLeaf ?_ rfl
      show p.m_types.lookup "Int" = types.lookup "Int"
      rw [hI]
    · exact hg.parseID hI hctx h1 a hx
    · cases hx
      obtain ⟨s, uid, loc, rfl⟩ := parseString_type h1
      refine .ofLeaf ?_ rfl
      show p.m_types.lookup "String" = types.lookup "String"
      rw [hI]
  parseBranch := by
    intro p b q ctx hI hctx h a ha
    rcases parseBranchBody_ok h with ⟨_, p1, p2, h1, h2, h3⟩ | ⟨_, node, h1, rfl⟩
    · have r1 := reach_ensure h1
      have hI1 : p1.m_types = types := (reach_types r1).trans hI
      have hctx1 := hctx.after (sameScope_ensure h1) r1
      exact (hg.parseBlockLoop hI1 hctx1 (by simp) h2 a ha).afterReach (reach_ensure h3)
    · simp only [List.mem_singleton] at ha
      exact hg.parseFactor hI hctx h1 a ha.symm
  parseIf := by
    intro p ast q ctx hI hctx h
    obtain ⟨p1, c, p2, p3, ifBody, p4, h1, h2, h3, h4, h5⟩ := parseIfBody_ok h
    have r1 := reach_ensure h1
    have r2 := hr.parseFactor h2
    have r3 := reach_ensure h3
    have r4 := hr.parseBranch h4
    have hI1 : p1.m_types = types := (reach_types r1).trans hI
    have hI2 : p2.m_types = types := (reach_types r2).trans hI1
    have hI3 : p3.m_types = types := (reach_types r3).trans hI2
    have hI4 : p4.m_types = types := (reach_types r4).trans hI3
    have hctx1 := hctx.after (sameScope_ensure h1) r1
    have hctx2 := hctx1.after (hb.parseFactor h2) r2
    have hctx3 := hctx2.after (sameScope_ensure h3) r3
    have hctx4 := hctx3.after (hb.parseBranch h4) r4
    have hc4 : ∀ a, c = some a → Within (OwnedNode types p4.heap) ctx false a := fun a ha =>
      (hg.parseFactor hI1 hctx1 h2 a ha).afterReach (r3.trans r4)
    have hb4 := hg.parseBranch hI3 hctx3 h4
    rcases h5 with ⟨_, _, p5, elseBody, h6, h7, rfl⟩ | ⟨_, rfl, rfl⟩
    · have r5 := reach_ensure h6
      have hI5 : p5.m_types = types := (reach_types r5).trans hI4
      have hctx5 := hctx4.after (sameScope_ensure h6) r5
      have r46 : Reach p4 q := r5.trans (hr.parseBranch h7)
      refine .node _ _ _ trivial ?_
      intro c1 a hmem
      simp only [AST.children, List.mem_append, List.mem_map, Option.mem_toList,
        Option.mem_def, Prod.mk.injEq, mem_blockChildren] at hmem
      rcases hmem with (⟨a1, ha1, rfl, rfl⟩ | ⟨rfl, ha⟩) | ⟨rfl, ha⟩
      · exact (hc4 _ ha1).afterReach r46
      · exact (hb4 _ ha).afterReach r46
      · exact hg.parseBranch hI5 hctx5 h7 _ ha
    · refine .node _ _ _ trivial ?_
      intro c1 a hmem
      simp only [AST.children, List.mem_append, List.mem_map, Option.mem_toList,
        Option.mem_def, Prod.mk.injEq, mem_blockChildren, List.not_mem_nil, or_false] at hmem
      rcases hmem with ⟨a1, ha1, rfl, rfl⟩ | ⟨rfl, ha⟩
      · exact hc4 _ ha1
      · exact hb4 _ ha
  parseID := by
    intro p x q ctx hI hctx h a hx
    obtain ⟨id, p1, h1, h2⟩ := parseIDBody_ok h
    have r1 := reach_tokenOf h1
    have hI1 : p1.m_types = types := (reach_types r1).trans hI
    have hctx1 := hctx.after (sameScope_tokenOf h1) r1
    rcases h2 with ⟨_, ast, h3, rfl⟩ | ⟨_, ast, p2, y, p3, h3, h4, h5⟩
    · cases hx
      exact hg.parseIf hI1 hctx1 h3
    · have r2 := reach_resolveID h3
      have hI2 : p2.m_types = types := (reach_types r2).trans hI1
      have hctx2 := hctx1.after (sameScope_resolveID h3) r2
      have hleaf : OwnedNode types p2.heap ctx true ast := by
        rcases resolveID_ok h3 with ⟨ref, hget, rfl, hpq⟩ | ⟨_, _, _, _, _, rfl, _⟩
        · have hl : p1.m_scope.table.lookup id.name = some (.FunctionArgument ref) := by
            unfold Parser.scopeGet at hget
            split at hget
            · rename_i b hb
              rw [hb]
              exact hget
            · simp at hget
          rw [hpq]
          exact hctx1 _ (mem_of_lookup hl) ref rfl
        · trivial
      have hpend : Within (OwnedNode types p2.heap) ctx true ast :=
        .ofLeaf hleaf (resolveID_leaf h3).1
      rcases h5 with ⟨_, rfl, _⟩ | ⟨node, rfl, h6⟩
      · cases hx
      · obtain ⟨rfl, rfl, _⟩ := checkFinal_ok h6
        cases hx
        exact (hg.parseIDLoop hI2 hctx2 hpend h4 a rfl).flag false
  parseIDLoop := by
    intro ast p x q ctx hI hctx hpend h a hx
    rcases parseIDLoopBody_ok h with ⟨_, h1, rfl⟩ | ⟨_, call, p1, h1, h2⟩ |
      ⟨_, callee, arguments, loc, typeInfo, fn, p1, rfl, h1, h2⟩ | ⟨_, _, _, rfl, rfl⟩
    · cases hx
    · have r1 := hr.parseCall h1
      have hI1 : p1.m_types = types := (reach_types r1).trans hI
      have hctx1 := hctx.after (hb.parseCall h1) r1
      exact hg.parseIDLoop hI1 hctx1 (hg.parseCall hI hctx hpend h1) h2 a hx
    · have r1 := hr.parseFunction h1
      have hI1 : p1.m_types = types := (reach_types r1).trans hI
      have hctx1 := hctx.after (hb.parseFunction h1) r1
      exact hg.parseIDLoop hI1 hctx1 (hg.parseFunction hI hctx h1) h2 a hx
    · cases hx
      exact hpend
  parseFunction := by
    intro callee arguments p ast q ctx hI hctx h
    obtain ⟨name, typeInfo, fnArgs, p1, p2, body, p3, rbrace, p4, rfl, hl, h1, h2, h3, h4, h5,
      rfl⟩ := parseFunctionBody_ok h
    have r1 : Reach p p1 :=
      (reach_enterFunction p name.name).trans (reach_declareArguments h1)
    have r2 : Reach p p2 := r1.trans (reach_ensure h2)
    have r3q : Reach p3 q := (reach_tokenOf h4).trans (Reach.step (.scopeRestore _ _ h5))
    have hI2 : p2.m_types = types := (reach_types r2).trans hI
    have hctx1 : Bound p1 (some (fnArgs, typeInfo)) := declareArguments_bound h1 rfl
    have hctx2 : Bound p2 (some (fnArgs, typeInfo)) := by
      obtain ⟨_, rfl⟩ := ensure_ok h2
      exact hctx1
    have hbody := hg.parseBlockLoop hI2 hctx2 (by simp) h3
    refine .node _ _ _ trivial ?_
    intro c1 a hmem
    simp only [AST.children, List.mem_cons, Prod.mk.injEq, mem_blockChildren] at hmem
    rcases hmem with ⟨rfl, rfl⟩ | ⟨rfl, ha⟩
    · exact .ofLeaf trivial rfl
    · exact (hbody a ha).afterReach r3q
  parseCallLoop := by
    intro arguments callTypes p r ctx hI hctx hargs h a ha
    rcases parseCallLoopBody_ok h with ⟨_, rfl⟩ | ⟨_, argument, p1, p2, h1, h2, h3⟩
    · exact hargs a ha
    · have r1 := hr.parseFactor h1
      have hI1 : p1.m_types = types := (reach_types r1).trans hI
      have hctx1 := hctx.after (hb.parseFactor h1) r1
      have r12 : Reach p1 p2 := by
        rcases h2 with ⟨_, h2⟩ | ⟨_, rfl⟩
        · exact reach_ensure h2
        · exact .refl
      have s12 : SameScope p1 p2 := by
        rcases h2 with ⟨_, h2⟩ | ⟨_, rfl⟩
        · exact sameScope_ensure h2
        · exact .same _
      have hI2 : p2.m_types = types := (reach_types r12).trans hI1
      have hctx2 := hctx1.after s12 r12
      refine hg.parseCallLoop hI2 hctx2 ?_ h3 a ha
      intro b hb1
      simp only [List.mem_append, List.mem_singleton] at hb1
      rcases hb1 with hb1 | rfl
      · exact (hargs b hb1).afterReach (r1.trans r12)
      · exact (hg.parseFactor hI hctx h1 b rfl).afterReach r12
  parseCall := by
    intro callee p ast q ctx hI hctx hcallee h
    obtain ⟨p1, arguments, callTypes, p2, rparen, h1, h2, h3, rfl⟩ := parseCallBody_ok h
    have r0 := reach_ensure h1
    have r1 : Reach p { p1 with nextAddr := p1.nextAddr + 1 } :=
      r0.trans (Reach.step (.alloc _))
    have hI1 : ({ p1 with nextAddr := p1.nextAddr + 1 } : Parser).m_types = types :=
      (reach_types r1).trans hI
    have hctx0 := hctx.after (sameScope_ensure h1) r0
    have hctx1 : Bound { p1 with nextAddr := p1.nextAddr + 1 } ctx := hctx0
    have hargs := hg.parseCallLoop hI1 hctx1 (by simp) h2
    refine .node _ _ _ trivial ?_
    intro c1 a hmem
    simp only [AST.children, List.mem_cons, Prod.mk.injEq, List.mem_map] at hmem
    rcases hmem with ⟨rfl, rfl⟩ | ⟨b, hb1, rfl, rfl⟩
    · exact hcallee.afterReach ((r1.trans (hr.parseCallLoop h2)).trans (reach_tokenOf h3))
    · exact (hargs _ hb1).afterReach (reach_tokenOf h3)

/-- Every level of the grammar builds trees whose leaves refer to the
parameters in scope. -/
theorem grammar_owned (types : List (String × TypePtr)) : ∀ fuel, (grammar fuel).Owned types
  | 0 => owned_step reaches_bottom balanced_bottom (owned_bottom types)
  | fuel + 1 => owned_step (grammar_reaches fuel) (grammar_balanced fuel) (grammar_owned types fuel)

/-- A tree whose accepted calls have literals and argument pointers as
arguments and whose leaves refer to the parameters in scope: the arguments of
its accepted calls are of the three kinds. -/
theorem Within.accepted {types : List (String × TypePtr)} {heap : List FunctionArgument}
    {ctx : Enclosing} {c : Bool} {ast : AST}
    (h : Within (OwnedNode types heap) ctx c ast) (ha : Forall AcceptedArguments c ast) :
    Within (AcceptedOwn types heap) ctx c ast := by
  induction h with
  | node ctx c ast here below ih =>
    refine .node ctx c ast ?_ (fun c1 a hmem => ih c1 a hmem (ha.below_of c1 a hmem))
    cases c with
    | true => cases ast <;> trivial
    | false =>
      cases ast with
      | Call callee arguments loc typeInfo =>
        cases callee with
        | ID id =>
          intro a hmem
          have hlit : IsLiteralOrArgument a := ha.here_of a hmem
          have hown : OwnedNode types heap ctx false a :=
            (below false a (by simp [AST.children, hmem])).atNode
          cases a <;> first | exact hown | exact hlit.elim
        | _ => trivial
      | _ => trivial

/-- The calls `typeCheck` has accepted in the tree of a program have only
literals and argument pointers as arguments. -/
theorem parse_accepted {fuel : Nat} {tokens : List Token} {prog : Program} {q : Parser}
    (h : parse fuel (Parser.init tokens) = .ok (prog, q)) :
    ∀ n, some n ∈ prog.body.nodes → Forall AcceptedArguments false n := by
  intro n hn
  unfold parse parseBlock at h
  simp only at h
  split at h
  · simp at h
  · rename_i body p1 h1
    simp only [Except.ok.injEq, Prod.mk.injEq] at h
    obtain ⟨rfl, rfl⟩ := h
    have ht := ((grammar_typed 6 fuel).parseBlockLoop (typesOK_seed tokens) (by simp) h1).2
      n hn
    refine Forall.imp ?_ ht
    intro c a hca
    cases c with
    | true => cases a <;> trivial
    | false =>
      cases a with
      | Call callee arguments loc typeInfo =>
        cases callee with
        | ID id => exact hca.2.2 rfl id rfl
        | _ => trivial
      | _ => trivial

/-- The leaves of the tree of a program refer to the parameters in scope. -/
theorem parse_owned {fuel : Nat} {tokens : List Token} {prog : Program} {q : Parser}
    (h : parse fuel (Parser.init tokens) = .ok (prog, q)) :
    ∀ n, some n ∈ prog.body.nodes →
      Within (OwnedNode (seededTypes 0) q.heap) none false n := by
  intro n hn
  unfold parse parseBlock at h
  simp only at h
  split at h
  · simp at h
  · rename_i body p1 h1
    simp only [Except.ok.injEq, Prod.mk.injEq] at h
    obtain ⟨rfl, rfl⟩ := h
    refine (grammar_owned (seededTypes 0) fuel).parseBlockLoop ?_ ?_ (by simp) h1 n hn
    · simp [Parser.seedTypes, Parser.init]
    · intro e he
      simp [Parser.seedTypes, Parser.init, Scope.empty] at he

/-! ## Claims -/

/-- C1: for a call whose callee is an identifier, `typeCheck` returns without
error if and only if a chain is registered for the callee's name, the number
of arguments is the chain's length minus one, at every argument position the
recorded argument type is the same pointer as the chain's type there, and the
call has fewer than `2 ^ 32` arguments (the two hypotheses say that the vector
sizes fit the 64-bit unsigned arithmetic of `size() - 1`); the right-hand side
never mentions the chain's last type.  The three conditions of the claim are
not enough: the call of `f` with `2 ^ 32` arguments of type `Int` meets them
for a chain of `2 ^ 32 + 1` types `Int`, and on it the 32-bit counter of the
loop wraps before it reaches the 64-bit bound, so that `typeCheck` never
returns. -/
theorem typeCheck_counter_wraps :
    (∀ (m_typeInfo : List (String × TypeChain)) (id : IDNode) (arguments : List AST)
        (callTypes : TypeChain),
      arguments.length + 1 < 2 ^ 64 →
      (∀ sig, m_typeInfo.lookup id.name = some sig → sig.types.length < 2 ^ 64) →
      (typeCheck m_typeInfo (.ID id) arguments callTypes = .ok () ↔
        ∃ sig, m_typeInfo.lookup id.name = some sig ∧
          arguments.length + 1 = sig.types.length ∧
          (∀ i, i < arguments.length → callTypes.types[i]? = sig.types[i]?) ∧
          arguments.length < 2 ^ 32)) ∧
    ([("f", wideSignature)].lookup "f" = some wideSignature ∧
      wideArguments.length + 1 = wideSignature.types.length ∧
      (∀ i, i < wideArguments.length → wideTypes.types[i]? = wideSignature.types[i]?) ∧
      wideArguments.length + 1 < 2 ^ 64 ∧ wideSignature.types.length < 2 ^ 64 ∧
      typeCheck [("f", wideSignature)] (.ID ⟨"f", 0, Loc.unset⟩) wideArguments wideTypes
        = .error .CounterWrapped) := by
  have hargs : wideArguments.length = 2 ^ 32 := List.length_replicate _ _
  have hsig : wideSignature.types.length = 2 ^ 32 + 1 := List.length_replicate _ _
  have hlook : [("f", wideSignature)].lookup "f" = some wideSignature := by
    simp [List.lookup]
  refine ⟨?_, hlook, ?_, ?_, ?_, ?_, ?_⟩
  · intro m_typeInfo id arguments callTypes hargs hsig
    rw [typeCheck_ID_ok_iff m_typeInfo id arguments callTypes hargs hsig]
    constructor
    · rintro ⟨sig, h1, h2, h3, h4, h5⟩
      exact ⟨sig, h1, by omega, h5, h4⟩
    · rintro ⟨sig, h1, h2, h5, h4⟩
      exact ⟨sig, h1, by omega, by omega, h4, h5⟩
  · rw [hargs, hsig]
  · intro i hi
    rw [hargs] at hi
    show (List.replicate (2 ^ 32) (some 0))[i]? = (List.replicate (2 ^ 32 + 1) (some 0))[i]?
    rw [List.getElem?_replicate, List.getElem?_replicate, if_pos hi, if_pos (by omega)]
  · rw [hargs]
    decide
  · rw [hsig]
    decide
  · refine (typeCheck_error_order [("f", wideSignature)] ⟨"f", 0, Loc.unset⟩ wideArguments
      wideTypes).2.2.2 wideSignature hlook ?_ ?_ ?_
    · rw [hargs, hsig]
      decide
    · rw [hargs]
    · intro j hj
      refine ⟨some 0, ?_, ?_⟩
      · show (List.replicate (2 ^ 32 + 1) (some 0))[j]? = _
        rw [List.getElem?_replicate, if_pos (by omega)]
      · show (List.replicate (2 ^ 32) (some 0))[j]? = _
        rw [List.getElem?_replicate, if_pos hj]

/-- C1 at `double(5)` with `double : Int -> Int` registered. -/
theorem typeCheck_counter_wraps_witness :
    typeCheck [("double", ⟨6, [some 0, some 0]⟩)] (.ID ⟨"double", 0, Loc.unset⟩)
      [.Number 5 Loc.unset (some 0)] ⟨7, [some 0]⟩ = .ok () :=
  (typeCheck_counter_wraps.1 [("double", ⟨6, [some 0, some 0]⟩)] ⟨"double", 0, Loc.unset⟩
    [.Number 5 Loc.unset (some 0)] ⟨7, [some 0]⟩ (by decide)
    (by
      intro sig h
      have h2 : sig = ⟨6, [some 0, some 0]⟩ := by simpa [List.lookup] using h.symm
      subst h2
      decide)).2
    ⟨⟨6, [some 0, some 0]⟩, by simp [List.lookup], rfl, by
      intro i hi
      have h0 : i = 0 := by simpa using hi
      subst h0
      rfl, by decide⟩

/-- C2: the errors of `typeCheck` on the examples of the specification, and on
`double(y)` with an identifier argument.  `Int` is the type at address 0 and
`String` the one at address 5.  The last parse does not end in a
`TypeMismatch` that names the two types: the argument `y` has no type, and
building the message dereferences its null type pointer. -/
theorem typeCheck_errors_on_examples :
    outcome (parse 20 (Parser.init
      [.id "double", .punct .L_PAREN, .number 1, .punct .R_PAREN, .punct .END]))
      = .error (.MissingTypeInformation "double") ∧
    outcome (parse 20 (Parser.init (declDouble ++
      [.id "double", .punct .L_PAREN, .number 5, .punct .COMMA, .number 6, .punct .R_PAREN,
       .punct .END]))) = .error .ArityMismatch ∧
    outcome (parse 20 (Parser.init (declDouble ++
      [.id "double", .punct .L_PAREN, .string "s", .punct .R_PAREN, .punct .END])))
      = .error (.TypeMismatch 0 5) ∧
    outcome (parse 20 (Parser.init (declDouble ++
      [.id "double", .punct .L_PAREN, .id "y", .punct .R_PAREN, .punct .END])))
      = .error .NullPointer :=
  ⟨rfl, rfl, rfl, rfl⟩

/-- C3, counterexample: `f(1)(2)` is accepted although no signature is
registered for `f`: the inner call `f(1)`, whose callee is the identifier `f`,
is in the tree and was never type-checked. -/
theorem unchecked_callee_call :
    ∃ p, parse 20 (Parser.init
        [.id "f", .punct .L_PAREN, .number 1, .punct .R_PAREN, .punct .L_PAREN, .number 2,
         .punct .R_PAREN, .punct .END])
      = .ok (⟨["f"],
          ⟨[some (.Call
              (.Call (.ID ⟨"f", 0, Loc.unset⟩) [.Number 1 Loc.unset (some 0)] Loc.unset
                ⟨6, [some 0]⟩)
              [.Number 2 Loc.unset (some 0)] Loc.unset ⟨7, [some 0]⟩)], false, false⟩,
          Loc.unset⟩, p) ∧
      p.m_typeInfo.lookup "f" = none :=
  ⟨_, rfl, rfl⟩

/-- C4: after `f : Int -> Int -> Int` the definition `f(a) { a }` is accepted
and yields a `Function` with one argument and a signature of three types. -/
theorem function_arity_unchecked :
    outcome (parse 20 (Parser.init
      [.id "f", .punct .TYPE, .id "Int", .punct .ARROW, .id "Int", .punct .ARROW, .id "Int",
       .id "f", .punct .L_PAREN, .id "a", .punct .R_PAREN, .punct .L_BRACE, .id "a",
       .punct .R_BRACE, .punct .END]))
      = .ok ⟨["f", "Int", "a"],
          ⟨[some (.Function ⟨"f", 0, Loc.unset⟩ [0]
              ⟨[some (.FunctionArgument 0)], false, false⟩ Loc.unset
              ⟨6, [some 0, some 0, some 0]⟩)], false, false⟩,
          Loc.unset⟩ :=
  rfl

/-- C5: after `f : Int` the definition `f(a) { a }` is accepted; the signature
has the single type `Int` at address 0, which is its return type, and the
argument `a` at index 0 gets that type, although 0 is not a parameter position
of the signature. -/
theorem argument_typed_by_return_type :
    ∃ p, parse 20 (Parser.init
        [.id "f", .punct .TYPE, .id "Int", .id "f", .punct .L_PAREN, .id "a", .punct .R_PAREN,
         .punct .L_BRACE, .id "a", .punct .R_BRACE, .punct .END])
      = .ok (⟨["f", "Int", "a"],
          ⟨[some (.Function ⟨"f", 0, Loc.unset⟩ [0]
              ⟨[some (.FunctionArgument 0)], false, false⟩ Loc.unset ⟨6, [some 0]⟩)],
            false, false⟩,
          Loc.unset⟩, p) ∧
      p.heap = [⟨"a", 0, some 0, false⟩] ∧ ¬ (0 < [some 0].length - 1) :=
  ⟨_, rfl, rfl, by decide⟩

/-- C8, counterexample: with `double : Int -> Int` declared, the call
`double(1,)` with a trailing comma is accepted and is the call `double(1)`. -/
theorem trailing_comma_accepted :
    outcome (parse 20 (Parser.init (declDouble ++
      [.id "double", .punct .L_PAREN, .number 1, .punct .COMMA, .punct .R_PAREN, .punct .END])))
      = .ok ⟨["double", "Int"],
          ⟨[some (.Call (.ID ⟨"double", 0, Loc.unset⟩) [.Number 1 Loc.unset (some 0)]
              Loc.unset ⟨7, [some 0]⟩)], false, false⟩,
          Loc.unset⟩ :=
  rfl

/-- C3, amended: in the tree of every successful parse, every call that is
not itself the callee of a further call has passed `typeCheck` against the
signature table as it was at some point of the parse (a suffix of the final
table, which is only ever extended at the front).  By `typeCheck_ID_ok_iff`
such a call with an identifier callee had, at that point, a registered
signature, as many arguments as the signature length minus one, and argument
types identical to the signature's positional types. -/
theorem final_calls_checked (fuel : Nat) (p q : Parser) (prog : Program)
    (h : parse fuel p = .ok (prog, q)) :
    ∀ a, some a ∈ prog.body.nodes → Forall (Checked q.m_typeInfo) false a :=
  (parse_trees checked_sound trivial h).2.2.2

/-- C3 at `double : Int -> Int`, `double(x) { x }`, `double(5)`. -/
theorem final_calls_checked_witness :
    ∃ prog q, parse 20 (Parser.init (declDouble ++ defDouble ++
        [.id "double", .punct .L_PAREN, .number 5, .punct .R_PAREN, .punct .END]))
        = .ok (prog, q) ∧
      ∀ a, some a ∈ prog.body.nodes → Forall (Checked q.m_typeInfo) false a := by
  have h : ∃ r, parse 20 (Parser.init (declDouble ++ defDouble ++
      [.id "double", .punct .L_PAREN, .number 5, .punct .R_PAREN, .punct .END])) = .ok r :=
    ⟨_, rfl⟩
  obtain ⟨⟨prog, q⟩, h⟩ := h
  exact ⟨prog, q, h, final_calls_checked 20 _ q prog h⟩

/-- C6, counterexample: in `f : Int`, `f() { g() { } }` the chain of `f` is
registered when the definition of `f` is parsed, and `parseFunction` for `f`
fails with `MissingTypeInformation` all the same: the error is raised for the
unregistered `g` defined in the body.  The state `innerState` is the one in
which `parseID` calls `parseFunction` for `f`. -/
theorem registered_function_fails :
    outcome (parse 20 (Parser.init unregisteredInner))
      = .error (.MissingTypeInformation "g") ∧
    (∃ s1 s2 s3,
      parseFactor 20 (Parser.init unregisteredInner).seedTypes = .ok (none, s1) ∧
      s1.tokenOf .ID = .ok (Token.id "f", s2) ∧
      resolveID (Token.id "f") s2 = .ok (.ID ⟨"f", 0, Loc.unset⟩, s3) ∧
      parseCall 20 (.ID ⟨"f", 0, Loc.unset⟩) s3
        = .ok (.Call (.ID ⟨"f", 0, Loc.unset⟩) [] Loc.unset ⟨7, []⟩, innerState)) ∧
    innerState.m_typeInfo.lookup "f" = some ⟨6, [some 0]⟩ ∧
    parseFunction 20 (.ID ⟨"f", 0, Loc.unset⟩) [] innerState
      = .error (.MissingTypeInformation "g") :=
  ⟨rfl, ⟨_, _, _, rfl, rfl, rfl, rfl⟩, rfl, rfl⟩

/-- C6, amended: if no chain is registered for the name when the definition
is parsed, `parseFunction` fails with `MissingTypeInformation` at its own
check, whatever follows; if a chain is registered, it fails with
`MissingTypeInformation` exactly when the arguments of the head are declared,
the opening brace is read and parsing the statements of the body fails with
that error; when it succeeds the `Function` node carries the chain registered
at that point; and in the tree of a successful parse every `Function` node
carries the chain that was registered for its name in the signature table as
it was at some point of the parse (a suffix of the final table). -/
theorem function_checks_own_signature :
    (∀ (fuel : Nat) (name : IDNode) (arguments : List AST) (p : Parser),
      p.m_typeInfo.lookup name.name = none →
        parseFunction fuel (.ID name) arguments p
          = .error (.MissingTypeInformation name.name)) ∧
    (∀ (fuel : Nat) (name : IDNode) (arguments : List AST) (p : Parser) (typeInfo : TypeChain)
        (n : String), p.m_typeInfo.lookup name.name = some typeInfo →
      (parseFunction (fuel + 1) (.ID name) arguments p = .error (.MissingTypeInformation n) ↔
        ∃ fnArgs p1 p2,
          declareArguments typeInfo arguments 0 [] (p.enterFunction name.name)
            = .ok (fnArgs, p1) ∧
          p1.ensure .L_BRACE = .ok p2 ∧
          parseBlockLoop fuel .R_BRACE [] p2 = .error (.MissingTypeInformation n))) ∧
    (∀ (fuel : Nat) (name : IDNode) (arguments : List AST) (p q : Parser) (ast : AST),
      parseFunction fuel (.ID name) arguments p = .ok (ast, q) →
        ∃ typeInfo fnArgs body loc, p.m_typeInfo.lookup name.name = some typeInfo ∧
          ast = .Function name fnArgs body loc typeInfo) ∧
    (∀ (fuel : Nat) (p q : Parser) (prog : Program), parse fuel p = .ok (prog, q) →
      ∀ a, some a ∈ prog.body.nodes → Forall (fun _ n => Registered q.m_typeInfo n) false a) := by
  refine ⟨?_, ?_, ?_, ?_⟩
  · intro fuel name arguments p hl
    obtain ⟨g, hg⟩ := grammar_eq_step fuel
    show (grammar fuel).parseFunction _ _ _ = _
    rw [hg]
    show parseFunctionBody g (.ID name) arguments p = _
    unfold parseFunctionBody
    simp only [hl]
  · intro fuel name arguments p typeInfo n hl
    exact parseFunctionBody_missing (grammar fuel) name arguments p typeInfo n hl
  · intro fuel name arguments p q ast h
    obtain ⟨g, hg⟩ := grammar_eq_step fuel
    change (grammar fuel).parseFunction _ _ _ = _ at h
    rw [hg] at h
    have h2 : parseFunctionBody g (.ID name) arguments p = .ok (ast, q) := h
    obtain ⟨name1, typeInfo, fnArgs, p1, p2, body, p3, rbrace, p4, hn, hl, _, _, _, _, _, rfl⟩ :=
      parseFunctionBody_ok h2
    cases hn
    exact ⟨typeInfo, fnArgs, body, _, hl, rfl⟩
  · intro fuel p q prog h
    exact (parse_trees registered_sound trivial h).2.2.2

/-- C6 at `double : Int -> Int`, `double(x) { x }`. -/
theorem function_checks_own_signature_witness :
    ∃ prog q, parse 20 (Parser.init (declDouble ++ defDouble ++ [.punct .END])) = .ok (prog, q) ∧
      ∀ a, some a ∈ prog.body.nodes →
        Forall (fun _ n => Registered q.m_typeInfo n) false a := by
  have h : ∃ r, parse 20 (Parser.init (declDouble ++ defDouble ++ [.punct .END])) = .ok r :=
    ⟨_, rfl⟩
  obtain ⟨⟨prog, q⟩, h⟩ := h
  exact ⟨prog, q, h, function_checks_own_signature.2.2.2 20 _ q prog h⟩

/-- C8, amended: `parseCall` accepts one trailing comma.  If an argument is
followed by a comma and the closing parenthesis, the argument loop ends with
that argument as the last one, as it does without the comma; a comma where an
argument is expected (right after the opening parenthesis or after another
comma) makes parsing fail; and so does an argument that is followed by
something other than a comma or the closing parenthesis. -/
theorem trailing_comma_rule (fuel : Nat) (arguments : List AST) (types : List (Option TypePtr))
    (p : Parser) :
    (∀ (argument : AST) (p1 : Parser), parseFactor fuel p = .ok (some argument, p1) →
      p1.token.type = .COMMA → p1.advance.token.type = .R_PAREN →
        parseCallLoop (fuel + 1) arguments types p
          = .ok (arguments ++ [argument], types ++ [p1.typeInfoOf argument], p1.advance)) ∧
    (p.token.type = .COMMA →
      parseCallLoop (fuel + 1) arguments types p = .error .UnexpectedToken) ∧
    (∀ (argument : AST) (p1 : Parser), parseFactor fuel p = .ok (some argument, p1) →
      p1.token.type ≠ .COMMA → p1.token.type ≠ .R_PAREN →
        parseCallLoop (fuel + 1) arguments types p = .error .UnexpectedToken) := by
  refine ⟨?_, ?_, ?_⟩
  · intro argument p1 h hc hr
    have ht : p.token.type ≠ .R_PAREN := by
      rcases parseFactor_token h with h1 | h1 | h1 <;> simp [h1]
    have h2 : (grammar fuel).parseFactor p = .ok (some argument, p1) := h
    have h3 := parseCallLoop_rparen fuel (arguments ++ [argument])
      (types ++ [p1.typeInfoOf argument]) p1.advance hr
    change (grammar fuel).parseCallLoop _ _ _ = _ at h3
    show parseCallLoopBody (grammar fuel) arguments types p = _
    unfold parseCallLoopBody
    simp [ht, h2, hc, Parser.ensure, h3]
  · intro hc
    have h2 : (grammar fuel).parseFactor p = .error .UnexpectedToken :=
      parseFactor_unexpected fuel p (by simp [hc]) (by simp [hc]) (by simp [hc])
    show parseCallLoopBody (grammar fuel) arguments types p = _
    unfold parseCallLoopBody
    simp [hc, h2]
  · intro argument p1 h hc hr
    have ht : p.token.type ≠ .R_PAREN := by
      rcases parseFactor_token h with h1 | h1 | h1 <;> simp [h1]
    have h2 : (grammar fuel).parseFactor p = .ok (some argument, p1) := h
    show parseCallLoopBody (grammar fuel) arguments types p = _
    unfold parseCallLoopBody
    simp [ht, h2, hc, hr, Parser.ensure]

/-- C8 at the argument list `1,)`. -/
theorem trailing_comma_rule_witness :
    parseCallLoop 1 [] []
        (Parser.init [.number 1, .punct .COMMA, .punct .R_PAREN, .punct .END])
      = .ok ([.Number 1 Loc.unset none], [none],
          Parser.init [.punct .R_PAREN, .punct .END]) :=
  (trailing_comma_rule 0 [] []
    (Parser.init [.number 1, .punct .COMMA, .punct .R_PAREN, .punct .END])).1
    (.Number 1 Loc.unset none) (Parser.init [.punct .COMMA, .punct .R_PAREN, .punct .END])
    rfl rfl rfl

/-- C9, counterexample: in `x : if` the type name `if` is not a registered
name, yet the parse fails with `UnexpectedToken`, not `UndefinedType`, because
`parseID` takes `if` for the keyword. -/
theorem declaration_needs_plain_names :
    outcome (parse 20 (Parser.init [.id "x", .punct .TYPE, .id "if", .punct .END]))
      = .error .UnexpectedToken :=
  rfl

/-- C9, amended: let the registry be seeded at address `a`, and let `n` and
`T1 .. Tk` (k > 0) be identifiers other than the keyword `if` and other than
the arguments bound in the current scope.  Parsing the factor
`n : T1 -> ... -> Tk`, every arrow a token of its own and the whole followed
by a token that ends the declaration, with enough fuel: if every `Ti` is one
of the seeded names, it yields no node, consumes the declaration and leaves a
signature table that maps `n` to the chain `[h(T1), ..., h(Tk)]` in that
order, whatever was registered for `n` before, and maps every other name as
before; if some `Ti` is not a registered name, it fails with `UndefinedType`.
Here `h = handle a` gives every seeded name a handle, and different names
different handles.  The declaration is `n`, `colon` and `chainTokens t more`;
its type names are `typeNames t more`. -/
theorem declaration_registers_chain (a : Nat) (p : Parser) (n colon t : Token)
    (more : List (Token × Token)) (rest : List Token) (fuel : Nat)
    (hreg : p.m_types = seededTypes a) (hstr : p.str_uid = p.strings.length)
    (hn : n.type = .ID ∧ PlainName p.m_scope.table n.name) (hcolon : colon.type = .TYPE)
    (harrows : ∀ x ∈ more, x.1.type = .ARROW)
    (hts : ∀ x ∈ typeNames t more, x.type = .ID ∧ PlainName p.m_scope.table x.name)
    (htok : p.tokens = n :: colon :: (chainTokens t more ++ rest))
    (hrest : (rest.headD Token.eof).EndsDeclaration) (hfuel : more.length + 6 ≤ fuel) :
    ((∀ x ∈ typeNames t more, x.name ∈ seededNames) →
      ∃ q, parseFactor fuel p = .ok (none, q) ∧ q.tokens = rest ∧
        q.m_typeInfo.lookup n.name
          = some ⟨p.nextAddr, (typeNames t more).map (fun x => handle a x.name)⟩ ∧
        ∀ m, m ≠ n.name → q.m_typeInfo.lookup m = p.m_typeInfo.lookup m) ∧
    ((∃ x ∈ typeNames t more, x.name ∉ seededNames) →
      parseFactor fuel p = .error .UndefinedType) ∧
    (∀ s ∈ seededNames, ∀ t ∈ seededNames,
      handle a s ≠ none ∧ (handle a s = handle a t → s = t)) := by
  obtain ⟨h1, h2⟩ := parseFactor_declaration_arrows (seededTypes a) p n colon t more rest fuel
    hreg hstr hn hcolon harrows hts htok hrest hfuel
  refine ⟨?_, ?_, handle_injective a⟩
  · intro hall
    obtain ⟨q, h3, h4, h5⟩ := h1 (fun t ht => (handle_ne_none_iff a t.name).2 (hall t ht))
    refine ⟨q, h3, h4, ?_, ?_⟩
    · rw [h5]
      simp [List.lookup, handle]
    · intro m hm
      rw [h5, List.lookup_cons]
      have : (m == n.name) = false := by simpa using hm
      rw [this]
  · rintro ⟨t, ht, hnot⟩
    apply h2
    refine ⟨t, ht, ?_⟩
    by_contra hc
    exact hnot ((handle_ne_none_iff a t.name).1 hc)

/-- C9 at `add : Int -> Int -> Int` followed by the end of the input, every
token with its own span, parsed by a fresh parser whose registry has just been
seeded. -/
theorem declaration_registers_chain_witness :
    ∃ q, parseFactor 8 (Parser.init declAdd).seedTypes = .ok (none, q) ∧
      q.tokens = [⟨.END, ⟨23, 23⟩, 0, ""⟩] ∧
      q.m_typeInfo.lookup "add"
        = some ⟨6, [handle 0 "Int", handle 0 "Int", handle 0 "Int"]⟩ ∧
      ∀ m, m ≠ "add" → q.m_typeInfo.lookup m = none :=
  (declaration_registers_chain 0 (Parser.init declAdd).seedTypes
    ⟨.ID, ⟨0, 3⟩, 0, "add"⟩ ⟨.TYPE, ⟨4, 5⟩, 0, ""⟩ ⟨.ID, ⟨6, 9⟩, 0, "Int"⟩
    [(⟨.ARROW, ⟨10, 12⟩, 0, ""⟩, ⟨.ID, ⟨13, 16⟩, 0, "Int"⟩),
     (⟨.ARROW, ⟨17, 19⟩, 0, ""⟩, ⟨.ID, ⟨20, 23⟩, 0, "Int"⟩)]
    [⟨.END, ⟨23, 23⟩, 0, ""⟩] 8
    rfl rfl ⟨rfl, by decide, fun ref h => by cases h⟩ rfl
    (by
      intro x hx
      simp only [List.mem_cons, List.mem_singleton, List.not_mem_nil, or_false] at hx
      rcases hx with rfl | rfl <;> rfl)
    (by
      intro x hx
      simp only [typeNames, List.map_cons, List.map_nil, List.mem_cons, List.mem_singleton,
        List.not_mem_nil, or_false] at hx
      rcases hx with rfl | rfl | rfl <;>
        exact ⟨rfl, by decide, fun ref h => by cases h⟩)
    rfl ⟨by decide, by decide, by decide, by decide⟩ (by decide)).1
    (by
      intro x hx
      simp only [typeNames, List.map_cons, List.map_nil, List.mem_cons, List.mem_singleton,
        List.not_mem_nil, or_false] at hx
      rcases hx with rfl | rfl | rfl <;> decide)

/-- C10: a type declaration produces no node.  The node list of a block is
the list of the non-null results of its factors, in order, after the nodes it
started with; a factor that starts with an identifier and the type-declaration
token yields no node whenever it succeeds; under the conditions of
`parseFactor_declaration` it does succeed; and the program
`double : Int -> Int` alone yields a top-level block with zero nodes. -/
theorem declaration_yields_no_node :
    (∀ (fuel : Nat) (delim : TokenType) (nodes : List (Option AST)) (p q : Parser)
      (b : Block AST), parseBlockLoop fuel delim nodes p = .ok (b, q) →
        ∃ xs, FactorRun delim p xs q ∧ b.nodes = nodes ++ xs.filter Option.isSome) ∧
    (∀ (fuel : Nat) (p q : Parser) (x : Option AST) (n colon : Token) (rest : List Token),
      p.tokens = n :: colon :: rest → n.type = .ID → colon.type = .TYPE →
        parseFactor fuel p = .ok (x, q) → x = none) ∧
    (∀ (registry : List (String × TypePtr)) (p : Parser) (n colon arrow : Token)
      (ts rest : List Token) (fuel : Nat), p.m_types = registry →
        p.str_uid = p.strings.length →
        n.type = .ID ∧ PlainName p.m_scope.table n.name → colon.type = .TYPE →
        arrow.type = .ARROW → (∀ t ∈ ts, t.type = .ID ∧ PlainName p.m_scope.table t.name) →
        ts ≠ [] → p.tokens = n :: colon :: (ts.intersperse arrow ++ rest) →
        (rest.headD Token.eof).EndsDeclaration → ts.length + 5 ≤ fuel →
        (∀ t ∈ ts, registry.lookup t.name ≠ none) →
          ∃ q, parseFactor fuel p = .ok (none, q) ∧ q.tokens = rest) ∧
    outcome (parse 20 (Parser.init (declDouble ++ [.punct .END])))
      = .ok ⟨["double", "Int"], ⟨[], false, false⟩, Loc.unset⟩ := by
  refine ⟨?_, ?_, ?_, rfl⟩
  · intro fuel delim nodes p q b h
    exact parseBlockLoop_factors fuel delim nodes p q b h
  · intro fuel p q x n colon rest htok hn hcolon h
    exact parseFactor_declaration_none htok hn hcolon h
  · intro registry p n colon arrow ts rest fuel hreg hstr hn hcolon harrow hts hne htok hrest
      hfuel hall
    obtain ⟨q, h1, h2, _⟩ := (parseFactor_declaration registry p n colon arrow ts rest fuel hreg
      hstr hn hcolon harrow hts hne htok hrest hfuel).1 hall
    exact ⟨q, h1, h2⟩

/-- C10 at the block `double : Int -> Int` followed by the end of the
input. -/
theorem declaration_yields_no_node_witness :
    ∃ b q, parseBlockLoop 20 .END [] (Parser.init (declDouble ++ [.punct .END])).seedTypes
        = .ok (b, q) ∧
      ∃ xs, FactorRun .END (Parser.init (declDouble ++ [.punct .END])).seedTypes xs q ∧
        b.nodes = [] ++ xs.filter Option.isSome := by
  have h : ∃ r, parseBlockLoop 20 .END []
      (Parser.init (declDouble ++ [.punct .END])).seedTypes = .ok r := ⟨_, rfl⟩
  obtain ⟨⟨b, q⟩, h⟩ := h
  exact ⟨b, q, h, declaration_yields_no_node.1 20 .END [] _ q b h⟩


/-! ## Scopes and captures -/

/-- C12: the capture algorithm of `parseID` (lines 102-125).  When an
identifier is resolved whose name is not bound to an argument in the current
scope, then: if the nearest binding of the name exists, is not in the current
scope and is a `FunctionArgument`, afterwards that argument object has
`isCaptured = true`, the nearest scope that binds the name has
`isRequired = true` and the current scope has `capturesScope = true`, so that
the block being parsed in the current scope is closed with
`capturesScope = true`; in every other case the argument objects, the current
scope and all enclosing scopes are exactly as before. -/
theorem capture_algorithm (id : Token) (p q : Parser) (ast : AST)
    (h : resolveID id p = .ok (ast, q))
    (hnot : ∀ ref, p.scopeGet id.name false ≠ some (.FunctionArgument ref)) :
    (∀ ref k owner arg, p.scopeGet id.name true = some (.FunctionArgument ref) →
        p.isInCurrentScope id.name = false → Owns p.parents id.name k owner →
        p.heap[ref]? = some arg →
        q.heap[ref]? = some { arg with isCaptured := true } ∧
          q.parents[k]? = some { owner with isRequired := true } ∧
          q.m_scope.capturesScope = true ∧
          ∀ fuel delim nodes b q2, parseBlockLoop fuel delim nodes q = .ok (b, q2) →
            b.capturesScope = true) ∧
      ((¬ ∃ ref, p.scopeGet id.name true = some (.FunctionArgument ref) ∧
          p.isInCurrentScope id.name = false) →
        q.heap = p.heap ∧ q.m_scope = p.m_scope ∧ q.parents = p.parents) := by
  obtain ⟨h1, h2⟩ := resolveID_capture h hnot
  refine ⟨?_, h2⟩
  intro ref k owner arg hget hcur hown harg
  obtain ⟨c1, c2, c3⟩ := h1 ref hget hcur
  refine ⟨?_, (c3 k owner hown).1, by rw [c2], ?_⟩
  · rw [c1, List.getElem?_modify, harg]
    simp
  · intro fuel delim nodes b q2 hb
    exact (parseBlockLoop_raised hb).2 (by rw [c2])

/-- C12 in the body of `inner` of
`add : Int -> Int -> Int  inner : Int -> Int  add(a, b) { inner(x) { b } }`:
resolving `b` marks the argument `b`, the scope of `add` and the scope of
`inner`; and the whole program parses to a tree in which the body of `add`
has `needsScope` and the body of `inner` has `capturesScope`, with `b` the
only captured argument. -/
theorem capture_algorithm_witness :
    (∃ ast q, resolveID (Token.id "b") addState = .ok (ast, q) ∧
      q.heap[1]? = some ⟨"b", 1, some 0, true⟩ ∧
      q.parents[0]? = some ⟨[("b", .FunctionArgument 1), ("a", .FunctionArgument 0)],
        true, false⟩ ∧
      q.m_scope.capturesScope = true) ∧
    (parse 40 (Parser.init addExample)).map
        (fun r => (bodyFlags 3 (r.1.body.nodes.headD none), r.2.heap))
      = .ok ([("add", true, false), ("inner", false, true)],
          [⟨"a", 0, some 0, false⟩, ⟨"b", 1, some 0, true⟩, ⟨"x", 0, some 0, false⟩]) := by
  refine ⟨?_, rfl⟩
  have h : ∃ r, resolveID (Token.id "b") addState = .ok r := ⟨_, rfl⟩
  obtain ⟨⟨ast, q⟩, h⟩ := h
  have hnot : ∀ ref, addState.scopeGet (Token.id "b").name false
      ≠ some (.FunctionArgument ref) := by
    intro ref hc
    have e : addState.scopeGet (Token.id "b").name false = none := rfl
    rw [e] at hc
    cases hc
  have hown : Owns addState.parents (Token.id "b").name 0
      ⟨[("b", .FunctionArgument 1), ("a", .FunctionArgument 0)], false, false⟩ :=
    ⟨rfl, rfl, fun j s hj _ => absurd hj (Nat.not_lt_zero j)⟩
  obtain ⟨c1, c2, c3, _⟩ :=
    (capture_algorithm (Token.id "b") addState q ast h hnot).1 1 0 _ _ rfl rfl hown rfl
  exact ⟨ast, q, h, c1, c2, c3⟩

/-- C14: the top-level block of every program that `parse` returns has
`needsScope = false`, whatever the root scope's `isRequired` flag is. -/
theorem top_level_block_needs_no_scope (fuel : Nat) (p q : Parser) (prog : Program)
    (h : parse fuel p = .ok (prog, q)) : prog.body.needsScope = false := by
  unfold parse at h
  simp only at h
  split at h
  · simp at h
  · simp only [Except.ok.injEq, Prod.mk.injEq] at h
    rw [← h.1]

/-- C14 at the program of `addExample`, whose root scope is required because
it declares `add`. -/
theorem top_level_block_needs_no_scope_witness :
    ∃ prog q, parse 40 (Parser.init addExample) = .ok (prog, q) ∧
      q.m_scope.isRequired = true ∧ prog.body.needsScope = false := by
  have h : ∃ r, parse 40 (Parser.init addExample) = .ok r ∧ r.2.m_scope.isRequired = true :=
    ⟨_, rfl, rfl⟩
  obtain ⟨⟨prog, q⟩, h, hr⟩ := h
  exact ⟨prog, q, h, hr,
    top_level_block_needs_no_scope 40 (Parser.init addExample) q prog h⟩

/-- C17, divergence: `if (1) x : Int` is accepted and the then-body of its
`If` node holds an absent node; `if (x : Int) 1` is accepted and the
condition of its `If` node is absent.  The block loop itself drops the absent
node: `x : Int` at top level gives an empty block. -/
theorem if_stores_absent_node :
    outcome (parse 20 (Parser.init
        [.id "if", .punct .L_PAREN, .number 1, .punct .R_PAREN,
         .id "x", .punct .TYPE, .id "Int", .punct .END]))
      = .ok ⟨["x", "Int"],
          ⟨[some (.If (some (.Number 1 Loc.unset (some 0))) ⟨[none], false, false⟩ none)],
            false, false⟩, ⟨0, 0⟩⟩ ∧
    outcome (parse 20 (Parser.init
        [.id "if", .punct .L_PAREN, .id "x", .punct .TYPE, .id "Int", .punct .R_PAREN,
         .number 1, .punct .END]))
      = .ok ⟨["x", "Int"],
          ⟨[some (.If none ⟨[some (.Number 1 Loc.unset (some 0))], false, false⟩ none)],
            false, false⟩, ⟨0, 0⟩⟩ ∧
    outcome (parse 20 (Parser.init [.id "x", .punct .TYPE, .id "Int", .punct .END]))
      = .ok ⟨["x", "Int"], ⟨[], false, false⟩, ⟨0, 0⟩⟩ :=
  ⟨rfl, rfl, rfl⟩

/-- C19: a capture marks only its two end points.  When `resolveID` resolves a
name whose nearest binding is an argument owned by the enclosing scope number
`k` (not the current scope), afterwards the current scope has
`capturesScope = true` and the owner has `isRequired = true`, and every other
enclosing scope, in particular each of the scopes between the two, is exactly
as before; the current scope's `isRequired` is unchanged too.  The block that
is being parsed in the current scope gets `capturesScope = true` when it is
closed, whatever follows in it. -/
theorem capture_marks_end_points (id : Token) (p q : Parser) (ast : AST) (ref k : Nat)
    (owner : Scope) (h : resolveID id p = .ok (ast, q))
    (hget : p.scopeGet id.name true = some (.FunctionArgument ref))
    (hcur : p.isInCurrentScope id.name = false) (hown : Owns p.parents id.name k owner) :
    q.m_scope.capturesScope = true ∧ q.m_scope.isRequired = p.m_scope.isRequired ∧
      q.parents[k]? = some { owner with isRequired := true } ∧
      (∀ j, j ≠ k → q.parents[j]? = p.parents[j]?) ∧
      ∀ fuel delim nodes b q2, parseBlockLoop fuel delim nodes q = .ok (b, q2) →
        b.capturesScope = true := by
  have hl : p.m_scope.table.lookup id.name = none := by
    have : (p.m_scope.table.lookup id.name).isSome = false := hcur
    simpa using this
  have hnot : ∀ r, p.scopeGet id.name false ≠ some (.FunctionArgument r) := by
    intro r hc
    simp [Parser.scopeGet, hl] at hc
  obtain ⟨c1, c2, c3⟩ := (resolveID_capture h hnot).1 ref hget hcur
  obtain ⟨c4, c5⟩ := c3 k owner hown
  refine ⟨by rw [c2], by rw [c2], c4, c5, ?_⟩
  intro fuel delim nodes b q2 hb
  exact (parseBlockLoop_raised hb).2 (by rw [c2])

/-- C19 in the body of `h` of
`f : Int -> Int  g : Int -> Int  h : Int -> Int  f(a) { g(x) { h(y) { a } } }`:
resolving `a` marks the scope of `h` as capturing and the scope of `f` as
required and leaves the scope of `g` as it was, and the body of `h` is closed
with `capturesScope`; and in the tree of the whole program the body of `h`
has `capturesScope`, the body of `f` has `needsScope` and the body of `g` has
`capturesScope = false`. -/
theorem capture_marks_end_points_witness :
    (∃ ast q, resolveID (Token.id "a") nestedState = .ok (ast, q) ∧
      q.m_scope.capturesScope = true ∧
      q.m_scope.isRequired = false ∧
      q.parents[1]? = some ⟨[("g", .Function), ("a", .FunctionArgument 0)], true, false⟩ ∧
      q.parents[0]? = some ⟨[("h", .Function), ("x", .FunctionArgument 1)], true, false⟩ ∧
      ∃ b q2, parseBlockLoop 0 .R_BRACE [some ast] q = .ok (b, q2) ∧
        b.capturesScope = true) ∧
    (parse 40 (Parser.init nestedExample)).map
        (fun r => bodyFlags 4 (r.1.body.nodes.headD none))
      = .ok [("f", true, false), ("g", true, false), ("h", false, true)] := by
  refine ⟨?_, rfl⟩
  have h : ∃ r, resolveID (Token.id "a") nestedState = .ok r ∧
      ∃ r2, parseBlockLoop 0 .R_BRACE [some r.1] r.2 = .ok r2 := ⟨_, rfl, _, rfl⟩
  obtain ⟨⟨ast, q⟩, h, ⟨b, q2⟩, hb⟩ := h
  have hown : Owns nestedState.parents (Token.id "a").name 1
      ⟨[("g", .Function), ("a", .FunctionArgument 0)], true, false⟩ := by
    refine ⟨rfl, rfl, ?_⟩
    intro j s hj hs
    have hj0 : j = 0 := by omega
    subst hj0
    have e : nestedState.parents[0]?
        = some ⟨[("h", .Function), ("x", .FunctionArgument 1)], true, false⟩ := rfl
    rw [e] at hs
    simp only [Option.some.injEq] at hs
    subst hs
    rfl
  obtain ⟨c1, c2, c3, c4, c5⟩ :=
    capture_marks_end_points (Token.id "a") nestedState q ast 0 1 _ h rfl rfl hown
  exact ⟨ast, q, h, c1, c2, c3, by rw [c4 0 (by decide)]; rfl, b, q2, hb, c5 _ _ _ _ _ hb⟩

/-! ## Literals -/

/-- C20, counterexample: the declaration `Int : Int` parses from an empty
string table and leaves the table `["Int"]`, not the name `Int` followed by
the distinct type names `["Int"]`: a type name equal to the declared name is
found in the table and is not added again. -/
theorem declared_name_not_repeated :
    outcome (parse 20 (Parser.init
        [Token.id "Int", Token.punct .TYPE, Token.id "Int", Token.punct .END]))
      = .ok ⟨["Int"], ⟨[], false, false⟩, ⟨0, 0⟩⟩ ∧
    ["Int"] ≠ "Int" :: firstSeen ([Token.id "Int"].map (fun t => t.name)) :=
  ⟨rfl, by decide⟩

/-- C20, amended: type names are interned like ordinary identifiers.  For
every successful parse of a program that consists of the declaration
`n : T1 -> ... -> Tk` (k > 0), every arrow a token of its own, the string
table of the program is the distinct names among `n, T1, ..., Tk` in
first-seen order: `n` first, then every type name that is neither `n` nor an
earlier type name.  The declaration is `n`, `colon` and `chainTokens t more`;
its type names are `typeNames t more`. -/
theorem type_names_interned (n colon t e : Token) (more : List (Token × Token))
    (rest : List Token) (fuel : Nat) (prog : Program) (q : Parser) (hn : n.type = .ID)
    (hcolon : colon.type = .TYPE) (harrows : ∀ x ∈ more, x.1.type = .ARROW)
    (he : e.type = .END)
    (h : parse fuel (Parser.init (n :: colon :: (chainTokens t more ++ e :: rest)))
      = .ok (prog, q)) :
    prog.strings = firstSeen (n.name :: (typeNames t more).map (fun x => x.name)) := by
  unfold parse parseBlock at h
  simp only at h
  split at h
  · simp at h
  · rename_i body p1 h1
    simp only [Except.ok.injEq, Prod.mk.injEq] at h
    obtain ⟨rfl, rfl⟩ := h
    show p1.strings = _
    have hrest : ((e :: rest).headD Token.eof).EndsDeclaration := by
      simp only [List.headD_cons, Token.EndsDeclaration, he]
      decide
    rcases (grammar_isLevel fuel).cases with hb | ⟨g, hg, hstep⟩
    · have h2 : Grammar.bottom.parseBlockLoop .END []
          { (Parser.init (n :: colon :: (chainTokens t more ++ e :: rest))).seedTypes with
            strings := [] } = .ok (body, p1) := by
        rw [← hb]
        exact h1
      simp [Grammar.bottom] at h2
    · have h2 : parseBlockLoopBody g .END []
          { (Parser.init (n :: colon :: (chainTokens t more ++ e :: rest))).seedTypes with
            strings := [] } = .ok (body, p1) := by
        have : (grammar fuel).parseBlockLoop = parseBlockLoopBody g := by rw [hstep]; rfl
        rw [← this]
        exact h1
      rcases parseBlockLoopBody_ok h2 with ⟨hd, _, _⟩ | ⟨_, x, p2, h3, h4⟩
      · have : n.type = .END := hd
        rw [hn] at this
        cases this
      · obtain ⟨s1, s2⟩ := parseFactor_declaration_strings_arrows hg h3 rfl hn hcolon harrows
          hrest rfl
        rcases hg.cases with rfl | ⟨g1, _, rfl⟩
        · simp [Grammar.bottom] at h4
        · have h5 : parseBlockLoopBody g1 .END (pushNode [] x) p2 = .ok (body, p1) := h4
          rcases parseBlockLoopBody_ok h5 with ⟨_, rfl, _⟩ | ⟨hd, _⟩
          · rw [s1]
            exact foldl_internText_nil _
          · rw [token_of_tokens s2] at hd
            exact absurd he hd

/-- C20 at `add : Int -> Int -> Int`, every token with its own span. -/
theorem type_names_interned_witness :
    ∃ prog q, parse 20 (Parser.init declAdd) = .ok (prog, q) ∧
      prog.strings = ["add", "Int"] := by
  have h : ∃ r, parse 20 (Parser.init declAdd) = .ok r := ⟨_, rfl⟩
  obtain ⟨⟨prog, q⟩, h⟩ := h
  exact ⟨prog, q, h, type_names_interned ⟨.ID, ⟨0, 3⟩, 0, "add"⟩ ⟨.TYPE, ⟨4, 5⟩, 0, ""⟩
    ⟨.ID, ⟨6, 9⟩, 0, "Int"⟩ ⟨.END, ⟨23, 23⟩, 0, ""⟩
    [(⟨.ARROW, ⟨10, 12⟩, 0, ""⟩, ⟨.ID, ⟨13, 16⟩, 0, "Int"⟩),
     (⟨.ARROW, ⟨17, 19⟩, 0, ""⟩, ⟨.ID, ⟨20, 23⟩, 0, "Int"⟩)]
    [] 20 prog q rfl rfl
    (by
      intro x hx
      simp only [List.mem_cons, List.mem_singleton, List.not_mem_nil, or_false] at hx
      rcases hx with rfl | rfl <;> rfl)
    rfl h⟩

/-! ## Scope balance -/

/-- C15: scope entry and exit are balanced.  After every successful
`parseFunction` the current scope is the scope that was current before: its
bindings are the old ones plus the function name, and the enclosing scopes
bind what they bound before, so the child scope with the parameters was
entered and left again.  Therefore after every successful `parseFactor` and
`parseBlock` the current scope is the one that was current before, with at
most function names added and no flag cleared; and after every successful
`parse` of a fresh
parser the current scope is the root scope, which has no enclosing scope, and
binds function names only, never a parameter. -/
theorem scopes_balanced (fuel : Nat) :
    (∀ callee arguments p ast q, parseFunction fuel callee arguments p = .ok (ast, q) →
      ∃ name, callee = .ID name ∧
        q.m_scope.table = (name.name, Binding.Function) :: p.m_scope.table ∧
        scopeTables q.parents = scopeTables p.parents) ∧
    (∀ p x q, parseFactor fuel p = .ok (x, q) → SameScope p q) ∧
    (∀ delim p b q, parseBlock fuel delim p = .ok (b, q) → SameScope p q) ∧
    (∀ tokens prog q, parse fuel (Parser.init tokens) = .ok (prog, q) →
      q.parents = [] ∧ ∀ b ∈ q.m_scope.table, b.2 = Binding.Function) := by
  refine ⟨?_, ?_, ?_, ?_⟩
  · intro callee arguments p ast q h
    rcases (grammar_isLevel fuel).cases with hb | ⟨g, hg, hstep⟩
    · have h2 : (grammar fuel).parseFunction callee arguments p = .ok (ast, q) := h
      rw [hb] at h2
      simp [Grammar.bottom] at h2
    · have h2 : (grammar fuel).parseFunction callee arguments p = .ok (ast, q) := h
      rw [hstep] at h2
      obtain ⟨name, e1, e2, e3, _⟩ := parseFunctionBody_scope (balanced_of_isLevel hg) h2
      exact ⟨name, e1, e2, scopeTables_raised e3⟩
  · intro p x q h
    exact (grammar_balanced fuel).parseFactor h
  · intro delim p b q h
    exact (grammar_balanced fuel).parseBlockLoop h
  · intro tokens prog q h
    unfold parse parseBlock at h
    simp only at h
    split at h
    · simp at h
    · rename_i body p1 h1
      simp only [Except.ok.injEq, Prod.mk.injEq] at h
      obtain ⟨_, rfl⟩ := h
      obtain ⟨e1, ⟨added, e2, e3⟩, _⟩ := (grammar_balanced fuel).parseBlockLoop h1
      constructor
      · have e0 : List.Forall₂ Scope.Raised [] p1.parents := e1
        exact List.forall₂_nil_left_iff.1 e0
      · intro b hb
        rw [e2] at hb
        have hnil : (Parser.init tokens).m_scope.table = [] := rfl
        simp only [Parser.seedTypes, hnil, List.append_nil] at hb
        exact e3 b hb

/-- C15 at the program of `addExample`: after the parse the root scope is
current again and binds only `add`. -/
theorem scopes_balanced_witness :
    ∃ prog q, parse 40 (Parser.init addExample) = .ok (prog, q) ∧
      q.m_scope.table = [("add", Binding.Function)] ∧
      q.parents = [] ∧ ∀ b ∈ q.m_scope.table, b.2 = Binding.Function := by
  have h : ∃ r, parse 40 (Parser.init addExample) = .ok r ∧
      r.2.m_scope.table = [("add", Binding.Function)] := ⟨_, rfl, rfl⟩
  obtain ⟨⟨prog, q⟩, h, ht⟩ := h
  exact ⟨prog, q, h, ht, (scopes_balanced 40).2.2.2 addExample prog q h⟩

/-! ## Progress and termination -/

/-- C11, counterexample: with the conditional `if (1) 2` as the factor `A`,
the unbraced form `if (0) if (1) 2 else 3` gives the `else` to the inner
conditional, so the outer `If` has no else-body and its then-body is not
`[A]`, while the braced form `if (0) { if (1) 2 } else { 3 }` has the
then-body `[A]` and the else-body `[3]`. -/
theorem dangling_else_binds_inner :
    outcome (parse 20 (Parser.init
        [.id "if", .punct .L_PAREN, .number 0, .punct .R_PAREN,
         .id "if", .punct .L_PAREN, .number 1, .punct .R_PAREN, .number 2,
         .id "else", .number 3, .punct .END]))
      = .ok ⟨[], ⟨[some (.If (some (numberNode 0))
          ⟨[some (.If (some (numberNode 1)) ⟨[some (numberNode 2)], false, false⟩
            (some ⟨[some (numberNode 3)], false, false⟩))], false, false⟩
          none)], false, false⟩, ⟨0, 0⟩⟩ ∧
    outcome (parse 20 (Parser.init
        [.id "if", .punct .L_PAREN, .number 0, .punct .R_PAREN, .punct .L_BRACE,
         .id "if", .punct .L_PAREN, .number 1, .punct .R_PAREN, .number 2, .punct .R_BRACE,
         .id "else", .punct .L_BRACE, .number 3, .punct .R_BRACE, .punct .END]))
      = .ok ⟨[], ⟨[some (.If (some (numberNode 0))
          ⟨[some (.If (some (numberNode 1)) ⟨[some (numberNode 2)], false, false⟩ none)],
            false, false⟩
          (some ⟨[some (numberNode 3)], false, false⟩))], false, false⟩, ⟨0, 0⟩⟩ :=
  ⟨rfl, rfl⟩

/-- C11, amended: let the condition parse to `c` and let the factors of the
two branches parse to the nodes `a` and `b` in the form at hand, the factor
of the then-branch ending right before the closing brace (braced form) or
right before the identifier `else` (unbraced form).  Then `parseIf` on the
braced form `(C) { A } else { B }` and on the unbraced form `(C) A else B`
returns an `If` node with the condition `c`, a then-body whose node list is
exactly `[a]` and an else-body whose node list is exactly `[b]`; the blocks
of the braced form carry the flags of the current scope, those of the
unbraced form have both flags clear.  When the token after the then-branch is
not the identifier `else`, the else-body is unset. -/
theorem if_forms (fuel : Nat) (c : Option AST) (a b : AST) :
    (∀ p p2 p5 p9 : Parser, p.token.type = .L_PAREN →
      parseFactor fuel p.advance = .ok (c, p2) → p2.token.type = .R_PAREN →
      p2.advance.token.type = .L_BRACE →
      parseFactor fuel p2.advance.advance = .ok (some a, p5) → p5.token.type = .R_BRACE →
      (p5.advance.token.type = .ID ∧ p5.advance.token.name = "else") →
      p5.advance.advance.token.type = .L_BRACE →
      parseFactor fuel p5.advance.advance.advance = .ok (some b, p9) →
      p9.token.type = .R_BRACE →
      parseIf (fuel + 3) p
        = .ok (.If c ⟨[some a], p5.m_scope.isRequired, p5.m_scope.capturesScope⟩
            (some ⟨[some b], p9.m_scope.isRequired, p9.m_scope.capturesScope⟩), p9.advance)) ∧
    (∀ p p2 p5 p9 : Parser, p.token.type = .L_PAREN →
      parseFactor fuel p.advance = .ok (c, p2) → p2.token.type = .R_PAREN →
      p2.advance.token.type ≠ .L_BRACE →
      parseFactor fuel p2.advance = .ok (some a, p5) →
      (p5.token.type = .ID ∧ p5.token.name = "else") →
      p5.advance.token.type ≠ .L_BRACE →
      parseFactor fuel p5.advance = .ok (some b, p9) →
      parseIf (fuel + 3) p
        = .ok (.If c ⟨[some a], false, false⟩ (some ⟨[some b], false, false⟩), p9)) ∧
    (∀ (p p2 p4 : Parser) (ifBody : Block AST), p.token.type = .L_PAREN →
      parseFactor fuel p.advance = .ok (c, p2) → p2.token.type = .R_PAREN →
      parseBranch fuel p2.advance = .ok (ifBody, p4) →
      ¬ (p4.token.type = .ID ∧ p4.token.name = "else") →
      parseIf (fuel + 1) p = .ok (.If c ifBody none, p4)) := by
  refine ⟨?_, ?_, ?_⟩
  · intro p p2 p5 p9 h1 h2 h3 h4 h5 h6 h7 h8 h9 h10
    have b1 := parseBranch_braced fuel p2.advance p5 a h4 h5 h6
    have b2 := parseBranch_braced fuel p5.advance.advance p9 b h8 h9 h10
    exact (parseIf_branches (fuel + 2) p p2 p5.advance c _ h1
      (parseFactor_mono (by omega) h2) h3 b1).1 _ _ h7 b2
  · intro p p2 p5 p9 h1 h2 h3 h4 h5 h7 h8 h9
    have b1 := parseBranch_mono (Nat.le_succ _) (parseBranch_unbraced fuel p2.advance p5 _ h4 h5)
    have b2 := parseBranch_mono (Nat.le_succ _) (parseBranch_unbraced fuel p5.advance p9 _ h8 h9)
    exact (parseIf_branches (fuel + 2) p p2 p5 c _ h1
      (parseFactor_mono (by omega) h2) h3 b1).1 _ _ h7 b2
  · intro p p2 p4 ifBody h1 h2 h3 h4 he
    exact (parseIf_branches fuel p p2 p4 c ifBody h1 h2 h3 h4).2 he

/-- C11 at `if (1) { 2 } else { 3 }` and `if (1) 2 else 3`: both give the
condition `1`, the then-body `[2]` and the else-body `[3]`, as results of
`parseIf` after the keyword and as whole programs. -/
theorem if_forms_witness :
    (∃ q, parseIf 3 (Parser.init ifBraced).seedTypes
      = .ok (.If (some (numberNode 1)) ⟨[some (numberNode 2)], false, false⟩
          (some ⟨[some (numberNode 3)], false, false⟩), q)) ∧
    (∃ q, parseIf 3 (Parser.init ifUnbraced).seedTypes
      = .ok (.If (some (numberNode 1)) ⟨[some (numberNode 2)], false, false⟩
          (some ⟨[some (numberNode 3)], false, false⟩), q)) ∧
    outcome (parse 20 (Parser.init (Token.id "if" :: ifBraced)))
      = .ok ⟨[], ⟨[some (.If (some (numberNode 1)) ⟨[some (numberNode 2)], false, false⟩
          (some ⟨[some (numberNode 3)], false, false⟩))], false, false⟩, ⟨0, 0⟩⟩ ∧
    outcome (parse 20 (Parser.init (Token.id "if" :: ifUnbraced)))
      = .ok ⟨[], ⟨[some (.If (some (numberNode 1)) ⟨[some (numberNode 2)], false, false⟩
          (some ⟨[some (numberNode 3)], false, false⟩))], false, false⟩, ⟨0, 0⟩⟩ :=
  ⟨⟨_, (if_forms 0 (some (numberNode 1)) (numberNode 2) (numberNode 3)).1
      (Parser.init ifBraced).seedTypes
      (Parser.init ifBraced).seedTypes.advance.advance
      (Parser.init ifBraced).seedTypes.advance.advance.advance.advance.advance
      (Parser.init ifBraced).seedTypes.advance.advance.advance.advance.advance.advance.advance.advance.advance
      rfl rfl rfl rfl rfl rfl ⟨rfl, rfl⟩ rfl rfl rfl⟩,
    ⟨_, (if_forms 0 (some (numberNode 1)) (numberNode 2) (numberNode 3)).2.1
      (Parser.init ifUnbraced).seedTypes
      (Parser.init ifUnbraced).seedTypes.advance.advance
      (Parser.init ifUnbraced).seedTypes.advance.advance.advance.advance
      (Parser.init ifUnbraced).seedTypes.advance.advance.advance.advance.advance.advance
      rfl rfl rfl (by decide) rfl ⟨rfl, rfl⟩ (by decide) rfl⟩,
    rfl, rfl⟩

/-! ## The arguments of accepted calls -/

/-- C18, counterexample: in `f : Int -> Int`, `f(a) { a(y) }` the call `a(y)`
has the identifier `a` as its callee and the unbound identifier `y`, which
records no type, as its argument, and the program is accepted: `a` is a
parameter of `f`, so the callee is the pointer to the argument object and not
an `ID` node, and `typeCheck` checks nothing, whatever the signature table. -/
theorem parameter_callee_unchecked :
    (∃ q, parse 20 (Parser.init parameterCallee)
      = .ok (⟨["f", "Int", "a", "y"],
          ⟨[some (.Function ⟨"f", 0, Loc.unset⟩ [0]
              ⟨[some (.Call (.FunctionArgument 0) [.ID ⟨"y", 3, Loc.unset⟩] Loc.unset
                  ⟨8, [none]⟩)], false, false⟩
              Loc.unset ⟨6, [some 0, some 0]⟩)], false, false⟩,
          Loc.unset⟩, q)) ∧
    (∀ m_typeInfo : List (String × TypeChain),
      typeCheck m_typeInfo (.FunctionArgument 0) [.ID ⟨"y", 3, Loc.unset⟩] ⟨8, [none]⟩
        = .ok ()) :=
  ⟨⟨_, rfl⟩, fun _ => rfl⟩

/-- C18, amended: only three kinds of argument pass the type check.  In the
tree of every program that a fresh parser accepts, every call whose callee is
an `ID` node and that is not itself a callee, which is a call `typeCheck` has
checked and accepted, has as arguments only number literals with the registry
type of `Int`, string literals with the registry type of `String`, and
pointers to argument objects that are parameters of the function whose body
directly contains the call (at the top level there is none) and have the type
the signature of that function has at their index: `Within` hands every node
the `arguments` and the chain of the nearest enclosing `Function` node, and
`OwnParameter` says that the object is entry `k` of these `arguments`, has
index `k % 2 ^ 32` and has the type of the chain at its index.  `Int` is the
type at address 0 and `String` the one at address 5.  So `double(double(5))`, `double(y)` with `y` unbound,
`double(double)`, `double(if (1) 2)` and a call `f(a)` with `a` a captured
parameter of an outer function are all rejected. -/
theorem accepted_call_arguments :
    (∀ fuel tokens prog q, parse fuel (Parser.init tokens) = .ok (prog, q) →
      ∀ n, some n ∈ prog.body.nodes →
        Within (AcceptedOwn (seededTypes 0) q.heap) none false n) ∧
    (seededTypes 0).lookup "Int" = some 0 ∧ (seededTypes 0).lookup "String" = some 5 ∧
    outcome (parse 20 (Parser.init (declDouble ++
        [.id "double", .punct .L_PAREN, .id "double", .punct .L_PAREN, .number 5,
         .punct .R_PAREN, .punct .R_PAREN, .punct .END])))
      = .error (.TypeMismatch 0 8) ∧
    outcome (parse 20 (Parser.init (declDouble ++
        [.id "double", .punct .L_PAREN, .id "y", .punct .R_PAREN, .punct .END])))
      = .error .NullPointer ∧
    outcome (parse 20 (Parser.init (declDouble ++
        [.id "double", .punct .L_PAREN, .id "double", .punct .R_PAREN, .punct .END])))
      = .error .NullPointer ∧
    outcome (parse 20 (Parser.init (declDouble ++
        [.id "double", .punct .L_PAREN, .id "if", .punct .L_PAREN, .number 1, .punct .R_PAREN,
         .number 2, .punct .R_PAREN, .punct .END])))
      = .error .NullPointer ∧
    outcome (parse 40 (Parser.init
        [.id "f", .punct .TYPE, .id "Int", .punct .ARROW, .id "Int",
         .id "g", .punct .TYPE, .id "Int", .punct .ARROW, .id "Int",
         .id "f", .punct .L_PAREN, .id "a", .punct .R_PAREN, .punct .L_BRACE,
         .id "g", .punct .L_PAREN, .id "x", .punct .R_PAREN, .punct .L_BRACE,
         .id "f", .punct .L_PAREN, .id "a", .punct .R_PAREN,
         .punct .R_BRACE, .punct .R_BRACE, .punct .END]))
      = .error .NullPointer := by
  refine ⟨?_, rfl, rfl, rfl, rfl, rfl, rfl, rfl⟩
  intro fuel tokens prog q h n hn
  exact (parse_owned h n hn).accepted (parse_accepted h n hn)

/-- C18 at `double : Int -> Int  double(x) { double(x) }  double(5)`, whose
two calls have a parameter of `double` and a number as arguments. -/
theorem accepted_call_arguments_witness :
    ∃ prog q, parse 40 (Parser.init (declDouble ++
        [Token.id "double", Token.punct .L_PAREN, Token.id "x", Token.punct .R_PAREN,
         Token.punct .L_BRACE, Token.id "double", Token.punct .L_PAREN, Token.id "x",
         Token.punct .R_PAREN, Token.punct .R_BRACE,
         Token.id "double", Token.punct .L_PAREN, Token.number 5, Token.punct .R_PAREN,
         Token.punct .END])) = .ok (prog, q) ∧
      prog.body.nodes.length = 2 ∧
      ∀ n, some n ∈ prog.body.nodes →
        Within (AcceptedOwn (seededTypes 0) q.heap) none false n := by
  have h : ∃ r, parse 40 (Parser.init (declDouble ++
      [Token.id "double", Token.punct .L_PAREN, Token.id "x", Token.punct .R_PAREN,
       Token.punct .L_BRACE, Token.id "double", Token.punct .L_PAREN, Token.id "x",
       Token.punct .R_PAREN, Token.punct .R_BRACE,
       Token.id "double", Token.punct .L_PAREN, Token.number 5, Token.punct .R_PAREN,
       Token.punct .END])) = .ok r ∧ r.1.body.nodes.length = 2 := ⟨_, rfl, rfl⟩
  obtain ⟨⟨prog, q⟩, h, hl⟩ := h
  exact ⟨prog, q, h, hl, accepted_call_arguments.1 40 _ prog q h⟩
end ceos
